import Mathlib

/-!
Verification of the path-indexed metadata/consistency engine of the
`aws_services_backend` repository (NestJS + S3 + TypeORM).

Strings are modelled as `List Char` (`Str`), faithful to JavaScript string
operations used by the source.  The metadata table `nova_s3` is a list of
`Entry` records; the blob store is a set of keys modelled as a list.
All service operations of `NovaS3Service` are embedded as state functions
over a combined system state, with injected fault flags standing for
S3 request failures.
-/

set_option autoImplicit false

namespace NovaS3

abbrev Str := List Char

/-- Shorthand to build a `Str` from a string literal. -/
def str (s : String) : Str := s.data

/-- JS `String.prototype.trim` whitespace (the ASCII fragment; the source
never feeds non-ASCII whitespace into paths). -/
def isWs (c : Char) : Bool :=
  c = ' ' || c = '\t' || c = '\n' || c = '\r' || c = '\x0b' || c = '\x0c'

/-- Left trim. -/
def trimL (s : Str) : Str := s.dropWhile isWs

/-- Right trim. -/
def trimR (s : Str) : Str := (s.reverse.dropWhile isWs).reverse

/-- JS `s.trim()`. -/
def jsTrim (s : Str) : Str := trimR (trimL s)

/-- JS `s.replace(/\\/g, '/')`. -/
def bslToSlash (s : Str) : Str := s.map (fun c => if c = '\\' then '/' else c)

/-- One leading `'/'` removed, if present (the `^\/` alternative of the
source regex `/^\/|\/$/g`, which can only match at index 0, hence at most
once). -/
def stripOneLead : Str → Str
  | [] => []
  | c :: t => if c = '/' then t else c :: t

/-- One trailing `'/'` removed, if present (the `\/$` alternative, which can
only match at the final index, hence at most once). -/
def stripOneTrail (s : Str) : Str :=
  match s.reverse with
  | [] => s
  | c :: t => if c = '/' then t.reverse else s

/-- `NovaS3Service.normPath`:
`(path || '').trim().replace(/\\/g,'/').replace(/^\/|\/$/g,'')`.
Note the final regex removes at most ONE leading and ONE trailing slash. -/
def normPath (s : Str) : Str := stripOneTrail (stripOneLead (bslToSlash (jsTrim s)))

/-- `NovaS3Service.normRoot`: `(root || 'nova-s3').replace(/^\/|\/$/g, '')`. -/
def normRoot (r : Str) : Str :=
  stripOneTrail (stripOneLead (if r = [] then str "nova-s3" else r))

/-- JS `clean.split('/')` over char lists ( `''.split('/') = ['']` ). -/
def splitSlash : Str → List Str
  | [] => [[]]
  | c :: t =>
      if c = '/' then [] :: splitSlash t
      else
        match splitSlash t with
        | [] => [[c]]
        | h :: r => (c :: h) :: r

/-- JS `parts.join('/')`. -/
def joinSegs : List Str → Str
  | [] => []
  | [x] => x
  | x :: y :: r => x ++ '/' :: joinSegs (y :: r)

/-- `NovaS3Service.joinPath`. -/
def joinPath (path name : Str) : Str :=
  let p := normPath path
  let n := normPath name
  if p = [] then n else p ++ '/' :: n

/-- `NovaS3Service.parentOf`. -/
def parentOf (relativePath : Str) : Str :=
  let clean := normPath relativePath
  if clean = [] then [] else joinSegs (splitSlash clean).dropLast

/-- `NovaS3Service.nameOf` (`clean.split('/').pop() || ''`). -/
def nameOf (relativePath : Str) : Str :=
  let clean := normPath relativePath
  if clean = [] then [] else ((splitSlash clean).getLast?).getD []

/-- `NovaS3Service.relFromOriginalName`. -/
def relFromOriginalName (name : Str) : Str := normPath name

/-- `NovaS3Service.tenantPrefix`. -/
def tenantPrefix (employeeNumber : Option Str) : Str :=
  let e := jsTrim (employeeNumber.getD [])
  if e = [] then [] else normPath e

/-- `NovaS3Service.s3BaseFolder`. -/
def s3BaseFolder (root : Str) (employeeNumber : Option Str) : Str :=
  let tenant := tenantPrefix employeeNumber
  if tenant = [] then normRoot root else normRoot root ++ '/' :: tenant

/-- `NovaS3Service.buildTenantS3Key`. -/
def buildTenantS3Key (root : Str) (employeeNumber : Option Str)
    (relativePath : Str) (isFolder : Bool) : Str :=
  let base := s3BaseFolder root employeeNumber
  let rel := normPath relativePath
  let full := if rel = [] then base else base ++ '/' :: rel
  if isFolder then (if full.getLast? = some '/' then full else full ++ ['/']) else full

/-- JS `s.replace(/\/+/g, '/')`: collapse runs of slashes. -/
def collapseSlash : Str → Str
  | [] => []
  | [c] => [c]
  | c1 :: c2 :: t =>
      if c1 = '/' && c2 = '/' then collapseSlash (c2 :: t)
      else c1 :: collapseSlash (c2 :: t)

/-- All leading slashes removed (`/^\/+/`). -/
def stripAllLead (s : Str) : Str := s.dropWhile (· = '/')

/-- All trailing slashes removed (`/\/+$/`). -/
def stripAllTrail (s : Str) : Str := (s.reverse.dropWhile (· = '/')).reverse

/-- `NovaS3StorageUtil.norm`:
`(p||'').replace(/\\/g,'/').replace(/^\/+|\/+$/g,'').replace(/\/+/g,'/')`. -/
def snorm (p : Str) : Str :=
  collapseSlash (stripAllTrail (stripAllLead (bslToSlash p)))

/-- `NovaS3StorageUtil.buildKey`. -/
def storageBuildKey (folder relativePath : Str) : Str :=
  let f := snorm folder
  let r := snorm relativePath
  if r = [] then f else f ++ '/' :: r

/-- `NovaS3Service.relativeFromS3Key`. -/
def relativeFromS3Key (baseFolder key : Str) : Str :=
  let k := stripAllLead (bslToSlash key)
  if k = [] then []
  else
    let base := stripAllTrail (bslToSlash baseFolder)
    let pre := if base = [] then [] else base ++ ['/']
    if pre ≠ [] ∧ pre.isPrefixOf k then normPath (k.drop pre.length)
    else normPath k

/-- One step of the accumulator `acc = acc ? `${acc}/${part}` : part`. -/
def accStep (acc part : Str) : Str := if acc = [] then part else acc ++ '/' :: part

/-- The cumulative prefixes `acc` built by `ensureFolderChain` while walking
the segments of a path. -/
def accPrefixes (acc : Str) : List Str → List Str
  | [] => []
  | part :: t => accStep acc part :: accPrefixes (accStep acc part) t

/-- Segment-by-segment prefixes of a path, as visited by `ensureFolderChain`
(`clean.split('/').filter(Boolean)`). -/
def segPrefixes (p : Str) : List Str :=
  accPrefixes [] ((splitSlash (normPath p)).filter (· ≠ []))

/-! ### Facts about the normalization stages -/

/-- Head of a list does not satisfy `p` (vacuously true for `[]`). -/
def noLead (p : Char → Bool) (s : Str) : Bool :=
  match s with
  | [] => true
  | c :: _ => !p c

/-- Last element of a list does not satisfy `p`. -/
def noTrail (p : Char → Bool) (s : Str) : Bool := noLead p s.reverse

theorem trimL_sublist (s : Str) : (trimL s).Sublist s := List.dropWhile_sublist _

theorem trimR_eq (s : Str) : trimR s = (trimL s.reverse).reverse := rfl

theorem trimR_sublist (s : Str) : (trimR s).Sublist s := by
  have h := (List.dropWhile_sublist (l := s.reverse) isWs).reverse
  simpa [trimR] using h

theorem jsTrim_sublist (s : Str) : (jsTrim s).Sublist s :=
  (trimR_sublist (trimL s)).trans (trimL_sublist s)

theorem stripOneLead_sublist (s : Str) : (stripOneLead s).Sublist s := by
  cases s with
  | nil => simp [stripOneLead]
  | cons c t =>
      by_cases hc : c = '/' <;> simp [stripOneLead, hc]

theorem stripOneTrail_eq (s : Str) : stripOneTrail s = (stripOneLead s.reverse).reverse := by
  unfold stripOneTrail stripOneLead
  cases h : s.reverse with
  | nil =>
      have : s = [] := by simpa using congrArg List.reverse h
      simp [this]
  | cons c t =>
      by_cases hc : c = '/'
      · simp [hc]
      · have : (c :: t).reverse = s := by
          rw [← h, List.reverse_reverse]
        simp [hc, this]

theorem stripOneTrail_sublist (s : Str) : (stripOneTrail s).Sublist s := by
  rw [stripOneTrail_eq]
  have h := (stripOneLead_sublist s.reverse).reverse
  simpa using h

theorem sub_eq_of_len {a b : Str} (h : a.Sublist b) (hl : b.length ≤ a.length) : a = b :=
  h.eq_of_length (Nat.le_antisymm h.length_le hl)

theorem trimL_eq_self_iff (s : Str) : trimL s = s ↔ noLead isWs s = true := by
  cases s with
  | nil => simp [trimL, noLead]
  | cons c t =>
      by_cases hw : isWs c
      · simp only [trimL, List.dropWhile_cons, hw, if_true, noLead, hw,
          Bool.not_true]
        constructor
        · intro h
          have hlen := congrArg List.length h
          have hle := (List.dropWhile_sublist (l := t) isWs).length_le
          simp at hlen
          omega
        · intro h; exact absurd h (by simp)
      · simp [trimL, List.dropWhile_cons, hw, noLead]

theorem trimR_eq_self_iff (s : Str) : trimR s = s ↔ noTrail isWs s = true := by
  rw [trimR_eq, noTrail, ← trimL_eq_self_iff]
  constructor
  · intro h
    have := congrArg List.reverse h
    simpa using this
  · intro h
    rw [h, List.reverse_reverse]

theorem stripOneLead_eq_self_iff (s : Str) :
    stripOneLead s = s ↔ noLead (· = '/') s = true := by
  cases s with
  | nil => simp [stripOneLead, noLead]
  | cons c t =>
      by_cases hc : c = '/'
      · subst hc
        simp only [stripOneLead, if_true, noLead]
        constructor
        · intro h
          have := congrArg List.length h
          simp at this
        · simp
      · simp [stripOneLead, hc, noLead]

theorem stripOneTrail_eq_self_iff (s : Str) :
    stripOneTrail s = s ↔ noTrail (· = '/') s = true := by
  rw [stripOneTrail_eq, noTrail, ← stripOneLead_eq_self_iff]
  constructor
  · intro h
    have := congrArg List.reverse h
    simpa using this
  · intro h
    rw [h, List.reverse_reverse]

theorem bslToSlash_eq_self_iff (s : Str) : bslToSlash s = s ↔ '\\' ∉ s := by
  induction s with
  | nil => simp [bslToSlash]
  | cons c t ih =>
      simp only [bslToSlash, List.map_cons, List.cons.injEq, List.mem_cons] at ih ⊢
      by_cases hc : c = '\\'
      · subst hc
        simp
      · simp [hc, Ne.symm hc, ih]

theorem jsTrim_eq_self_iff (s : Str) : jsTrim s = s ↔ trimL s = s ∧ trimR s = s := by
  constructor
  · intro h
    have h1 : trimL s = s := by
      apply sub_eq_of_len (trimL_sublist s)
      calc s.length = (jsTrim s).length := by rw [h]
        _ ≤ (trimL s).length := (trimR_sublist (trimL s)).length_le
    refine ⟨h1, ?_⟩
    rw [jsTrim, h1] at h
    exact h
  · intro ⟨h1, h2⟩
    rw [jsTrim, h1, h2]

theorem normPath_eq_self_iff (s : Str) :
    normPath s = s ↔
      jsTrim s = s ∧ bslToSlash s = s ∧ stripOneLead s = s ∧ stripOneTrail s = s := by
  constructor
  · intro h
    have htards : (jsTrim s).length = s.length := by
      have h1 : s.length ≤ (stripOneLead (bslToSlash (jsTrim s))).length := by
        calc s.length = (normPath s).length := by rw [h]
          _ ≤ _ := (stripOneTrail_sublist _).length_le
      have h2 : (bslToSlash (jsTrim s)).length = (jsTrim s).length := by
        simp [bslToSlash]
      have h3 := (stripOneLead_sublist (bslToSlash (jsTrim s))).length_le
      have h4 := (jsTrim_sublist s).length_le
      omega
    have htr : jsTrim s = s := sub_eq_of_len (jsTrim_sublist s) (by omega)
    rw [normPath, htr] at h
    have hlead : stripOneLead (bslToSlash s) = bslToSlash s := by
      apply sub_eq_of_len (stripOneLead_sublist _)
      have h1 : s.length ≤ (stripOneLead (bslToSlash s)).length := by
        calc s.length = (stripOneTrail (stripOneLead (bslToSlash s))).length := by rw [h]
          _ ≤ _ := (stripOneTrail_sublist _).length_le
      simp [bslToSlash] at h1 ⊢
      omega
    rw [hlead] at h
    have htrail : stripOneTrail (bslToSlash s) = bslToSlash s := by
      apply sub_eq_of_len (stripOneTrail_sublist _)
      have h1 : (bslToSlash s).length = s.length := by simp [bslToSlash]
      rw [h, h1]
    rw [htrail] at h
    refine ⟨htr, h, ?_, ?_⟩
    · conv_lhs => rw [← h]
      rw [hlead, h]
    · conv_lhs => rw [← h]
      rw [htrail, h]
  · intro ⟨h1, h2, h3, h4⟩
    rw [normPath, h1, h2, h3, h4]

theorem normPath_no_bslash (s : Str) : '\\' ∉ normPath s := by
  intro hmem
  have h1 : '\\' ∈ bslToSlash (jsTrim s) :=
    (stripOneLead_sublist _).subset ((stripOneTrail_sublist _).subset hmem)
  rcases List.mem_map.mp h1 with ⟨c, _, hc⟩
  by_cases h : c = '\\' <;> simp [h] at hc

/-! ### Facts about `splitSlash` and `joinSegs` -/

theorem splitSlash_ne_nil (s : Str) : splitSlash s ≠ [] := by
  cases s with
  | nil => simp [splitSlash]
  | cons c t =>
      by_cases hc : c = '/'
      · simp [splitSlash, hc]
      · simp only [splitSlash, hc, if_false]
        cases h : splitSlash t <;> simp

theorem splitSlash_append (a b : Str) :
    splitSlash (a ++ '/' :: b) = splitSlash a ++ splitSlash b := by
  induction a with
  | nil => simp [splitSlash]
  | cons c t ih =>
      by_cases hc : c = '/'
      · simp [splitSlash, hc, ih]
      · simp only [List.cons_append, splitSlash, hc, if_false]
        cases h : splitSlash t with
        | nil => exact absurd h (splitSlash_ne_nil t)
        | cons x r =>
            simp only [List.append_eq]
            rw [ih, h]
            simp

theorem splitSlash_no_slash (s : Str) (h : '/' ∉ s) : splitSlash s = [s] := by
  induction s with
  | nil => simp [splitSlash]
  | cons c t ih =>
      have hc : c ≠ '/' := fun hc => h (by simp [hc])
      have ht : '/' ∉ t := fun hm => h (by simp [hm])
      simp [splitSlash, hc, ih ht]

theorem joinSegs_cons₂ (x y : Str) (r : List Str) :
    joinSegs (x :: y :: r) = x ++ '/' :: joinSegs (y :: r) := rfl

theorem joinSegs_splitSlash (s : Str) : joinSegs (splitSlash s) = s := by
  induction s with
  | nil => simp [splitSlash, joinSegs]
  | cons c t ih =>
      by_cases hc : c = '/'
      · subst hc
        simp only [splitSlash, if_true]
        cases h : splitSlash t with
        | nil => exact absurd h (splitSlash_ne_nil t)
        | cons x r =>
            rw [h] at ih
            rw [joinSegs_cons₂]
            simp [ih]
      · simp only [splitSlash, hc, if_false]
        cases h : splitSlash t with
        | nil => exact absurd h (splitSlash_ne_nil t)
        | cons x r =>
            rw [h] at ih
            cases r with
            | nil =>
                simp [joinSegs] at ih ⊢
                simp [ih]
            | cons y r' =>
                rw [joinSegs_cons₂] at ih ⊢
                simp [ih]

theorem splitSlash_joinSegs (l : List Str) (h1 : ∀ x ∈ l, '/' ∉ x) (h2 : l ≠ []) :
    splitSlash (joinSegs l) = l := by
  induction l with
  | nil => exact absurd rfl h2
  | cons x r ih =>
      cases r with
      | nil =>
          simp [joinSegs]
          exact splitSlash_no_slash x (h1 x (by simp))
      | cons y r' =>
          rw [joinSegs_cons₂, splitSlash_append]
          rw [splitSlash_no_slash x (h1 x (by simp))]
          rw [ih (fun z hz => h1 z (by simp [hz])) (by simp)]
          simp

/-! ### Closure of `normPath` fixpoints under join -/

theorem noLead_append (q : Char → Bool) (p x : Str) (hp : p ≠ []) :
    noLead q (p ++ x) = noLead q p := by
  cases p with
  | nil => exact absurd rfl hp
  | cons c t => simp [noLead]

theorem noTrail_append (q : Char → Bool) (p x : Str) (hx : x ≠ []) :
    noTrail q (p ++ x) = noTrail q x := by
  unfold noTrail
  rw [List.reverse_append]
  exact noLead_append q x.reverse p.reverse (by simpa using hx)

theorem bslToSlash_join (p n : Str) :
    bslToSlash (p ++ '/' :: n) = bslToSlash p ++ '/' :: bslToSlash n := by
  simp [bslToSlash]

theorem normPath_fix_join (p n : Str) (hp : normPath p = p) (hn : normPath n = n)
    (hpne : p ≠ []) (hnne : n ≠ []) : normPath (p ++ '/' :: n) = p ++ '/' :: n := by
  obtain ⟨hpt, hpb, hpl, hptr⟩ := (normPath_eq_self_iff p).mp hp
  obtain ⟨hnt, hnb, hnl, hntr⟩ := (normPath_eq_self_iff n).mp hn
  obtain ⟨hptl, hptr'⟩ := (jsTrim_eq_self_iff p).mp hpt
  obtain ⟨hntl, hntr'⟩ := (jsTrim_eq_self_iff n).mp hnt
  apply (normPath_eq_self_iff _).mpr
  have hslne : ('/' :: n : Str) ≠ [] := by simp
  refine ⟨(jsTrim_eq_self_iff _).mpr ⟨?_, ?_⟩, ?_, ?_, ?_⟩
  · rw [trimL_eq_self_iff, noLead_append _ _ _ hpne, ← trimL_eq_self_iff]
    exact hptl
  · rw [trimR_eq_self_iff, noTrail_append _ _ _ hslne]
    have : noTrail isWs ('/' :: n) = noTrail isWs n := by
      have := noTrail_append isWs ['/'] n hnne
      simpa using this
    rw [this, ← trimR_eq_self_iff]
    exact hntr'
  · rw [bslToSlash_join, hpb, hnb]
  · rw [stripOneLead_eq_self_iff, noLead_append _ _ _ hpne, ← stripOneLead_eq_self_iff]
    exact hpl
  · rw [stripOneTrail_eq_self_iff, noTrail_append _ _ _ hslne]
    have : noTrail (· = '/') ('/' :: n) = noTrail (· = '/') n := by
      have := noTrail_append (· = '/') ['/'] n hnne
      simpa using this
    rw [this, ← stripOneTrail_eq_self_iff]
    exact hntr

/-- Both ends of a string free of whitespace and separators. -/
def goodEnds (s : Str) : Bool :=
  noLead isWs s && noLead (· = '/') s && noTrail isWs s && noTrail (· = '/') s

/-! ### Data model: the `nova_s3` table and the blob store -/

/-- `NovaS3ItemType`. -/
inductive EType
  | folder
  | file
  | folderUpload
  | multiFileUpload
deriving DecidableEq, Repr

/-- One row of the `nova_s3` table (`NovaS3` entity).  `meta`, `createdAt`
and `updatedAt` are provenance/bookkeeping and never read by the engine. -/
structure Entry where
  id : Nat
  root : Str
  path : Str
  name : Str
  type : EType
  parentPath : Str
  s3Key : Str
  size : Option Nat
  mimeType : Option Str
  employeeNumber : Option Str
deriving DecidableEq, Repr

abbrev Store := List Entry

/-- Combined system state: metadata table, blob-store key set, and the
id sequence of the primary-key generator. -/
structure Sys where
  db : Store
  s3 : List Str
  nextId : Nat
deriving DecidableEq, Repr

/-- Failure taxonomy: `BadRequestException`, S3 `InternalServerErrorException`,
and a violation of the unique index `uq_nova_s3_root_emp_path`. -/
inductive Err
  | validation (msg : Str)
  | storage
  | uniqueViolation
deriving DecidableEq, Repr

/-- State + exception monad: an exception leaves the state as it was at the
throw point (no transaction spans an entire service call). -/
def StM (σ : Type) (α : Type) : Type := σ → Except Err α × σ

instance {σ : Type} : Monad (StM σ) where
  pure a := fun s => (Except.ok a, s)
  bind x f := fun s =>
    match x s with
    | (Except.ok a, s') => f a s'
    | (Except.error e, s') => (Except.error e, s')

def StM.fail {σ α : Type} (e : Err) : StM σ α := fun s => (Except.error e, s)

@[simp] theorem StM.run_bind {σ α β : Type} (x : StM σ α) (f : α → StM σ β) (s : σ) :
    (x >>= f) s =
      match x s with
      | (Except.ok a, s') => f a s'
      | (Except.error e, s') => (Except.error e, s') := rfl

@[simp] theorem StM.run_pure {σ α : Type} (a : α) (s : σ) :
    (pure a : StM σ α) s = (Except.ok a, s) := rfl

@[simp] theorem StM.run_fail {σ α : Type} (e : Err) (s : σ) :
    (StM.fail e : StM σ α) s = (Except.error e, s) := rfl

/-! ### TypeORM repository primitives -/

/-- `repo.findOne({ where })`. -/
def findOneDb (p : Entry → Bool) : StM Sys (Option Entry) :=
  fun s => (Except.ok (s.db.find? p), s)

/-- `repo.find({ where })` (result ordering is DB presentation only and is
not modelled). -/
def findAllDb (p : Entry → Bool) : StM Sys (List Entry) :=
  fun s => (Except.ok (s.db.filter p), s)

/-- Same value of the unique key `(root, employeeNumber, path)`. -/
def entryKeyEq (a b : Entry) : Bool :=
  a.root == b.root && a.employeeNumber == b.employeeNumber && a.path == b.path

/-- `repo.save(newObject)`: INSERT with a generated id; the unique index
rejects it when a row with the same key already exists. -/
def saveNewDb (e0 : Entry) : StM Sys Unit :=
  fun s =>
    if s.db.any (fun x => entryKeyEq x e0) then (Except.error Err.uniqueViolation, s)
    else (Except.ok (), { s with db := s.db ++ [{ e0 with id := s.nextId }],
                                 nextId := s.nextId + 1 })

/-- `repo.save(fetchedEntity)` after mutating its fields: UPDATE by primary
key; the unique index rejects it when the new key collides with a different
row. -/
def saveUpdateDb (e2 : Entry) : StM Sys Unit :=
  fun s =>
    if s.db.any (fun x => x.id ≠ e2.id && entryKeyEq x e2) then
      (Except.error Err.uniqueViolation, s)
    else (Except.ok (), { s with db := s.db.map (fun x => if x.id = e2.id then e2 else x) })

/-- True when no two rows share the unique key. -/
def uniqueKeysOk : Store → Bool
  | [] => true
  | e :: t => !(t.any (fun x => entryKeyEq x e)) && uniqueKeysOk t

/-- `repo.save(array)` for the cascade: a transactional batch of UPDATEs by
primary key; all-or-nothing under a unique-index violation. -/
def saveManyDb (rows : List Entry) : StM Sys Unit :=
  fun s =>
    let db2 := s.db.map (fun x =>
      match rows.find? (fun r => r.id == x.id) with
      | some r => r
      | none => x)
    if uniqueKeysOk db2 then (Except.ok (), { s with db := db2 })
    else (Except.error Err.uniqueViolation, s)

/-- `repo.upsert([row], ['root','employeeNumber','path'])` for one row:
`ON CONFLICT (root, employeeNumber, path) DO UPDATE` overwrites the row
with that key, else a fresh row is inserted. -/
def upsertRowDb (e0 : Entry) : StM Sys Unit :=
  fun s =>
    if s.db.any (fun x => entryKeyEq x e0) then
      (Except.ok (),
        { s with db := s.db.map (fun x => if entryKeyEq x e0 then { e0 with id := x.id } else x) })
    else
      (Except.ok (), { s with db := s.db ++ [{ e0 with id := s.nextId }],
                              nextId := s.nextId + 1 })

/-- `NovaS3Service.upsertFiles` (bulk upsert; empty input is a no-op). -/
def upsertManyDb : List Entry → StM Sys Unit
  | [] => pure ()
  | r :: t => do
      upsertRowDb r
      upsertManyDb t

/-- `repo.delete(criteria)`, returning `affected`. -/
def deleteDb (p : Entry → Bool) : StM Sys Nat :=
  fun s => (Except.ok (s.db.filter p).length, { s with db := s.db.filter (fun e => !p e) })

/-! ### Blob-store primitives (`NovaS3StorageUtil`) -/

/-- `PutObject` (sets membership of the key). -/
def s3Put (key : Str) : StM Sys Unit :=
  fun s => (Except.ok (), { s with s3 := if s.s3.contains key then s.s3 else s.s3 ++ [key] })

/-- `DeleteObject`. -/
def s3Delete (key : Str) : StM Sys Unit :=
  fun s => (Except.ok (), { s with s3 := s.s3.filter (fun k => !(k == key)) })

/-- Full paginated `ListObjectsV2` accumulation for a prefix. -/
def s3ListPrefix (pre : Str) : StM Sys (List Str) :=
  fun s => (Except.ok (s.s3.filter (fun k => pre.isPrefixOf k)), s)

def s3PutAll : List Str → StM Sys Unit
  | [] => pure ()
  | k :: t => do
      s3Put k
      s3PutAll t

def s3DeleteAll : List Str → StM Sys Unit
  | [] => pure ()
  | k :: t => do
      s3Delete k
      s3DeleteAll t

/-- A multipart file as far as the engine reads it. -/
structure MFile where
  originalname : Str
  size : Option Nat
  mimetype : Option Str
deriving DecidableEq, Repr

/-- One successful element of `uploadMultipleFiles(...).results`. -/
structure UpResult where
  filename : Str
  key : Str
deriving DecidableEq, Repr

/-- The aggregate result of `NovaS3StorageUtil.uploadMultipleFiles`. -/
structure UploadManyRaw where
  success : Bool
  results : List UpResult
  errors : List Str
deriving DecidableEq, Repr

/-- `NovaS3StorageUtil.createFolderMarker`. -/
def stCreateFolderMarker (folder rel : Str) : StM Sys Str := do
  let key := storageBuildKey folder rel
  let markerKey := if key.getLast? = some '/' then key else key ++ ['/']
  s3Put markerKey
  pure markerKey

/-- The relative path used for file `i`:
`paths?.[i] ? paths[i] : file.originalname` (an empty string is falsy). -/
def relAt (paths : Option (List Str)) (f : MFile) (i : Nat) : Str :=
  match paths with
  | some ps =>
      match ps.get? i with
      | some p => if p = [] then f.originalname else p
      | none => f.originalname
  | none => f.originalname

/-- Per-file loop of `NovaS3StorageUtil.uploadMultipleFiles`; `fails` injects
the outcome of each concurrent `PutObject` (index-based, default success). -/
def stUploadLoop (fails : List Bool) (folder : Str) (paths : Option (List Str)) :
    List MFile → Nat → StM Sys (List UpResult × List Str)
  | [], _ => pure ([], [])
  | f :: t, i => do
      let key := storageBuildKey folder (relAt paths f i)
      if fails.getD i false then do
        let (rs, es) ← stUploadLoop fails folder paths t (i + 1)
        pure (rs, f.originalname :: es)
      else do
        s3Put key
        let (rs, es) ← stUploadLoop fails folder paths t (i + 1)
        pure ({ filename := f.originalname, key := key } :: rs, es)

/-- `NovaS3StorageUtil.uploadMultipleFiles`: fan-out of `PutObject`s where
individual failures are collected, not propagated. -/
def stUploadMultipleFiles (fails : List Bool) (files : List MFile) (folder : Str)
    (paths : Option (List Str)) : StM Sys UploadManyRaw := do
  let (rs, es) ← stUploadLoop fails folder paths files 0
  pure { success := es.isEmpty, results := rs, errors := es }

/-- `NovaS3StorageUtil.renameFile`: CopyObject to the new key, then
DeleteObject on the old key, inside one try.  `fail` injects the throw and
`cut` how many of the two requests succeeded before it: with `cut = 0` the
copy itself fails (nothing mutated), otherwise the copy landed and the
delete fails, leaving the new key behind. -/
def stRenameFile (fail : Bool) (cut : Nat) (baseFolder oldRel newRel : Str) :
    StM Sys (Str × Str) :=
  if oldRel = [] ∨ newRel = [] then
    StM.fail (Err.validation (str "oldRelative/newRelative are required"))
  else
    let oldKey := storageBuildKey baseFolder oldRel
    let newKey := storageBuildKey baseFolder newRel
    if fail then
      if cut = 0 then StM.fail Err.storage
      else do
        s3Put newKey
        StM.fail Err.storage
    else do
      s3Put newKey
      s3Delete oldKey
      pure (oldKey, newKey)

/-- `NovaS3StorageUtil.moveFile` (copy to new key, delete old key). -/
def stMoveFile (fail : Bool) (baseFolder oldRel newRel : Str) : StM Sys (Str × Str) :=
  if fail then StM.fail Err.storage
  else do
    let oldKey := storageBuildKey baseFolder oldRel
    let newKey := storageBuildKey baseFolder newRel
    s3Put newKey
    s3Delete oldKey
    pure (oldKey, newKey)

/-- `NovaS3StorageUtil.movePrefix`: list everything under the old prefix,
copy each object to the new prefix keeping the relative suffix, then delete
the originals (each delete in its own try/catch, failures swallowed); an
empty folder becomes a marker at the target.  `fail` injects the throw of
the uncaught part (listing, the empty-folder marker put, or an object copy)
and `cut` how many copies landed before it — capped at `n - 1`, since once
all copies are through nothing left in the try block can throw. -/
def stMovePrefix (fail : Bool) (cut : Nat) (baseFolder oldRel newRel : Str) : StM Sys Nat := do
  let oldPre := storageBuildKey baseFolder oldRel
  let newPre := storageBuildKey baseFolder newRel
  let sourcePrefix := if oldPre.getLast? = some '/' then oldPre else oldPre ++ ['/']
  let targetPrefix := if newPre.getLast? = some '/' then newPre else newPre ++ ['/']
  let objs ← s3ListPrefix sourcePrefix
  if fail then
    if objs = [] then StM.fail Err.storage
    else do
      s3PutAll ((objs.take (min cut (objs.length - 1))).map
        (fun k => targetPrefix ++ k.drop sourcePrefix.length))
      StM.fail Err.storage
  else
    if objs = [] then do
      s3Put targetPrefix
      pure 0
    else do
      s3PutAll (objs.map (fun k => targetPrefix ++ k.drop sourcePrefix.length))
      s3DeleteAll objs
      pure objs.length

/-- `NovaS3StorageUtil.deleteObject`. -/
def stDeleteObject (fail : Bool) (baseFolder rel : Str) : StM Sys Str :=
  if fail then StM.fail Err.storage
  else do
    let key := storageBuildKey baseFolder rel
    s3Delete key
    pure key

/-- `NovaS3StorageUtil.deletePrefix`: list everything under the prefix and
delete object by object (uncaught), then try to delete the marker itself
(that last delete's failure is swallowed).  `fail` injects the throw and
`cut` how many object deletions went through first — capped at `n - 1`,
since after the loop only the caught marker delete remains. -/
def stDeletePrefix (fail : Bool) (cut : Nat) (baseFolder prefixRel : Str) : StM Sys Nat := do
  let pre0 := storageBuildKey baseFolder prefixRel
  let p := if pre0.getLast? = some '/' then pre0 else pre0 ++ ['/']
  let objs ← s3ListPrefix p
  if fail then do
    s3DeleteAll (objs.take (min cut (objs.length - 1)))
    StM.fail Err.storage
  else do
    s3DeleteAll objs
    s3Delete p
    pure objs.length

/-- `NovaS3StorageUtil.presignedGetUrl` (no state change; returns the
success flag and the key the URL is issued for). -/
def stPresignedGetUrl (fail : Bool) (baseFolder rel : Str) : StM Sys (Bool × Str) :=
  if fail then pure (false, [])
  else pure (true, storageBuildKey baseFolder rel)

/-! ### `NovaS3Service`: folder chain -/

/-- Fresh folder row as inserted by `ensureFolderChain` (id generated by the
store). -/
def folderRow (root : Str) (emp : Option Str) (acc2 part : Str) : Entry :=
  { id := 0, root := root, path := acc2, parentPath := parentOf acc2, name := part,
    type := EType.folder, s3Key := buildTenantS3Key root emp acc2 true,
    size := none, mimeType := none, employeeNumber := emp }

/-- The `findOne` predicate of `ensureFolderChain`:
`{ root, path: acc, type: 'folder', employeeNumber }`. -/
def folderAt (root : Str) (emp : Option Str) (acc2 : Str) (e : Entry) : Bool :=
  e.root == root && e.path == acc2 && e.type == EType.folder && e.employeeNumber == emp

/-- Segment loop of `NovaS3Service.ensureFolderChain`.  The `createFolderMarker`
call is wrapped in try/catch in the source (failures logged and swallowed),
so it is modelled as the successful marker write. -/
def ensureChainGo (root : Str) (emp : Option Str) : Str → List Str → StM Sys Unit
  | _, [] => pure ()
  | acc, part :: rest => do
      let acc2 := accStep acc part
      let found ← findOneDb (folderAt root emp acc2)
      match found with
      | none => do
          saveNewDb (folderRow root emp acc2 part)
          let _ ← stCreateFolderMarker (s3BaseFolder root emp) acc2
          ensureChainGo root emp acc2 rest
      | some _ => ensureChainGo root emp acc2 rest

/-- `NovaS3Service.ensureFolderChain`. -/
def ensureFolderChain (root folderPath : Str) (emp : Option Str) : StM Sys Unit :=
  let clean := normPath folderPath
  if clean = [] then pure ()
  else ensureChainGo root emp [] ((splitSlash clean).filter (· ≠ []))

/-- Request-scoped cache key `root|employeeNumber|acc`. -/
abbrev CacheKey := Str × Option Str × Str

/-- Segment loop of `NovaS3Service.ensureFolderChainCached` (adds the key to
the cache before querying; creates no S3 marker). -/
def ensureChainCachedGo (root : Str) (emp : Option Str) :
    Str → List CacheKey → List Str → StM Sys (List CacheKey)
  | _, cache, [] => pure cache
  | acc, cache, part :: rest => do
      let acc2 := accStep acc part
      let ck : CacheKey := (root, emp, acc2)
      if cache.contains ck then ensureChainCachedGo root emp acc2 cache rest
      else do
        let cache2 := ck :: cache
        let found ← findOneDb (folderAt root emp acc2)
        match found with
        | none => do
            saveNewDb (folderRow root emp acc2 part)
            ensureChainCachedGo root emp acc2 cache2 rest
        | some _ => ensureChainCachedGo root emp acc2 cache2 rest

/-- `NovaS3Service.ensureFolderChainCached`. -/
def ensureFolderChainCached (root folderPath : Str) (emp : Option Str)
    (cache : List CacheKey) : StM Sys (List CacheKey) :=
  let clean := normPath folderPath
  if clean = [] then pure cache
  else ensureChainCachedGo root emp [] cache ((splitSlash clean).filter (· ≠ []))

/-! ### `NovaS3Service`: single-row path update and cascade -/

/-- The `findOne` predicate `{ root, employeeNumber, path }`. -/
def keyPred (root : Str) (emp : Option Str) (path : Str) (e : Entry) : Bool :=
  e.root == root && e.employeeNumber == emp && e.path == path

/-- `NovaS3Service.updateOnePath`. -/
def updateOnePath (root : Str) (emp : Option Str) (oldPath newPath : Str) :
    StM Sys (Option Entry) := do
  let item ← findOneDb (keyPred root emp oldPath)
  match item with
  | none => pure none
  | some it => do
      let p := normPath newPath
      let it2 : Entry :=
        { it with
          path := p, parentPath := parentOf p, name := nameOf p,
          s3Key := buildTenantS3Key root emp p (it.type == EType.folder) }
      saveUpdateDb it2
      pure (some it2)

/-- The selection predicate of `cascadeUpdatePrefix`
(`path = oldP` OR `path LIKE 'oldP/%'`; faithful to SQL `LIKE` for prefixes
without wildcard characters). -/
def cascadeAff (root : Str) (emp : Option Str) (oldP : Str) (e : Entry) : Bool :=
  e.root == root && e.employeeNumber == emp &&
    (e.path == oldP || (oldP ++ ['/']).isPrefixOf e.path)

/-- The per-row rewrite of `cascadeUpdatePrefix`. -/
def cascadeRewrite (root : Str) (emp : Option Str) (oldP newP : Str) (row : Entry) : Entry :=
  let current := normPath row.path
  let p2 :=
    if current = oldP then newP
    else if (oldP ++ ['/']).isPrefixOf current then newP ++ '/' :: current.drop (oldP.length + 1)
    else row.path
  { row with
    path := p2, parentPath := parentOf p2, name := nameOf p2,
    s3Key := buildTenantS3Key root emp p2 (row.type == EType.folder) }

/-- `NovaS3Service.cascadeUpdatePrefix`. -/
def cascadeUpdatePrefix (root : Str) (emp : Option Str) (oldPrefix newPrefix : Str) :
    StM Sys Nat := do
  let oldP := normPath oldPrefix
  let newP := normPath newPrefix
  let affected ← findAllDb (cascadeAff root emp oldP)
  let rewritten := affected.map (cascadeRewrite root emp oldP newP)
  if rewritten.length ≠ 0 then saveManyDb rewritten
  pure affected.length

/-! ### `NovaS3Service`: read endpoints -/

structure ListResp where
  root : Str
  path : Str
  total : Nat
  items : List Entry
deriving DecidableEq, Repr

/-- `NovaS3Service.list` (DB only; the `sortBy`/`order` presentation sort is
not modelled). -/
def listOp (root path : Str) (emp : Option Str) : StM Sys ListResp := do
  let r := normRoot root
  let p := normPath path
  let items ← findAllDb (fun e => e.root == r && e.parentPath == p && e.employeeNumber == emp)
  pure { root := r, path := p, total := items.length, items := items }

inductive TreeNode where
  | mk (name path : Str) (isFolder : Bool) (size : Option Nat) (children : List TreeNode)

/-- Recursive attachment of children by `parentPath`, the denotation of the
`childrenMap`/`folderMap` construction of `NovaS3Service.tree` on acyclic
stores (`fuel` bounds the nesting depth). -/
def treeBuild (all : List Entry) : Str → Nat → List TreeNode
  | _, 0 => []
  | p, fuel + 1 =>
      (all.filter (fun e => e.parentPath == p)).map (fun e =>
        TreeNode.mk e.name e.path (e.type == EType.folder) e.size
          (if e.type == EType.folder then treeBuild all e.path fuel else []))

def TreeNode.isFolderNode : TreeNode → Bool
  | .mk _ _ f _ _ => f

structure TreeResp where
  rootName : Str
  children : List TreeNode
  files : List TreeNode

/-- `NovaS3Service.tree` (DB only). -/
def treeOp (root : Str) (emp : Option Str) : StM Sys TreeResp := do
  let r := normRoot root
  let all ← findAllDb (fun e => e.root == r && e.employeeNumber == emp)
  let top := treeBuild all [] (all.length + 1)
  pure { rootName := r,
         children := top.filter (fun n => n.isFolderNode),
         files := top.filter (fun n => !n.isFolderNode) }

/-! ### `NovaS3Service`: createFolder and uploads -/

structure FolderResp where
  finalPath : Str
  s3Key : Str
deriving DecidableEq, Repr

/-- `NovaS3Service.createFolder` (`markerFail` injects the outcome of the
`createFolderMarker` S3 call, whose failure propagates here). -/
def createFolderOp (markerFail : Bool) (root path name : Str) (emp : Option Str) :
    StM Sys FolderResp := do
  let r := normRoot root
  let p := normPath path
  let n := relFromOriginalName name
  if n = [] then StM.fail (Err.validation (str "name is required"))
  else do
    ensureFolderChain r p emp
    let finalPath := joinPath p n
    ensureFolderChain r finalPath emp
    if markerFail then StM.fail Err.storage
    else do
      let _ ← stCreateFolderMarker (s3BaseFolder r emp) finalPath
      pure { finalPath := finalPath, s3Key := buildTenantS3Key r emp finalPath true }

structure UploadOneResp where
  path : Str
  s3Key : Str
deriving DecidableEq, Repr

/-- `NovaS3Service.uploadOne`. -/
def uploadOneOp (stFail : Bool) (root path : Str) (emp : Option Str) (file : MFile) :
    StM Sys UploadOneResp := do
  let r := normRoot root
  let p := normPath path
  ensureFolderChain r p emp
  let relative := if p = [] then file.originalname else p ++ '/' :: file.originalname
  let relClean := relFromOriginalName relative
  ensureFolderChain r (parentOf relClean) emp
  let base := s3BaseFolder r emp
  if stFail then StM.fail Err.storage
  else do
    s3Put (storageBuildKey base relClean)
    let key := buildTenantS3Key r emp relClean false
    upsertRowDb
      { id := 0, root := r, path := relClean, parentPath := parentOf relClean,
        name := nameOf relClean, type := EType.file, s3Key := key,
        size := file.size, mimeType := file.mimetype, employeeNumber := emp }
    pure { path := relClean, s3Key := key }

structure UploadManyResp where
  success : Bool
  results : List UpResult
  errors : List Str
  count : Nat
deriving DecidableEq, Repr

/-- The skip guard `if (okSet.size && !okSet.has(rel))` of the row loops. -/
def umSkip (okSet : List Str) (rel : Str) : Bool :=
  !okSet.isEmpty && !okSet.contains rel

/-- The file row pushed by the upload row loops. -/
def fileRow (root : Str) (emp : Option Str) (rel : Str) (f : MFile) : Entry :=
  { id := 0, root := root, path := rel, parentPath := parentOf rel, name := nameOf rel,
    type := EType.file, s3Key := buildTenantS3Key root emp rel false,
    size := f.size, mimeType := f.mimetype, employeeNumber := emp }

/-- Row loop of `uploadMultiple`: ensures the parent chain (cached) for each
non-skipped file and collects its row. -/
def umLoop (root : Str) (emp : Option Str) (okSet : List Str) :
    List (MFile × Str) → List CacheKey → StM Sys (List Entry)
  | [], _ => pure []
  | (f, rel) :: t, cache =>
      if umSkip okSet rel then umLoop root emp okSet t cache
      else do
        let cache2 ← ensureFolderChainCached root (parentOf rel) emp cache
        let rows ← umLoop root emp okSet t cache2
        pure (fileRow root emp rel f :: rows)

/-- The ok-set computed back from the returned physical keys. -/
def mkOkSet (base : Str) (raw : UploadManyRaw) : List Str :=
  (raw.results.map (fun u => relativeFromS3Key base u.key)).filter (· ≠ [])

/-- `NovaS3Service.uploadMultiple` (`fails` injects the per-file `PutObject`
outcomes). -/
def uploadMultipleOp (fails : List Bool) (root path : Str) (emp : Option Str)
    (files : List MFile) : StM Sys UploadManyResp := do
  let r := normRoot root
  let p := normPath path
  ensureFolderChain r p emp
  let base := s3BaseFolder r emp
  let desired := files.map (fun f =>
    relFromOriginalName (if p = [] then f.originalname else p ++ '/' :: f.originalname))
  let cache1 ← ensureFolderChainCached r p emp []
  let raw ← stUploadMultipleFiles fails files base (some desired)
  let okSet := mkOkSet base raw
  let rows ← umLoop r emp okSet (files.zip desired) cache1
  upsertManyDb rows
  pure { success := raw.success, results := raw.results, errors := raw.errors,
         count := rows.length }

/-- `NovaS3Service.parsePathsInput`, array branch (the JSON-string branches
are transport decoding of the same list). -/
def parsePathsIn (paths : Option (List Str)) : Option (List Str) :=
  match paths with
  | none => none
  | some l =>
      let arr := l.filter (· ≠ [])
      if arr = [] then none else some arr

/-- Ensure loop of `uploadFolder` (all parent chains before any write). -/
def ufEnsureAll (root : Str) (emp : Option Str) :
    List Str → List CacheKey → StM Sys (List CacheKey)
  | [], cache => pure cache
  | rel :: t, cache => do
      let c2 ← ensureFolderChainCached root (parentOf rel) emp cache
      ufEnsureAll root emp t c2

/-- The incoming relative paths of `uploadFolder`: the parsed `paths[]` when
given, otherwise the original file names. -/
def ufIncoming (paths : Option (List Str)) (files : List MFile) : List Str :=
  match parsePathsIn paths with
  | some ps => ps.map relFromOriginalName
  | none => files.map (fun f => relFromOriginalName f.originalname)

/-- The desired full relative paths of `uploadFolder` (incoming paths joined
under the cleaned base path). -/
def ufDesired (bp : Str) (paths : Option (List Str)) (files : List MFile) : List Str :=
  (ufIncoming paths files).map (fun q => if bp = [] then q else joinPath bp q)

/-- `NovaS3Service.uploadFolder`. -/
def uploadFolderOp (fails : List Bool) (root basePath : Str) (emp : Option Str)
    (paths : Option (List Str)) (files : List MFile) : StM Sys UploadManyResp := do
  let r := normRoot root
  let bp := normPath basePath
  let incoming := ufIncoming paths files
  if incoming.length ≠ files.length then
    StM.fail (Err.validation (str "paths[] length must match files[] length"))
  else if incoming.any (· = []) then StM.fail (Err.validation (str "Invalid file path(s)"))
  else do
    let desired := ufDesired bp paths files
    let _ ← ufEnsureAll r emp desired []
    let base := s3BaseFolder r emp
    let raw ← stUploadMultipleFiles fails files base (some desired)
    let okSet := mkOkSet base raw
    let rows := (files.zip desired).filterMap (fun (fr : MFile × Str) =>
      if umSkip okSet fr.2 then none else some (fileRow r emp fr.2 fr.1))
    upsertManyDb rows
    pure { success := raw.success, results := raw.results, errors := raw.errors,
           count := rows.length }

/-! ### `NovaS3Service`: rename / move / delete / presigned url -/

structure MoveResp where
  oldPath : Str
  newPath : Str
  updated : Nat
deriving DecidableEq, Repr

/-- `NovaS3Service.rename` (`stFail` injects the outcome of the physical
`movePrefix`/`renameFile` step). -/
def renameOp (stFail : Bool) (cut : Nat) (root oldPathArg newNameArg : Str) (emp : Option Str) :
    StM Sys MoveResp := do
  let r := normRoot root
  let oldPath := normPath oldPathArg
  let newName := relFromOriginalName newNameArg
  if oldPath = [] then StM.fail (Err.validation (str "oldPath is required"))
  else if newName = [] then StM.fail (Err.validation (str "newName is required"))
  else do
    let existing ← findOneDb (keyPred r emp oldPath)
    match existing with
    | none => StM.fail (Err.validation (str "Item not found in DB"))
    | some ex => do
        let parent := parentOf oldPath
        let newPath := if parent = [] then newName else joinPath parent newName
        let base := s3BaseFolder r emp
        if ex.type == EType.folder then do
          let _ ← stMovePrefix stFail cut base oldPath newPath
          let changed ← cascadeUpdatePrefix r emp oldPath newPath
          pure { oldPath := oldPath, newPath := newPath, updated := changed }
        else do
          let _ ← stRenameFile stFail cut base oldPath newPath
          let _ ← updateOnePath r emp oldPath newPath
          pure { oldPath := oldPath, newPath := newPath, updated := 0 }

/-- `NovaS3Service.moveFile`. -/
def moveFileOp (stFail : Bool) (root sourceArg targetArg : Str) (emp : Option Str) :
    StM Sys MoveResp := do
  let r := normRoot root
  let sourcePath := normPath sourceArg
  let targetPath := normPath targetArg
  if sourcePath = [] then StM.fail (Err.validation (str "sourcePath is required"))
  else do
    let existing ← findOneDb (keyPred r emp sourcePath)
    match existing with
    | none => StM.fail (Err.validation (str "File not found in DB"))
    | some ex =>
        if !(ex.type == EType.file) then
          StM.fail (Err.validation (str "sourcePath is not a file"))
        else do
          ensureFolderChain r targetPath emp
          let fileName := nameOf sourcePath
          let newPath := if targetPath = [] then fileName else joinPath targetPath fileName
          let base := s3BaseFolder r emp
          let _ ← stMoveFile stFail base sourcePath newPath
          let _ ← updateOnePath r emp sourcePath newPath
          pure { oldPath := sourcePath, newPath := newPath, updated := 0 }

/-- `NovaS3Service.moveFolder`. -/
def moveFolderOp (stFail : Bool) (cut : Nat) (root sourceArg targetArg : Str) (emp : Option Str) :
    StM Sys MoveResp := do
  let r := normRoot root
  let sourcePath := normPath sourceArg
  let targetPath := normPath targetArg
  if sourcePath = [] then StM.fail (Err.validation (str "sourcePath is required"))
  else do
    let existing ← findOneDb (keyPred r emp sourcePath)
    match existing with
    | none => StM.fail (Err.validation (str "Folder not found in DB"))
    | some ex =>
        if !(ex.type == EType.folder) then
          StM.fail (Err.validation (str "sourcePath is not a folder"))
        else do
          let folderName := nameOf sourcePath
          let newPrefix := if targetPath = [] then folderName else joinPath targetPath folderName
          ensureFolderChain r (parentOf newPrefix) emp
          let base := s3BaseFolder r emp
          let _ ← stMovePrefix stFail cut base sourcePath newPrefix
          let changed ← cascadeUpdatePrefix r emp sourcePath newPrefix
          pure { oldPath := sourcePath, newPath := newPrefix, updated := changed }

inductive DelKind
  | file
  | folder
deriving DecidableEq, Repr

structure DeleteResp where
  deletedCount : Nat
deriving DecidableEq, Repr

/-- `NovaS3Service.remove`. -/
def removeOp (stFail : Bool) (cut : Nat) (root pathArg : Str) (kind : DelKind) (emp : Option Str) :
    StM Sys DeleteResp := do
  let r := normRoot root
  let rel := normPath pathArg
  if rel = [] then StM.fail (Err.validation (str "path is required"))
  else do
    let existing ← findOneDb (keyPred r emp rel)
    match existing with
    | none => StM.fail (Err.validation (str "Item not found in DB"))
    | some _ => do
        let base := s3BaseFolder r emp
        match kind with
        | .folder => do
            let _ ← stDeletePrefix stFail cut base rel
            let n ← deleteDb (fun e => e.root == r && e.employeeNumber == emp &&
              (e.path == rel || (rel ++ ['/']).isPrefixOf e.path))
            pure { deletedCount := n }
        | .file => do
            let _ ← stDeleteObject stFail base rel
            let n ← deleteDb (keyPred r emp rel)
            pure { deletedCount := n }

structure UrlResp where
  key : Str
  expiresSeconds : Nat
deriving DecidableEq, Repr

/-- `NovaS3Service.getFileUrl` (tenant is a required plain string here). -/
def getFileUrlOp (urlFail : Bool) (root pathArg empArg : Str) (expires : Option Nat) :
    StM Sys UrlResp := do
  let r := normRoot root
  let rel := normPath pathArg
  let emp := jsTrim empArg
  if emp = [] then StM.fail (Err.validation (str "employeeNumber is required"))
  else if rel = [] then StM.fail (Err.validation (str "path is required"))
  else do
    let row ← findOneDb (fun e => e.root == r && e.employeeNumber == some emp &&
      e.path == rel && e.type == EType.file)
    match row with
    | none => StM.fail (Err.validation (str "File not found in DB"))
    | some _ => do
        let base := s3BaseFolder r (some emp)
        let exp := expires.getD 300
        let pres ← stPresignedGetUrl urlFail base rel
        if pres.1 then pure { key := pres.2, expiresSeconds := exp }
        else StM.fail (Err.validation (str "Failed to generate presigned url"))

end NovaS3

open NovaS3

/-- C8 (counterexample): `normPath` is NOT idempotent.  The regex
`/^\/|\/$/g` strips only one leading and one trailing slash, so the
candidate path `"//a"` normalizes to `"/a"`, and normalizing again gives
`"a"`. -/
theorem C8_norm_not_idempotent :
    normPath (normPath (str "//a")) ≠ normPath (str "//a") := by decide

/-- C8 (amended): `normPath (normPath p) = normPath p` holds whenever the
once-normalized path neither starts nor ends with a separator or whitespace
(equivalently, whenever `p`, after trimming and separator conversion, had at
most one leading and one trailing slash and no whitespace exposed by
stripping them). -/
theorem C8_norm_idempotent_on_clean (p : Str) (h : goodEnds (normPath p) = true) :
    normPath (normPath p) = normPath p := by
  have h4 : noLead isWs (normPath p) = true ∧ noLead (· = '/') (normPath p) = true ∧
      noTrail isWs (normPath p) = true ∧ noTrail (· = '/') (normPath p) = true := by
    simpa [goodEnds, Bool.and_eq_true, and_assoc] using h
  obtain ⟨hw1, hs1, hw2, hs2⟩ := h4
  apply (normPath_eq_self_iff _).mpr
  refine ⟨(jsTrim_eq_self_iff _).mpr ⟨?_, ?_⟩, ?_, ?_, ?_⟩
  · exact (trimL_eq_self_iff _).mpr hw1
  · exact (trimR_eq_self_iff _).mpr hw2
  · exact (bslToSlash_eq_self_iff _).mpr (normPath_no_bslash p)
  · exact (stripOneLead_eq_self_iff _).mpr hs1
  · exact (stripOneTrail_eq_self_iff _).mpr hs2

/-- C8 amended, witnessed at the concrete path `"a b/c"`. -/
theorem C8_norm_idempotent_on_clean_witness :
    goodEnds (normPath (str "a b/c")) = true ∧
      normPath (normPath (str "a b/c")) = normPath (str "a b/c") :=
  ⟨by decide, C8_norm_idempotent_on_clean (str "a b/c") (by decide)⟩

/-- C9 (counterexample): the path-algebra round trip fails for a non-empty
name containing a separator: with the normalized path `"x"` and the
non-empty name `"a/b"`, `parentOf (join p n) = "x/a" ≠ p` and
`nameOf (join p n) = "b" ≠ n`. -/
theorem C9_roundtrip_fails_on_slashed_name :
    normPath (str "x") = str "x" ∧ str "a/b" ≠ [] ∧
      ¬(parentOf (joinPath (str "x") (str "a/b")) = str "x" ∧
        nameOf (joinPath (str "x") (str "a/b")) = str "a/b") := by decide

/-- C9 (amended): for every normalized path `p` and every normalized,
non-empty, separator-free name `n`, `parentOf (joinPath p n) = p` and
`nameOf (joinPath p n) = n`. -/
theorem C9_path_algebra_roundtrip (p n : Str) (hp : normPath p = p)
    (hn : normPath n = n) (hne : n ≠ []) (hnsl : '/' ∉ n) :
    parentOf (joinPath p n) = p ∧ nameOf (joinPath p n) = n := by
  by_cases hpe : p = []
  · subst hpe
    have hnil : normPath [] = ([] : Str) := rfl
    have hj : joinPath [] n = n := by simp [joinPath, hnil, hn]
    rw [hj]
    constructor
    · rw [parentOf, hn]
      simp only [hne, if_false]
      rw [splitSlash_no_slash n hnsl]
      simp [joinSegs]
    · rw [nameOf, hn]
      simp only [hne, if_false]
      rw [splitSlash_no_slash n hnsl]
      simp
  · have hj : joinPath p n = p ++ '/' :: n := by
      rw [joinPath]
      simp only [hp, hn, hpe, if_false]
    have hfix : normPath (p ++ '/' :: n) = p ++ '/' :: n :=
      normPath_fix_join p n hp hn hpe hne
    have hjne : (p ++ '/' :: n : Str) ≠ [] := by simp
    have hsplit : splitSlash (p ++ '/' :: n) = splitSlash p ++ [n] := by
      rw [splitSlash_append, splitSlash_no_slash n hnsl]
    rw [hj]
    constructor
    · rw [parentOf, hfix]
      simp only [hjne, if_false]
      rw [hsplit, List.dropLast_concat, joinSegs_splitSlash]
    · rw [nameOf, hfix]
      simp only [hjne, if_false]
      rw [hsplit, List.getLast?_concat]
      rfl

/-- C9 amended, witnessed at `p = "A/B"`, `n = "c.png"`. -/
theorem C9_path_algebra_roundtrip_witness :
    parentOf (joinPath (str "A/B") (str "c.png")) = str "A/B" ∧
      nameOf (joinPath (str "A/B") (str "c.png")) = str "c.png" :=
  C9_path_algebra_roundtrip (str "A/B") (str "c.png")
    (by decide) (by decide) (by decide) (by decide)

/-! ### Generic facts about the store -/

/-- A key-fixing predicate selects at most one row of a store whose keys are
pairwise distinct; with a `find?` witness, exactly one. -/
theorem filter_len_one_of_uniq (db : Store) (p : Entry → Bool) (e : Entry)
    (huniq : uniqueKeysOk db = true) (hfind : db.find? p = some e)
    (hkey : ∀ x y : Entry, p x = true → p y = true → entryKeyEq x y = true) :
    (db.filter p).length = 1 := by
  induction db with
  | nil => simp at hfind
  | cons a t ih =>
      have huniq' : t.any (fun x => entryKeyEq x a) = false ∧ uniqueKeysOk t = true := by
        simpa [uniqueKeysOk, Bool.and_eq_true] using huniq
      obtain ⟨hnot, hu⟩ := huniq'
      by_cases hpa : p a = true
      · have ht : t.filter p = [] := by
          rw [List.filter_eq_nil_iff]
          intro x hx hpx
          have hk := hkey x a hpx hpa
          have : t.any (fun x => entryKeyEq x a) = true :=
            List.any_eq_true.mpr ⟨x, hx, hk⟩
          rw [this] at hnot
          simp at hnot
        simp [List.filter_cons, hpa, ht]
      · have hfind' : t.find? p = some e := by
          rw [List.find?_cons] at hfind
          simp only [Bool.not_eq_true] at hpa
          rw [hpa] at hfind
          exact hfind
        have hpa' : p a = false := by simpa using hpa
        simp [List.filter_cons, hpa']
        exact ih hu hfind'

/-- A strict slash-descendant of `rel` never equals `rel`. -/
theorem ne_of_slash_prefix (rel q : Str) (h : (rel ++ ['/']).isPrefixOf q = true) :
    ¬ q = rel := by
  intro he
  rw [he] at h
  have hp : (rel ++ ['/']) <+: rel := List.isPrefixOf_iff_prefix.mp h
  have := hp.length_le
  simp at this

/-- C10: the delete endpoint never checks that the requested kind matches the
stored entry's type.  For every `remove` with kind `file` whose normalized
path names an existing metadata entry — even a folder — exactly the rows with
that exact path (one, under key uniqueness) are deleted, one single-object
physical delete is issued for the file-shaped key, and every strict
descendant (`path` starting with `path + '/'`) survives untouched. -/
theorem C10_remove_file_kind_ignores_type (cut : Nat) (root pathArg : Str)
    (emp : Option Str) (sys : Sys) (e : Entry)
    (hrel : ¬ normPath pathArg = [])
    (hfind : sys.db.find? (keyPred (normRoot root) emp (normPath pathArg)) = some e)
    (huniq : uniqueKeysOk sys.db = true) :
    removeOp false cut root pathArg DelKind.file emp sys =
      (Except.ok { deletedCount := 1 },
        { sys with
          db := sys.db.filter (fun x => !(keyPred (normRoot root) emp (normPath pathArg) x)),
          s3 := sys.s3.filter (fun k =>
            !(k == storageBuildKey (s3BaseFolder (normRoot root) emp) (normPath pathArg))) }) ∧
    (∀ d ∈ sys.db, (normPath pathArg ++ ['/']).isPrefixOf d.path = true →
      d ∈ sys.db.filter (fun x => !(keyPred (normRoot root) emp (normPath pathArg) x))) := by
  have hlen : (sys.db.filter (keyPred (normRoot root) emp (normPath pathArg))).length = 1 := by
    apply filter_len_one_of_uniq sys.db _ e huniq hfind
    intro x y hx hy
    simp only [keyPred, Bool.and_eq_true, beq_iff_eq] at hx hy
    simp [entryKeyEq, hx.1.1, hx.1.2, hx.2, hy.1.1, hy.1.2, hy.2]
  constructor
  · simp only [removeOp, StM.run_bind, StM.run_pure, StM.run_fail, hrel, if_false,
      findOneDb, hfind, stDeleteObject, s3Delete, deleteDb, Bool.false_eq_true]
    simp [hlen]
  · intro d hd hpre
    rw [List.mem_filter]
    refine ⟨hd, ?_⟩
    have hne : ¬ d.path = normPath pathArg := ne_of_slash_prefix _ _ hpre
    simp [keyPred, hne]

/-! ### Concrete fixtures -/

instance {ε α : Type} [DecidableEq ε] [DecidableEq α] : DecidableEq (Except ε α) := fun x y =>
  match x, y with
  | .ok a, .ok b => decidable_of_iff (a = b) (by simp)
  | .error e, .error f => decidable_of_iff (e = f) (by simp)
  | .ok _, .error _ => isFalse (fun h => Except.noConfusion h)
  | .error _, .ok _ => isFalse (fun h => Except.noConfusion h)

def tE1 : Option Str := some (str "E1")

def sysEmpty : Sys := { db := [], s3 := [], nextId := 1 }

/-- A canonical row of tenant `E1` under root `drive`. -/
def mkEnt (i : Nat) (p : String) (ty : EType) : Entry :=
  { id := i, root := str "drive", path := str p, name := nameOf (str p),
    type := ty, parentPath := parentOf (str p),
    s3Key := buildTenantS3Key (str "drive") tE1 (str p) (ty == EType.folder),
    size := none, mimeType := none, employeeNumber := tE1 }

def sysRemove : Sys :=
  { db := [mkEnt 1 "F" EType.folder, mkEnt 2 "F/x.txt" EType.file],
    s3 := [str "drive/E1/F/", str "drive/E1/F/x.txt"], nextId := 3 }

/-- C10 witnessed at a FOLDER entry `F` with a descendant `F/x.txt`:
`remove` with kind `file` deletes exactly the `F` row and leaves the
descendant row alone. -/
theorem C10_remove_file_kind_witness :
    (removeOp false 0 (str "drive") (str "F") DelKind.file tE1 sysRemove).1 =
      Except.ok { deletedCount := 1 } := by
  have h := C10_remove_file_kind_ignores_type 0 (str "drive") (str "F") tE1 sysRemove
    (mkEnt 1 "F" EType.folder) (by decide) (by decide) (by decide)
  rw [h.1]

def cexUpFile : MFile :=
  { originalname := str "a.png", size := some 10, mimetype := some (str "image/png") }

/-- C1 (counterexample): a bulk upload of `n = 1` file whose single blob
write fails (`k = n = 1`).  The claim demands `n - k = 0` batch file entries
and no entry for the failed file; the code's skip guard
`if (okSet.size && !okSet.has(rel))` is bypassed when `okSet` is empty, so
the file row is upserted anyway while the blob store stays empty. -/
theorem C1_all_failed_still_upserts :
    ((uploadMultipleOp [true] (str "drive") (str "") tE1 [cexUpFile] sysEmpty).2.db.filter
        (fun e => keyPred (str "drive") tE1 (str "a.png") e && e.type == EType.file)).length
      = 1 ∧
    (uploadMultipleOp [true] (str "drive") (str "") tE1 [cexUpFile] sysEmpty).2.s3 = [] ∧
    (uploadMultipleOp [true] (str "drive") (str "") tE1 [cexUpFile] sysEmpty).1 =
      Except.ok { success := false, results := [], errors := [str "a.png"], count := 1 } := by
  decide

def sysMoveOcc : Sys :=
  { db := [mkEnt 1 "a.txt" EType.file, mkEnt 2 "dst" EType.folder,
           mkEnt 3 "dst/a.txt" EType.file],
    s3 := [str "drive/E1/a.txt", str "drive/E1/dst/a.txt"], nextId := 4 }

/-- C2 (counterexample): the computed final destination `dst/a.txt` is
already occupied in the metadata store, yet `moveFile` performs the physical
copy+delete (the blob store changes) before any collision is noticed; the
failure is a unique-index violation during the metadata save, not a
pre-checked conflict. -/
theorem C2_no_conflict_precheck :
    (sysMoveOcc.db.find? (keyPred (str "drive") tE1 (str "dst/a.txt"))).isSome = true ∧
    ¬ (moveFileOp false (str "drive") (str "a.txt") (str "dst") tE1 sysMoveOcc).2.s3
        = sysMoveOcc.s3 ∧
    (moveFileOp false (str "drive") (str "a.txt") (str "dst") tE1 sysMoveOcc).1 =
      Except.error Err.uniqueViolation := by
  decide

def sysMoveX : Sys :=
  { db := [mkEnt 1 "a.txt" EType.file], s3 := [str "drive/E1/a.txt"], nextId := 2 }

/-- C3 (counterexample): the target path `X` does not exist as a folder
entry, so the claim demands a rename-via-move to the literal path `X`; the
code instead always nests (`newPath = X/a.txt`) and materializes `X`. -/
theorem C3_no_rename_via_move :
    sysMoveX.db.find? (fun e => e.path == str "X") = none ∧
    (moveFileOp false (str "drive") (str "a.txt") (str "X") tE1 sysMoveX).1 =
      Except.ok { oldPath := str "a.txt", newPath := str "X/a.txt", updated := 0 } ∧
    ¬ (str "X/a.txt" : Str) = str "X" := by
  decide

def sysFolderA : Sys :=
  { db := [mkEnt 1 "A" EType.folder], s3 := [], nextId := 2 }

/-- C4 (counterexample): a successful folder rename from prefix `A` to
prefix `A` (new name equal to the old name) completes, and afterwards an
entry with path equal to the old prefix still exists — the claim's
"zero metadata entries have path equal to oldPrefix" fails without a
disjointness proviso. -/
theorem C4_degenerate_rename :
    (renameOp false 0 (str "drive") (str "A") (str "A") tE1 sysFolderA).1 =
      Except.ok { oldPath := str "A", newPath := str "A", updated := 1 } ∧
    ((renameOp false 0 (str "drive") (str "A") (str "A") tE1 sysFolderA).2.db.filter
        (fun e => e.path == str "A")).length = 1 := by
  decide

/-- C5 (counterexample): `moveFile` runs `ensureFolderChain` for the target
BEFORE the physical copy+delete; with the blob-store step failing, the
operation propagates the failure but the metadata store has already gained
the folder row `X` — it is not left unchanged. -/
theorem C5_ensure_precedes_physical :
    (moveFileOp true (str "drive") (str "a.txt") (str "X") tE1 sysMoveX).1 =
      Except.error Err.storage ∧
    ¬ (moveFileOp true (str "drive") (str "a.txt") (str "X") tE1 sysMoveX).2.db
        = sysMoveX.db := by
  decide

/-! ### Behaviour of the folder-chain ensurer -/

/-- A folder row for `(root, emp, q)` exists. -/
def hasFolder (db : Store) (root : Str) (emp : Option Str) (q : Str) : Bool :=
  db.any (folderAt root emp q)

/-- Whatever happens, `ensureChainGo` only APPENDS rows, and every appended
row is a folder row of the same tenant whose path is one of the visited
cumulative prefixes; the blob-store keys and response aside, nothing else
changes in the table. -/
theorem ensureChainGo_extends (root : Str) (emp : Option Str) (parts : List Str) :
    ∀ (acc : Str) (sys : Sys), ∃ extra : Store,
      ((ensureChainGo root emp acc parts sys).2).db = sys.db ++ extra ∧
      ∀ e ∈ extra, e.type = EType.folder ∧ e.root = root ∧ e.employeeNumber = emp ∧
        e.path ∈ accPrefixes acc parts := by
  induction parts with
  | nil =>
      intro acc sys
      exact ⟨[], by simp [ensureChainGo], by simp⟩
  | cons part rest ih =>
      intro acc sys
      have step : ∀ s2 : Sys, ∀ pre : Store,
          s2.db = sys.db ++ pre →
          (∀ e ∈ pre, e.type = EType.folder ∧ e.root = root ∧ e.employeeNumber = emp ∧
            e.path = accStep acc part) →
          ∃ extra : Store,
            ((ensureChainGo root emp (accStep acc part) rest s2).2).db = sys.db ++ extra ∧
            ∀ e ∈ extra, e.type = EType.folder ∧ e.root = root ∧ e.employeeNumber = emp ∧
              e.path ∈ accPrefixes acc (part :: rest) := by
        intro s2 pre hdb hpre
        obtain ⟨extra, h1, h2⟩ := ih (accStep acc part) s2
        refine ⟨pre ++ extra, ?_, ?_⟩
        · rw [h1, hdb, List.append_assoc]
        · intro x hx
          rcases List.mem_append.mp hx with hx1 | hx2
          · obtain ⟨t1, t2, t3, t4⟩ := hpre x hx1
            refine ⟨t1, t2, t3, ?_⟩
            simp [accPrefixes, t4]
          · obtain ⟨t1, t2, t3, t4⟩ := h2 x hx2
            refine ⟨t1, t2, t3, ?_⟩
            simp only [accPrefixes, List.mem_cons]
            right
            exact t4
      simp only [ensureChainGo, StM.run_bind, findOneDb]
      cases hfind : List.find? (folderAt root emp (accStep acc part)) sys.db with
      | some e => exact step sys [] (by simp) (by simp)
      | none =>
          have hnone : ∃ extra : Store,
              (((saveNewDb (folderRow root emp (accStep acc part) part) : StM Sys Unit) >>= fun _ =>
                stCreateFolderMarker (s3BaseFolder root emp) (accStep acc part) >>= fun _ =>
                ensureChainGo root emp (accStep acc part) rest) sys).2.db = sys.db ++ extra ∧
              ∀ e ∈ extra, e.type = EType.folder ∧ e.root = root ∧ e.employeeNumber = emp ∧
                e.path ∈ accPrefixes acc (part :: rest) := by
            simp only [StM.run_bind]
            rw [saveNewDb]
            by_cases hcol : sys.db.any (fun x =>
                entryKeyEq x (folderRow root emp (accStep acc part) part)) = true
            · refine ⟨[], ?_, by simp⟩
              simp [hcol]
            · have hcol2 : sys.db.any (fun x =>
                  entryKeyEq x (folderRow root emp (accStep acc part) part)) = false := by
                simpa using hcol
              simp only [hcol2, Bool.false_eq_true, if_false, stCreateFolderMarker,
                StM.run_bind, StM.run_pure, s3Put]
              refine step _
                [{ folderRow root emp (accStep acc part) part with id := sys.nextId }] (by simp) ?_
              intro x hx
              have hx2 : x = { folderRow root emp (accStep acc part) part
                  with id := sys.nextId } := by simpa using hx
              subst hx2
              exact ⟨rfl, rfl, rfl, rfl⟩
          exact hnone

theorem hasFolder_mono (db extra : Store) (root : Str) (emp : Option Str) (q : Str)
    (h : hasFolder db root emp q = true) : hasFolder (db ++ extra) root emp q = true := by
  simp only [hasFolder, List.any_append, Bool.or_eq_true]
  exact Or.inl h

theorem ensureChainGo_keeps (root : Str) (emp : Option Str) (parts : List Str)
    (acc : Str) (sys : Sys) (q : Str) (h : hasFolder sys.db root emp q = true) :
    hasFolder ((ensureChainGo root emp acc parts sys).2).db root emp q = true := by
  obtain ⟨extra, h1, _⟩ := ensureChainGo_extends root emp parts acc sys
  rw [h1]
  exact hasFolder_mono _ _ _ _ _ h

theorem folderAt_folderRow (root : Str) (emp : Option Str) (acc2 part : Str) (i : Nat) :
    folderAt root emp acc2 { folderRow root emp acc2 part with id := i } = true := by
  simp [folderAt, folderRow]

/-- After a successful run, every visited cumulative prefix has a folder
row. -/
theorem ensureChainGo_ok (root : Str) (emp : Option Str) (parts : List Str) :
    ∀ (acc : Str) (sys sys' : Sys),
      ensureChainGo root emp acc parts sys = (Except.ok (), sys') →
      ∀ q ∈ accPrefixes acc parts, hasFolder sys'.db root emp q = true := by
  induction parts with
  | nil =>
      intro acc sys sys' _ q hq
      simp [accPrefixes] at hq
  | cons part rest ih =>
      intro acc sys sys' h q hq
      simp only [ensureChainGo, StM.run_bind, findOneDb] at h
      rcases List.mem_cons.mp (by simpa [accPrefixes] using hq) with hq1 | hq2
      all_goals cases hfind : List.find? (folderAt root emp (accStep acc part)) sys.db with
      | some e =>
          rw [hfind] at h
          replace h : ensureChainGo root emp (accStep acc part) rest sys = (Except.ok (), sys') := h
          first
          | (subst hq1
             have hbase : hasFolder sys.db root emp (accStep acc part) = true := by
               simp only [hasFolder]
               exact List.any_eq_true.mpr ⟨e, List.mem_of_find?_eq_some hfind,
                 List.find?_some hfind⟩
             have := ensureChainGo_keeps root emp rest (accStep acc part) sys _ hbase
             rw [h] at this
             exact this)
          | exact ih (accStep acc part) sys sys' h q hq2
      | none =>
          rw [hfind] at h
          replace h : (((saveNewDb (folderRow root emp (accStep acc part) part) : StM Sys Unit) >>= fun _ =>
              stCreateFolderMarker (s3BaseFolder root emp) (accStep acc part) >>= fun _ =>
              ensureChainGo root emp (accStep acc part) rest) sys) = (Except.ok (), sys') := h
          simp only [StM.run_bind] at h
          rw [saveNewDb] at h
          by_cases hcol : sys.db.any (fun x =>
              entryKeyEq x (folderRow root emp (accStep acc part) part)) = true
          · simp [hcol] at h
          · have hcol2 : sys.db.any (fun x =>
                entryKeyEq x (folderRow root emp (accStep acc part) part)) = false := by
              simpa using hcol
            simp only [hcol2, Bool.false_eq_true, if_false, stCreateFolderMarker,
              StM.run_bind, StM.run_pure, s3Put] at h
            first
            | (subst hq1
               have hbase : hasFolder
                   (sys.db ++ [{ folderRow root emp (accStep acc part) part with id := sys.nextId }])
                   root emp (accStep acc part) = true := by
                 simp only [hasFolder, List.any_append, Bool.or_eq_true]
                 right
                 simp [folderAt_folderRow]
               have hkeep := ensureChainGo_keeps root emp rest (accStep acc part)
                 { db := sys.db ++ [{ folderRow root emp (accStep acc part) part with id := sys.nextId }],
                   s3 := (if (Sys.mk sys.db sys.s3 sys.nextId).s3.contains
                       (if (storageBuildKey (s3BaseFolder root emp) (accStep acc part)).getLast? = some '/'
                        then storageBuildKey (s3BaseFolder root emp) (accStep acc part)
                        else storageBuildKey (s3BaseFolder root emp) (accStep acc part) ++ ['/'])
                     then sys.s3 else sys.s3 ++ [(if (storageBuildKey (s3BaseFolder root emp) (accStep acc part)).getLast? = some '/'
                        then storageBuildKey (s3BaseFolder root emp) (accStep acc part)
                        else storageBuildKey (s3BaseFolder root emp) (accStep acc part) ++ ['/'])]),
                   nextId := sys.nextId + 1 } _ hbase
               rw [h] at hkeep
               exact hkeep)
            | exact ih (accStep acc part) _ sys' h q hq2

/-- Re-ensuring an already-materialized chain changes nothing at all. -/
theorem ensureChainGo_noop (root : Str) (emp : Option Str) (parts : List Str) :
    ∀ (acc : Str) (sys : Sys),
      (∀ q ∈ accPrefixes acc parts, hasFolder sys.db root emp q = true) →
      ensureChainGo root emp acc parts sys = (Except.ok (), sys) := by
  induction parts with
  | nil =>
      intro acc sys _
      simp [ensureChainGo]
  | cons part rest ih =>
      intro acc sys hall
      have hacc2 : hasFolder sys.db root emp (accStep acc part) = true := by
        apply hall
        simp [accPrefixes]
      have hsome : (List.find? (folderAt root emp (accStep acc part)) sys.db).isSome = true := by
        rw [List.find?_isSome]
        simpa [hasFolder] using hacc2
      simp only [ensureChainGo, StM.run_bind, findOneDb]
      cases hfind : List.find? (folderAt root emp (accStep acc part)) sys.db with
      | none => rw [hfind] at hsome; simp at hsome
      | some e =>
          have hrec : ensureChainGo root emp (accStep acc part) rest sys = (Except.ok (), sys) := by
            apply ih
            intro q hq
            apply hall
            simp only [accPrefixes, List.mem_cons]
            right
            exact hq
          exact hrec

/-- `ensureFolderChain`: only appends same-tenant folder rows at the
segment prefixes of the ensured path. -/
theorem ensureFolderChain_extends (root p : Str) (emp : Option Str) (sys : Sys) :
    ∃ extra : Store,
      ((ensureFolderChain root p emp sys).2).db = sys.db ++ extra ∧
      ∀ e ∈ extra, e.type = EType.folder ∧ e.root = root ∧ e.employeeNumber = emp ∧
        e.path ∈ segPrefixes p := by
  unfold ensureFolderChain
  by_cases hc : normPath p = []
  · refine ⟨[], ?_, by simp⟩
    simp [hc]
  · simp only [hc, if_false]
    obtain ⟨extra, h1, h2⟩ :=
      ensureChainGo_extends root emp ((splitSlash (normPath p)).filter (· ≠ [])) [] sys
    exact ⟨extra, h1, fun e he => by
      obtain ⟨t1, t2, t3, t4⟩ := h2 e he
      exact ⟨t1, t2, t3, by simpa [segPrefixes] using t4⟩⟩

/-- After a successful `ensureFolderChain`, every segment prefix of the path
has a folder row of the same root and tenant. -/
theorem ensureFolderChain_ok (root p : Str) (emp : Option Str) (sys sys' : Sys)
    (h : ensureFolderChain root p emp sys = (Except.ok (), sys')) :
    ∀ q ∈ segPrefixes p, hasFolder sys'.db root emp q = true := by
  intro q hq
  unfold ensureFolderChain at h
  by_cases hc : normPath p = []
  · simp [segPrefixes, hc, accPrefixes] at hq
  · simp only [hc, if_false] at h
    exact ensureChainGo_ok root emp _ [] sys sys' h q (by simpa [segPrefixes] using hq)

/-- Ensuring an already-materialized chain (or an empty path) is a no-op:
the whole system state is unchanged. -/
theorem ensureFolderChain_noop (root p : Str) (emp : Option Str) (sys : Sys)
    (h : ∀ q ∈ segPrefixes p, hasFolder sys.db root emp q = true) :
    ensureFolderChain root p emp sys = (Except.ok (), sys) := by
  unfold ensureFolderChain
  by_cases hc : normPath p = []
  · simp [hc]
  · simp only [hc, if_false]
    exact ensureChainGo_noop root emp _ [] sys (fun q hq => h q (by simpa [segPrefixes] using hq))

/-- Every cached key is backed by an existing folder row. -/
def cacheOK (db : Store) (cache : List CacheKey) : Bool :=
  cache.all (fun ck => hasFolder db ck.1 ck.2.1 ck.2.2)

theorem cacheOK_mono (db extra : Store) (cache : List CacheKey)
    (h : cacheOK db cache = true) : cacheOK (db ++ extra) cache = true := by
  simp only [cacheOK, List.all_eq_true] at h ⊢
  intro ck hck
  exact hasFolder_mono _ _ _ _ _ (h ck hck)

/-- The cached ensurer also only appends same-tenant folder rows at visited
cumulative prefixes (and writes no S3 marker). -/
theorem ensureChainCachedGo_extends (root : Str) (emp : Option Str) (parts : List Str) :
    ∀ (acc : Str) (cache : List CacheKey) (sys : Sys), ∃ extra : Store,
      ((ensureChainCachedGo root emp acc cache parts sys).2).db = sys.db ++ extra ∧
      ((ensureChainCachedGo root emp acc cache parts sys).2).s3 = sys.s3 ∧
      ∀ e ∈ extra, e.type = EType.folder ∧ e.root = root ∧ e.employeeNumber = emp ∧
        e.path ∈ accPrefixes acc parts := by
  induction parts with
  | nil =>
      intro acc cache sys
      exact ⟨[], by simp [ensureChainCachedGo], by simp [ensureChainCachedGo], by simp⟩
  | cons part rest ih =>
      intro acc cache sys
      have step : ∀ (s2 : Sys) (c2 : List CacheKey) (pre : Store),
          s2.db = sys.db ++ pre → s2.s3 = sys.s3 →
          (∀ e ∈ pre, e.type = EType.folder ∧ e.root = root ∧ e.employeeNumber = emp ∧
            e.path = accStep acc part) →
          ∃ extra : Store,
            ((ensureChainCachedGo root emp (accStep acc part) c2 rest s2).2).db
              = sys.db ++ extra ∧
            ((ensureChainCachedGo root emp (accStep acc part) c2 rest s2).2).s3 = sys.s3 ∧
            ∀ e ∈ extra, e.type = EType.folder ∧ e.root = root ∧ e.employeeNumber = emp ∧
              e.path ∈ accPrefixes acc (part :: rest) := by
        intro s2 c2 pre hdb hs3 hpre
        obtain ⟨extra, h1, h3, h2⟩ := ih (accStep acc part) c2 s2
        refine ⟨pre ++ extra, ?_, ?_, ?_⟩
        · rw [h1, hdb, List.append_assoc]
        · rw [h3, hs3]
        · intro x hx
          rcases List.mem_append.mp hx with hx1 | hx2
          · obtain ⟨t1, t2, t3, t4⟩ := hpre x hx1
            refine ⟨t1, t2, t3, ?_⟩
            simp [accPrefixes, t4]
          · obtain ⟨t1, t2, t3, t4⟩ := h2 x hx2
            refine ⟨t1, t2, t3, ?_⟩
            simp only [accPrefixes, List.mem_cons]
            right
            exact t4
      simp only [ensureChainCachedGo, StM.run_bind, findOneDb]
      by_cases hck : cache.contains (root, emp, accStep acc part)
      · simp only [hck, if_true]
        exact step sys cache [] (by simp) rfl (by simp)
      · have hck2 : cache.contains ((root, emp, accStep acc part) : CacheKey) = false := by
          simpa using hck
        simp only [hck2, Bool.false_eq_true, if_false, StM.run_bind, findOneDb]
        cases hfind : List.find? (folderAt root emp (accStep acc part)) sys.db with
        | some e => exact step sys _ [] (by simp) rfl (by simp)
        | none =>
            have hnone : ∃ extra : Store,
                (((saveNewDb (folderRow root emp (accStep acc part) part) : StM Sys Unit) >>= fun _ =>
                  ensureChainCachedGo root emp (accStep acc part)
                    (((root, emp, accStep acc part) : CacheKey) :: cache) rest) sys).2.db
                  = sys.db ++ extra ∧
                (((saveNewDb (folderRow root emp (accStep acc part) part) : StM Sys Unit) >>= fun _ =>
                  ensureChainCachedGo root emp (accStep acc part)
                    (((root, emp, accStep acc part) : CacheKey) :: cache) rest) sys).2.s3
                  = sys.s3 ∧
                ∀ e ∈ extra, e.type = EType.folder ∧ e.root = root ∧ e.employeeNumber = emp ∧
                  e.path ∈ accPrefixes acc (part :: rest) := by
              simp only [StM.run_bind]
              rw [saveNewDb]
              by_cases hcol : sys.db.any (fun x =>
                  entryKeyEq x (folderRow root emp (accStep acc part) part)) = true
              · refine ⟨[], ?_, ?_, by simp⟩
                · simp [hcol]
                · simp [hcol]
              · have hcol2 : sys.db.any (fun x =>
                    entryKeyEq x (folderRow root emp (accStep acc part) part)) = false := by
                  simpa using hcol
                simp only [hcol2, Bool.false_eq_true, if_false]
                refine step _ _
                  [{ folderRow root emp (accStep acc part) part with id := sys.nextId }]
                  (by simp) rfl ?_
                intro x hx
                have hx2 : x = { folderRow root emp (accStep acc part) part
                    with id := sys.nextId } := by simpa using hx
                subst hx2
                exact ⟨rfl, rfl, rfl, rfl⟩
            exact hnone

theorem ensureChainCachedGo_keeps (root : Str) (emp : Option Str) (parts : List Str)
    (acc : Str) (cache : List CacheKey) (sys : Sys) (r0 : Str) (e0 : Option Str) (q : Str)
    (h : hasFolder sys.db r0 e0 q = true) :
    hasFolder ((ensureChainCachedGo root emp acc cache parts sys).2).db r0 e0 q = true := by
  obtain ⟨extra, h1, _, _⟩ := ensureChainCachedGo_extends root emp parts acc cache sys
  rw [h1]
  exact hasFolder_mono _ _ _ _ _ h

/-- After a successful cached-ensure run starting from a valid cache, every
visited cumulative prefix has a folder row, and the returned cache is valid
for the new table. -/
theorem ensureChainCachedGo_ok (root : Str) (emp : Option Str) (parts : List Str) :
    ∀ (acc : Str) (cache : List CacheKey) (sys sys' : Sys) (cache' : List CacheKey),
      cacheOK sys.db cache = true →
      ensureChainCachedGo root emp acc cache parts sys = (Except.ok cache', sys') →
      (∀ q ∈ accPrefixes acc parts, hasFolder sys'.db root emp q = true) ∧
        cacheOK sys'.db cache' = true := by
  induction parts with
  | nil =>
      intro acc cache sys sys' cache' hok h
      replace h : ((Except.ok cache, sys) : Except Err (List CacheKey) × Sys) = (Except.ok cache', sys') := h
      have h1 := congrArg Prod.fst h
      have h2 := congrArg Prod.snd h
      simp only at h1 h2
      injection h1 with h1
      subst h1
      subst h2
      exact ⟨by simp [accPrefixes], hok⟩
  | cons part rest ih =>
      intro acc cache sys sys' cache' hok h
      simp only [ensureChainCachedGo, StM.run_bind, findOneDb] at h
      by_cases hck : cache.contains ((root, emp, accStep acc part) : CacheKey) = true
      · rw [hck] at h
        replace h : ensureChainCachedGo root emp (accStep acc part) cache rest sys
            = (Except.ok cache', sys') := h
        obtain ⟨hrest, hc⟩ := ih (accStep acc part) cache sys sys' cache' hok h
        refine ⟨?_, hc⟩
        intro q hq
        rcases List.mem_cons.mp (by simpa [accPrefixes] using hq) with hq1 | hq2
        · subst hq1
          have hbase : hasFolder sys.db root emp (accStep acc part) = true := by
            have := (List.all_eq_true.mp hok) _ (List.mem_of_elem_eq_true hck)
            simpa using this
          have := ensureChainCachedGo_keeps root emp rest (accStep acc part) cache sys
            root emp (accStep acc part) hbase
          rw [h] at this
          exact this
        · exact hrest q hq2
      · have hck2 : cache.contains ((root, emp, accStep acc part) : CacheKey) = false := by
          simpa using hck
        rw [hck2] at h
        simp only [Bool.false_eq_true, if_false, StM.run_bind, findOneDb] at h
        cases hfind : List.find? (folderAt root emp (accStep acc part)) sys.db with
        | some e =>
            rw [hfind] at h
            replace h : ensureChainCachedGo root emp (accStep acc part)
                (((root, emp, accStep acc part) : CacheKey) :: cache) rest sys
                = (Except.ok cache', sys') := h
            have hbase : hasFolder sys.db root emp (accStep acc part) = true := by
              simp only [hasFolder]
              exact List.any_eq_true.mpr ⟨e, List.mem_of_find?_eq_some hfind,
                List.find?_some hfind⟩
            have hok2 : cacheOK sys.db (((root, emp, accStep acc part) : CacheKey) :: cache)
                = true := by
              simp only [cacheOK, List.all_cons, Bool.and_eq_true]
              exact ⟨hbase, hok⟩
            obtain ⟨hrest, hc⟩ := ih (accStep acc part) _ sys sys' cache' hok2 h
            refine ⟨?_, hc⟩
            intro q hq
            rcases List.mem_cons.mp (by simpa [accPrefixes] using hq) with hq1 | hq2
            · subst hq1
              have := ensureChainCachedGo_keeps root emp rest (accStep acc part)
                (((root, emp, accStep acc part) : CacheKey) :: cache) sys
                root emp (accStep acc part) hbase
              rw [h] at this
              exact this
            · exact hrest q hq2
        | none =>
            rw [hfind] at h
            replace h : (((saveNewDb (folderRow root emp (accStep acc part) part) : StM Sys Unit) >>= fun _ =>
                ensureChainCachedGo root emp (accStep acc part)
                  (((root, emp, accStep acc part) : CacheKey) :: cache) rest) sys)
                = (Except.ok cache', sys') := h
            simp only [StM.run_bind] at h
            rw [saveNewDb] at h
            by_cases hcol : sys.db.any (fun x =>
                entryKeyEq x (folderRow root emp (accStep acc part) part)) = true
            · simp [hcol] at h
            · have hcol2 : sys.db.any (fun x =>
                  entryKeyEq x (folderRow root emp (accStep acc part) part)) = false := by
                simpa using hcol
              simp only [hcol2, Bool.false_eq_true, if_false] at h
              have hbase : hasFolder
                  (sys.db ++ [{ folderRow root emp (accStep acc part) part with id := sys.nextId }])
                  root emp (accStep acc part) = true := by
                simp only [hasFolder, List.any_append, Bool.or_eq_true]
                right
                simp [folderAt_folderRow]
              have hok2 : cacheOK
                  (sys.db ++ [{ folderRow root emp (accStep acc part) part with id := sys.nextId }])
                  (((root, emp, accStep acc part) : CacheKey) :: cache) = true := by
                simp only [cacheOK, List.all_cons, Bool.and_eq_true]
                exact ⟨hbase, cacheOK_mono _ _ _ hok⟩
              obtain ⟨hrest, hc⟩ := ih (accStep acc part) _ _ sys' cache' hok2 h
              refine ⟨?_, hc⟩
              intro q hq
              rcases List.mem_cons.mp (by simpa [accPrefixes] using hq) with hq1 | hq2
              · subst hq1
                have := ensureChainCachedGo_keeps root emp rest (accStep acc part)
                  (((root, emp, accStep acc part) : CacheKey) :: cache)
                  { db := sys.db ++ [{ folderRow root emp (accStep acc part) part with id := sys.nextId }],
                    s3 := sys.s3, nextId := sys.nextId + 1 }
                  root emp (accStep acc part) hbase
                rw [h] at this
                exact this
              · exact hrest q hq2

/-- Wrapper facts for `ensureFolderChainCached`. -/
theorem ensureFolderChainCached_extends (root p : Str) (emp : Option Str)
    (cache : List CacheKey) (sys : Sys) :
    ∃ extra : Store,
      ((ensureFolderChainCached root p emp cache sys).2).db = sys.db ++ extra ∧
      ((ensureFolderChainCached root p emp cache sys).2).s3 = sys.s3 ∧
      ∀ e ∈ extra, e.type = EType.folder ∧ e.root = root ∧ e.employeeNumber = emp ∧
        e.path ∈ segPrefixes p := by
  unfold ensureFolderChainCached
  by_cases hc : normPath p = []
  · refine ⟨[], ?_, ?_, by simp⟩ <;> simp [hc]
  · simp only [hc, if_false]
    obtain ⟨extra, h1, h3, h2⟩ :=
      ensureChainCachedGo_extends root emp ((splitSlash (normPath p)).filter (· ≠ [])) [] cache sys
    exact ⟨extra, h1, h3, fun e he => by
      obtain ⟨t1, t2, t3, t4⟩ := h2 e he
      exact ⟨t1, t2, t3, by simpa [segPrefixes] using t4⟩⟩

theorem ensureFolderChainCached_ok (root p : Str) (emp : Option Str)
    (cache : List CacheKey) (sys sys' : Sys) (cache' : List CacheKey)
    (hok : cacheOK sys.db cache = true)
    (h : ensureFolderChainCached root p emp cache sys = (Except.ok cache', sys')) :
    (∀ q ∈ segPrefixes p, hasFolder sys'.db root emp q = true) ∧
      cacheOK sys'.db cache' = true := by
  unfold ensureFolderChainCached at h
  by_cases hc : normPath p = []
  · simp only [hc, if_true] at h
    replace h : ((Except.ok cache, sys) : Except Err (List CacheKey) × Sys)
        = (Except.ok cache', sys') := h
    have h1 := congrArg Prod.fst h
    have h2 := congrArg Prod.snd h
    simp only at h1 h2
    injection h1 with h1
    subst h1
    subst h2
    exact ⟨by simp [segPrefixes, hc, accPrefixes], hok⟩
  · simp only [hc, if_false] at h
    obtain ⟨ha, hb⟩ := ensureChainCachedGo_ok root emp _ [] cache sys sys' cache' hok h
    exact ⟨fun q hq => ha q (by simpa [segPrefixes] using hq), hb⟩

/-! ### Canonical paths and segment-prefix decompositions -/

/-- Segments produced by `splitSlash` never contain a separator. -/
theorem splitSlash_no_slash_out (s : Str) : ∀ x ∈ splitSlash s, '/' ∉ x := by
  induction s with
  | nil => simp [splitSlash]
  | cons c t ih =>
      by_cases hc : c = '/'
      · simp only [splitSlash, hc, if_true]
        intro x hx
        rcases List.mem_cons.mp hx with hx1 | hx2
        · subst hx1; simp
        · exact ih x hx2
      · simp only [splitSlash, hc, if_false]
        cases h : splitSlash t with
        | nil => exact absurd h (splitSlash_ne_nil t)
        | cons y r =>
            intro x hx
            rcases List.mem_cons.mp hx with hx1 | hx2
            · subst hx1
              intro hmem
              rcases List.mem_cons.mp hmem with h1 | h2
              · exact hc h1.symm
              · exact ih y (by simp [h]) h2
            · exact ih x (by simp [h, hx2])

theorem joinSegs_head (x : Str) (t : List Str) : ∃ u, joinSegs (x :: t) = x ++ u := by
  cases t with
  | nil => exact ⟨[], by simp [joinSegs]⟩
  | cons y r => exact ⟨'/' :: joinSegs (y :: r), rfl⟩

theorem joinSegs_ne_nil (x : Str) (t : List Str) (hx : x ≠ []) : joinSegs (x :: t) ≠ [] := by
  obtain ⟨u, hu⟩ := joinSegs_head x t
  rw [hu]
  simp [hx]

theorem joinSegs_append (A B : List Str) (hA : A ≠ []) (hB : B ≠ []) :
    joinSegs (A ++ B) = joinSegs A ++ '/' :: joinSegs B := by
  induction A with
  | nil => exact absurd rfl hA
  | cons x r ih =>
      cases r with
      | nil =>
          cases B with
          | nil => exact absurd rfl hB
          | cons b bs => simp [joinSegs, joinSegs_cons₂]
      | cons y r' =>
          rw [show (x :: y :: r' ++ B : List Str) = x :: (y :: (r' ++ B)) from rfl, joinSegs_cons₂]
          rw [show (y :: (r' ++ B) : List Str) = (y :: r') ++ B from rfl, ih (by simp)]
          rw [joinSegs_cons₂]
          simp [List.append_assoc]

/-- A join of canonical non-empty segments is a `normPath` fixpoint. -/
theorem joinSegs_fix (l : List Str) (hne : l ≠ [])
    (hseg : ∀ s ∈ l, normPath s = s ∧ s ≠ []) :
    normPath (joinSegs l) = joinSegs l := by
  induction l with
  | nil => exact absurd rfl hne
  | cons x r ih =>
      cases r with
      | nil =>
          simp only [joinSegs]
          exact (hseg x (by simp)).1
      | cons y r' =>
          rw [joinSegs_cons₂]
          have hx := hseg x (by simp)
          have hrest := ih (by simp) (fun s hs => hseg s (by simp [hs]))
          exact normPath_fix_join x (joinSegs (y :: r')) hx.1 hrest hx.2
            (joinSegs_ne_nil y r' (hseg y (by simp)).2)

@[simp] theorem accStep_nil (x : Str) : accStep [] x = x := rfl

theorem accStep_cons (acc x : Str) (h : acc ≠ []) : accStep acc x = acc ++ '/' :: x := by
  simp [accStep, h]

theorem foldl_accStep_eq (t : List Str) : ∀ acc : Str, acc ≠ [] → t ≠ [] →
    List.foldl accStep acc t = acc ++ '/' :: joinSegs t := by
  induction t with
  | nil => intro acc _ h; exact absurd rfl h
  | cons y r ih =>
      intro acc hacc _
      cases r with
      | nil => simp [joinSegs, List.foldl, accStep_cons acc y hacc]
      | cons z r' =>
          have h1 : List.foldl accStep acc (y :: z :: r') =
              List.foldl accStep (acc ++ '/' :: y) (z :: r') := by
            simp [List.foldl, accStep_cons acc y hacc]
          rw [h1, ih (acc ++ '/' :: y) (by simp) (by simp), joinSegs_cons₂]
          simp

/-- Membership in `accPrefixes` characterized by folds over take-prefixes. -/
theorem mem_accPrefixes_iff (l : List Str) : ∀ (acc q : Str),
    q ∈ accPrefixes acc l ↔
      ∃ k, 1 ≤ k ∧ k ≤ l.length ∧ q = List.foldl accStep acc (l.take k) := by
  induction l with
  | nil =>
      intro acc q
      simp [accPrefixes]
      omega
  | cons x r ih =>
      intro acc q
      simp only [accPrefixes, List.mem_cons]
      constructor
      · intro h
        rcases h with h1 | h2
        · exact ⟨1, by omega, by simp, by simpa [List.foldl] using h1⟩
        · obtain ⟨k, hk1, hk2, hk3⟩ := (ih (accStep acc x) q).mp h2
          refine ⟨k + 1, by omega, by simpa using hk2, ?_⟩
          simpa [List.foldl] using hk3
      · intro ⟨k, hk1, hk2, hk3⟩
        cases k with
        | zero => omega
        | succ k' =>
            cases k' with
            | zero =>
                left
                simpa [List.foldl] using hk3
            | succ k'' =>
                right
                apply (ih (accStep acc x) q).mpr
                refine ⟨k'' + 1, by omega, by simpa using hk2, ?_⟩
                simpa [List.foldl] using hk3

/-- A path in the form the engine itself produces and stores: a `normPath`
fixpoint whose slash-separated segments are themselves non-empty fixpoints. -/
def CanonPath (p : Str) : Prop :=
  normPath p = p ∧ p ≠ [] ∧ ∀ s ∈ splitSlash p, normPath s = s ∧ s ≠ []

instance : DecidablePred CanonPath := fun p => by
  unfold CanonPath
  infer_instance

theorem foldl_accStep_joinSegs (l : List Str) (hne : l ≠ []) (hmem : [] ∉ l) :
    List.foldl accStep [] l = joinSegs l := by
  cases l with
  | nil => exact absurd rfl hne
  | cons x t =>
      have hx : x ≠ [] := fun h => hmem (by simp [h])
      have h0 : List.foldl accStep [] (x :: t) = List.foldl accStep x t := by
        simp [List.foldl]
      cases t with
      | nil => simp [h0, List.foldl, joinSegs]
      | cons y r =>
          rw [h0, foldl_accStep_eq (y :: r) x hx (by simp), joinSegs_cons₂]

theorem dropLast_append_ne_nil {α : Type} (A B : List α) (hB : B ≠ []) :
    (A ++ B).dropLast = A ++ B.dropLast := by
  induction A with
  | nil => simp
  | cons a t ih =>
      cases hab : t ++ B with
      | nil =>
          rcases List.append_eq_nil.mp hab with ⟨_, h2⟩
          exact absurd h2 hB
      | cons z zs =>
          calc (a :: t ++ B).dropLast = (a :: (z :: zs)).dropLast := by
                rw [List.cons_append, hab]
            _ = a :: (z :: zs).dropLast := by simp
            _ = a :: (t ++ B).dropLast := by rw [hab]
            _ = a :: (t ++ B.dropLast) := by rw [ih]
            _ = a :: t ++ B.dropLast := by simp

/-- The canonical parent: for a canonical `P`, `parentOf P` is the join of
all but the last segment. -/
theorem parentOf_canon (P : Str) (hc : CanonPath P) :
    parentOf P = joinSegs (splitSlash P).dropLast := by
  obtain ⟨h1, h2, _⟩ := hc
  rw [parentOf, h1]
  simp [h2]

/-- For a canonical `P`, the segment prefixes of `parentOf P` are the
accumulated joins of all but the last segment. -/
theorem segPrefixes_parentOf_canon (P : Str) (hc : CanonPath P) :
    segPrefixes (parentOf P) = accPrefixes [] (splitSlash P).dropLast := by
  obtain ⟨h1, h2, h3⟩ := hc
  rw [segPrefixes, parentOf_canon P ⟨h1, h2, h3⟩]
  cases hL : (splitSlash P).dropLast with
  | nil => simp [normPath, jsTrim, trimL, trimR, bslToSlash, stripOneLead, stripOneTrail,
      joinSegs, splitSlash, accPrefixes]
  | cons x L' =>
      have hsub : ∀ s ∈ (splitSlash P).dropLast, s ∈ splitSlash P :=
        fun s hs => (List.dropLast_sublist (splitSlash P)).subset hs
      have hmem : ∀ s ∈ (x :: L' : List Str), normPath s = s ∧ s ≠ [] := by
        intro s hs
        exact h3 s (hsub s (hL ▸ hs))
      have hfix : normPath (joinSegs (x :: L')) = joinSegs (x :: L') :=
        joinSegs_fix _ (by simp) hmem
      have hslf : ∀ s ∈ (x :: L' : List Str), '/' ∉ s := by
        intro s hs
        exact splitSlash_no_slash_out P s (hsub s (hL ▸ hs))
      rw [hfix, splitSlash_joinSegs _ hslf (by simp)]
      congr 1
      rw [List.filter_eq_self]
      intro a ha
      simpa using (hmem a ha).2

/-- Forward bridge: a proper segment-prefix decomposition of a canonical
path is one of the cumulative prefixes visited by the chain ensurer on the
parent. -/
theorem properPrefix_mem_segPrefixes_parent (P q r : Str) (hc : CanonPath P)
    (hdec : P = q ++ '/' :: r) :
    q ∈ segPrefixes (parentOf P) := by
  obtain ⟨h1, h2, h3⟩ := hc
  have hsplit : splitSlash P = splitSlash q ++ splitSlash r := by
    rw [hdec]
    exact splitSlash_append q r
  rw [segPrefixes_parentOf_canon P ⟨h1, h2, h3⟩]
  cases hr : splitSlash r with
  | nil => exact absurd hr (splitSlash_ne_nil r)
  | cons y r₂ =>
      have hL : (splitSlash P).dropLast = splitSlash q ++ (y :: r₂).dropLast := by
        rw [hsplit, hr]
        exact dropLast_append_ne_nil _ _ (by simp)
      rw [hL]
      apply (mem_accPrefixes_iff _ [] q).mpr
      refine ⟨(splitSlash q).length, ?_, ?_, ?_⟩
      · have := splitSlash_ne_nil q
        cases hq2 : splitSlash q with
        | nil => exact absurd hq2 this
        | cons _ _ => simp [hq2]
      · simp
      · rw [List.take_left]
        have hmemq : [] ∉ splitSlash q := by
          intro hin
          have : ([] : Str) ∈ splitSlash P := by
            rw [hsplit]
            exact List.mem_append.mpr (Or.inl hin)
          exact (h3 [] this).2 rfl
        rw [foldl_accStep_joinSegs _ (splitSlash_ne_nil q) hmemq, joinSegs_splitSlash]

/-- Backward bridge: every cumulative prefix visited by the chain ensurer
on the parent of a canonical `P` is a proper segment prefix of `P`. -/
theorem mem_segPrefixes_parent_decomp (P q : Str) (hc : CanonPath P)
    (hq : q ∈ segPrefixes (parentOf P)) : q ≠ [] ∧ ∃ r, P = q ++ '/' :: r := by
  obtain ⟨h1, h2, h3⟩ := hc
  rw [segPrefixes_parentOf_canon P ⟨h1, h2, h3⟩] at hq
  obtain ⟨k, hk1, hk2, hk3⟩ := (mem_accPrefixes_iff _ [] q).mp hq
  have hlen : (splitSlash P).dropLast.length = (splitSlash P).length - 1 :=
    List.length_dropLast _
  have htk : (splitSlash P).dropLast.take k = (splitSlash P).take k := by
    rw [List.dropLast_eq_take, List.take_take]
    congr 1
    omega
  have hmemP : [] ∉ splitSlash P := fun hin => (h3 [] hin).2 rfl
  have hktake : (splitSlash P).take k ≠ [] := by
    intro h
    rw [List.take_eq_nil_iff] at h
    rcases h with h | h
    · omega
    · exact splitSlash_ne_nil P h
  have hmemtk : [] ∉ (splitSlash P).take k := by
    intro hin
    exact hmemP ((List.take_sublist _ _).subset hin)
  have hqj : q = joinSegs ((splitSlash P).take k) := by
    rw [hk3, htk]
    exact foldl_accStep_joinSegs _ hktake hmemtk
  have hqne : q ≠ [] := by
    rw [hqj]
    cases htt : (splitSlash P).take k with
    | nil => exact absurd htt hktake
    | cons a t =>
        apply joinSegs_ne_nil
        intro ha
        exact hmemtk (by simp [htt, ha])
  refine ⟨hqne, joinSegs ((splitSlash P).drop k), ?_⟩
  have hdrop : (splitSlash P).drop k ≠ [] := by
    intro h
    have := congrArg List.length h
    simp at this
    omega
  calc P = joinSegs (splitSlash P) := (joinSegs_splitSlash P).symm
    _ = joinSegs ((splitSlash P).take k ++ (splitSlash P).drop k) := by
        rw [List.take_append_drop]
    _ = joinSegs ((splitSlash P).take k) ++ '/' :: joinSegs ((splitSlash P).drop k) :=
        joinSegs_append _ _ hktake hdrop
    _ = q ++ '/' :: joinSegs ((splitSlash P).drop k) := by rw [← hqj]

/-! ### Successful-run inversion and C6 -/

theorem StM.bind_ok {σ α β : Type} {x : StM σ α} {f : α → StM σ β} {s s' : σ} {b : β}
    (h : (x >>= f) s = (Except.ok b, s')) :
    ∃ a s₁, x s = (Except.ok a, s₁) ∧ f a s₁ = (Except.ok b, s') := by
  have hx := StM.run_bind x f s
  rw [h] at hx
  rcases hxs : x s with ⟨r, s₁⟩
  rw [hxs] at hx
  cases r with
  | ok a => exact ⟨a, s₁, rfl, hx.symm⟩
  | error e => simp at hx

/-- The marker key written by `createFolderMarker`. -/
def markerKeyOf (f r : Str) : Str :=
  let key := storageBuildKey f r
  if key.getLast? = some '/' then key else key ++ ['/']

theorem stCreateFolderMarker_run (f r : Str) (s : Sys) :
    stCreateFolderMarker f r s =
      (Except.ok (markerKeyOf f r),
        { s with s3 := if s.s3.contains (markerKeyOf f r) then s.s3
                       else s.s3 ++ [markerKeyOf f r] }) := rfl

/-- Upserting a row never removes a folder row with a different key. -/
theorem upsertRowDb_keeps (r0 : Entry) (s : Sys) (root : Str) (emp : Option Str) (q : Str)
    (hne : ¬ (r0.root = root ∧ r0.employeeNumber = emp ∧ r0.path = q))
    (h : hasFolder s.db root emp q = true) :
    hasFolder ((upsertRowDb r0 s).2).db root emp q = true := by
  obtain ⟨e, hmem, hfa⟩ := List.any_eq_true.mp h
  have hkey : entryKeyEq e r0 = false := by
    rw [Bool.eq_false_iff]
    intro hk
    simp only [entryKeyEq, Bool.and_eq_true, beq_iff_eq] at hk
    simp only [folderAt, Bool.and_eq_true, beq_iff_eq] at hfa
    obtain ⟨⟨hk1, hk2⟩, hk3⟩ := hk
    obtain ⟨⟨⟨hf1, hf2⟩, _⟩, hf4⟩ := hfa
    apply hne
    refine ⟨?_, ?_, ?_⟩
    · rw [← hk1]; exact hf1
    · rw [← hk2]; exact hf4
    · rw [← hk3]; exact hf2
  unfold upsertRowDb
  by_cases hany : s.db.any (fun x => entryKeyEq x r0) = true
  · simp only [hany, if_true]
    apply List.any_eq_true.mpr
    refine ⟨e, ?_, hfa⟩
    apply List.mem_map.mpr
    exact ⟨e, hmem, by simp [hkey]⟩
  · have hany2 : s.db.any (fun x => entryKeyEq x r0) = false := by simpa using hany
    simp only [hany2, Bool.false_eq_true, if_false]
    exact hasFolder_mono _ _ _ _ _ h

/-- Upserting many rows never removes a folder row whose key differs from
every upserted row's key. -/
theorem upsertManyDb_keeps (rows : List Entry) :
    ∀ (s s' : Sys) (root : Str) (emp : Option Str) (q : Str),
      upsertManyDb rows s = (Except.ok (), s') →
      (∀ r0 ∈ rows, ¬ (r0.root = root ∧ r0.employeeNumber = emp ∧ r0.path = q)) →
      hasFolder s.db root emp q = true →
      hasFolder s'.db root emp q = true := by
  induction rows with
  | nil =>
      intro s s' root emp q h _ hh
      replace h : ((Except.ok (), s) : Except Err Unit × Sys) = (Except.ok (), s') := h
      have h2 := congrArg Prod.snd h
      simp only at h2
      rw [← h2]
      exact hh
  | cons r0 t ih =>
      intro s s' root emp q h hne hh
      obtain ⟨a, s₁, h1, h2⟩ := StM.bind_ok (h := h)
      have hs₁ : (upsertRowDb r0 s).2 = s₁ := by rw [h1]
      have hkeep := upsertRowDb_keeps r0 s root emp q (hne r0 (by simp)) hh
      rw [hs₁] at hkeep
      exact ih s₁ s' root emp q h2 (fun r hr => hne r (by simp [hr])) hkeep

/-- `upsertManyDb` always succeeds. -/
theorem upsertManyDb_ok (rows : List Entry) : ∀ s : Sys,
    ∃ s', upsertManyDb rows s = (Except.ok (), s') := by
  induction rows with
  | nil => intro s; exact ⟨s, rfl⟩
  | cons r0 t ih =>
      intro s
      obtain ⟨s', hs'⟩ := ih (upsertRowDb r0 s).2
      refine ⟨s', ?_⟩
      show (upsertRowDb r0 >>= fun _ => upsertManyDb t) s = (Except.ok (), s')
      rw [StM.run_bind]
      have : upsertRowDb r0 s = (Except.ok (), (upsertRowDb r0 s).2) := by
        unfold upsertRowDb
        by_cases hany : s.db.any (fun x => entryKeyEq x r0) = true
        · simp [hany]
        · have hany2 : s.db.any (fun x => entryKeyEq x r0) = false := by simpa using hany
          simp [hany2]
      rw [this]
      exact hs'

theorem segPrefixes_canon (P : Str) (hc : CanonPath P) :
    segPrefixes P = accPrefixes [] (splitSlash P) := by
  rw [segPrefixes, hc.1]
  congr 1
  rw [List.filter_eq_self]
  intro a ha
  simpa using (hc.2.2 a ha).2

theorem properPrefix_mem_segPrefixes (P q r : Str) (hc : CanonPath P)
    (hdec : P = q ++ '/' :: r) : q ∈ segPrefixes P := by
  have hsplit : splitSlash P = splitSlash q ++ splitSlash r := by
    rw [hdec]
    exact splitSlash_append q r
  rw [segPrefixes_canon P hc, hsplit]
  apply (mem_accPrefixes_iff _ [] q).mpr
  refine ⟨(splitSlash q).length, ?_, by simp, ?_⟩
  · cases hq2 : splitSlash q with
    | nil => exact absurd hq2 (splitSlash_ne_nil q)
    | cons _ _ => simp [hq2]
  · rw [List.take_left]
    have hmemq : [] ∉ splitSlash q := by
      intro hin
      have : ([] : Str) ∈ splitSlash P := by
        rw [hsplit]
        exact List.mem_append.mpr (Or.inl hin)
      exact (hc.2.2 [] this).2 rfl
    rw [foldl_accStep_joinSegs _ (splitSlash_ne_nil q) hmemq, joinSegs_splitSlash]

theorem path_ne_of_decomp (P q r : Str) (hdec : P = q ++ '/' :: r) : ¬ P = q := by
  intro h
  rw [h] at hdec
  have := congrArg List.length hdec
  simp at this

/-- The storage upload loop touches only the blob store. -/
theorem stUploadLoop_run (fails : List Bool) (folder : Str) (paths : Option (List Str)) :
    ∀ (fs : List MFile) (i : Nat) (s : Sys), ∃ v s3',
      stUploadLoop fails folder paths fs i s = (Except.ok v, { s with s3 := s3' }) := by
  intro fs
  induction fs with
  | nil =>
      intro i s
      exact ⟨([], []), s.s3, rfl⟩
  | cons f t ih =>
      intro i s
      simp only [stUploadLoop]
      by_cases hf : fails.getD i false = true
      · simp only [hf, if_true, StM.run_bind]
        obtain ⟨v, s3', hrec⟩ := ih (i + 1) s
        rw [hrec]
        exact ⟨(v.1, f.originalname :: v.2), s3', rfl⟩
      · have hf2 : fails.getD i false = false := by simpa using hf
        simp only [hf2, Bool.false_eq_true, if_false, StM.run_bind, s3Put]
        obtain ⟨v, s3', hrec⟩ := ih (i + 1)
          { s with s3 := if s.s3.contains (storageBuildKey folder (relAt paths f i)) then s.s3
                         else s.s3 ++ [storageBuildKey folder (relAt paths f i)] }
        rw [hrec]
        exact ⟨({ filename := f.originalname,
                  key := storageBuildKey folder (relAt paths f i) } :: v.1, v.2), s3', rfl⟩

/-- `uploadMultipleFiles` touches only the blob store. -/
theorem stUploadMultipleFiles_run (fails : List Bool) (files : List MFile) (folder : Str)
    (paths : Option (List Str)) (s : Sys) : ∃ raw s3',
      stUploadMultipleFiles fails files folder paths s = (Except.ok raw, { s with s3 := s3' }) := by
  obtain ⟨v, s3', hrun⟩ := stUploadLoop_run fails folder paths files 0 s
  refine ⟨{ success := v.2.isEmpty, results := v.1, errors := v.2 }, s3', ?_⟩
  simp only [stUploadMultipleFiles, StM.run_bind]
  rw [hrun]
  rfl

/-- The row loop of `uploadMultiple`, on a successful run: the table only
gains folder rows, every collected row is the file row of a batch element,
and each collected row's parent chain is materialized. -/
theorem umLoop_ok_props (root : Str) (emp : Option Str) (okSet : List Str) :
    ∀ (batch : List (MFile × Str)) (cache : List CacheKey) (sys : Sys)
      (rows : List Entry) (sys₂ : Sys),
      umLoop root emp okSet batch cache sys = (Except.ok rows, sys₂) →
      cacheOK sys.db cache = true →
      (∃ extra : Store, sys₂.db = sys.db ++ extra ∧
        ∀ e ∈ extra, e.type = EType.folder ∧ e.root = root ∧ e.employeeNumber = emp) ∧
      (∀ r0 ∈ rows, ∃ fr ∈ batch, r0 = fileRow root emp fr.2 fr.1) ∧
      (∀ r0 ∈ rows, ∀ q ∈ segPrefixes (parentOf r0.path),
        hasFolder sys₂.db root emp q = true) := by
  intro batch
  induction batch with
  | nil =>
      intro cache sys rows sys₂ h _
      replace h : ((Except.ok [], sys) : Except Err (List Entry) × Sys) = (Except.ok rows, sys₂) := h
      have h1 := congrArg Prod.fst h
      have h2 := congrArg Prod.snd h
      simp only at h1 h2
      injection h1 with h1
      subst h1
      subst h2
      exact ⟨⟨[], by simp, by simp⟩, by simp, by simp⟩
  | cons fr t ih =>
      intro cache sys rows sys₂ h hok
      by_cases hskip : umSkip okSet fr.2 = true
      · replace h : umLoop root emp okSet t cache sys = (Except.ok rows, sys₂) := by
          rw [← h]
          show umLoop root emp okSet t cache sys = umLoop root emp okSet (fr :: t) cache sys
          rcases fr with ⟨f, rel⟩
          simp only [umLoop, hskip, if_true]
        obtain ⟨hext, hrows, hchain⟩ := ih cache sys rows sys₂ h hok
        exact ⟨hext, fun r0 hr => by
          obtain ⟨fr2, hfr2, he⟩ := hrows r0 hr
          exact ⟨fr2, by simp [hfr2], he⟩, hchain⟩
      · have hskip2 : umSkip okSet fr.2 = false := by simpa using hskip
        replace h : ((ensureFolderChainCached root (parentOf fr.2) emp cache >>= fun cache2 =>
            umLoop root emp okSet t cache2 >>= fun rows2 =>
            pure (fileRow root emp fr.2 fr.1 :: rows2)) sys) = (Except.ok rows, sys₂) := by
          rw [← h]
          rcases fr with ⟨f, rel⟩
          show _ = umLoop root emp okSet ((f, rel) :: t) cache sys
          simp only [umLoop, hskip2, Bool.false_eq_true, if_false]
        obtain ⟨cache2, s1, hens, h⟩ := StM.bind_ok (h := h)
        obtain ⟨rows2, s2, hloop, h⟩ := StM.bind_ok (h := h)
        replace h : ((Except.ok (fileRow root emp fr.2 fr.1 :: rows2), s2) :
            Except Err (List Entry) × Sys) = (Except.ok rows, sys₂) := h
        have h1 := congrArg Prod.fst h
        have h2 := congrArg Prod.snd h
        simp only at h1 h2
        injection h1 with h1
        subst h1
        subst h2
        obtain ⟨extraE, hE1, _, hE2⟩ :=
          ensureFolderChainCached_extends root (parentOf fr.2) emp cache sys
        rw [hens] at hE1
        simp only at hE1
        obtain ⟨hchainHead, hcache2⟩ :=
          ensureFolderChainCached_ok root (parentOf fr.2) emp cache sys s1 cache2 hok hens
        obtain ⟨⟨extraL, hL1, hL2⟩, hrows, hchain⟩ := ih cache2 s1 rows2 s2 hloop hcache2
        refine ⟨⟨extraE ++ extraL, ?_, ?_⟩, ?_, ?_⟩
        · rw [hL1, hE1, List.append_assoc]
        · intro e he
          rcases List.mem_append.mp he with he1 | he2
          · obtain ⟨u1, u2, u3, _⟩ := hE2 e he1
            exact ⟨u1, u2, u3⟩
          · exact hL2 e he2
        · intro r0 hr
          rcases List.mem_cons.mp hr with hr1 | hr2
          · exact ⟨fr, by simp, hr1⟩
          · obtain ⟨fr2, hfr2, he⟩ := hrows r0 hr2
            exact ⟨fr2, by simp [hfr2], he⟩
        · intro r0 hr q hq
          rcases List.mem_cons.mp hr with hr1 | hr2
          · subst hr1
            have hbase := hchainHead q (by simpa [fileRow] using hq)
            rw [hL1]
            exact hasFolder_mono _ _ _ _ _ hbase
          · exact hchain r0 hr2 q hq

/-! ### Length bounds: a stored path never collides with a strict ancestor -/

theorem normPath_length_le (s : Str) : (normPath s).length ≤ s.length := by
  have h1 : (jsTrim s).length ≤ s.length := by
    unfold jsTrim trimR trimL
    calc ((s.dropWhile isWs).reverse.dropWhile isWs).reverse.length
        = ((s.dropWhile isWs).reverse.dropWhile isWs).length := List.length_reverse _
      _ ≤ (s.dropWhile isWs).reverse.length := (List.dropWhile_sublist _).length_le
      _ = (s.dropWhile isWs).length := List.length_reverse _
      _ ≤ s.length := (List.dropWhile_sublist _).length_le
  have h2 : (bslToSlash (jsTrim s)).length = (jsTrim s).length := List.length_map _ _
  have h3 : ∀ t : Str, (stripOneLead t).length ≤ t.length := by
    intro t
    cases t with
    | nil => simp [stripOneLead]
    | cons c r =>
        unfold stripOneLead
        by_cases hc : c = '/' <;> simp [hc]
  have h4 : ∀ t : Str, (stripOneTrail t).length ≤ t.length := by
    intro t
    unfold stripOneTrail
    cases ht : t.reverse with
    | nil => simp
    | cons c r =>
        by_cases hc : c = '/'
        · simp only [hc, if_true]
          have hlen : t.length = r.length + 1 := by
            have := congrArg List.length ht
            simpa using this
          simp [hlen]
        · simp [hc]
  calc (normPath s).length ≤ (stripOneLead (bslToSlash (jsTrim s))).length := h4 _
    _ ≤ (bslToSlash (jsTrim s)).length := h3 _
    _ = (jsTrim s).length := h2
    _ ≤ s.length := h1

theorem length_le_accStep (acc part : Str) : acc.length ≤ (accStep acc part).length := by
  unfold accStep
  by_cases h : acc = [] <;> simp [h]

theorem length_le_foldl_accStep (l : List Str) :
    ∀ acc : Str, acc.length ≤ (List.foldl accStep acc l).length := by
  induction l with
  | nil => intro acc; simp
  | cons x t ih =>
      intro acc
      exact le_trans (length_le_accStep acc x) (by simpa [List.foldl] using ih (accStep acc x))

theorem mem_accPrefixes_length_le (l : List Str) (acc q : Str) (h : q ∈ accPrefixes acc l) :
    q.length ≤ (List.foldl accStep acc l).length := by
  obtain ⟨k, _, _, hk3⟩ := (mem_accPrefixes_iff l acc q).mp h
  have hsplit : List.foldl accStep acc l
      = List.foldl accStep (List.foldl accStep acc (l.take k)) (l.drop k) := by
    rw [← List.foldl_append, List.take_append_drop]
  rw [hsplit, ← hk3]
  exact length_le_foldl_accStep _ _

theorem joinSegs_cons_ne (x : Str) (t : List Str) (ht : t ≠ []) :
    joinSegs (x :: t) = x ++ '/' :: joinSegs t := by
  cases t with
  | nil => exact absurd rfl ht
  | cons y r => rfl

theorem joinSegs_filter_length_le (l : List Str) :
    (joinSegs (l.filter (· ≠ []))).length ≤ (joinSegs l).length := by
  induction l with
  | nil => simp [joinSegs]
  | cons x t ih =>
      by_cases hx : x = []
      · subst hx
        have hf : ((([] : Str) :: t).filter (· ≠ [])) = t.filter (· ≠ []) := by simp
        rw [hf]
        cases ht : t with
        | nil => simp [joinSegs]
        | cons y r =>
            rw [joinSegs_cons_ne _ _ (by simp [ht])]
            rw [← ht]
            simp only [List.nil_append, List.length_cons]
            exact le_trans ih (Nat.le_succ _)
      · have hf : ((x :: t).filter (· ≠ [])) = x :: t.filter (· ≠ []) := by simp [hx]
        rw [hf]
        cases hft : t.filter (· ≠ []) with
        | nil =>
            cases ht : t with
            | nil => simp [joinSegs]
            | cons y r =>
                show (joinSegs [x]).length ≤ (joinSegs (x :: y :: r)).length
                simp [joinSegs]
        | cons z zs =>
            have htne : t ≠ [] := by
              intro h0
              rw [h0] at hft
              simp at hft
            rw [joinSegs_cons_ne x (z :: zs) (by simp), joinSegs_cons_ne x t htne]
            simp only [List.length_append, List.length_cons]
            rw [hft] at ih
            omega

theorem mem_segPrefixes_length_le (p q : Str) (h : q ∈ segPrefixes p) :
    q.length ≤ (normPath p).length := by
  rw [segPrefixes] at h
  have h1 : q.length ≤
      (List.foldl accStep [] ((splitSlash (normPath p)).filter (· ≠ []))).length :=
    mem_accPrefixes_length_le _ _ _ h
  cases hpe : (splitSlash (normPath p)).filter (· ≠ []) with
  | nil =>
      rw [hpe] at h
      simp [accPrefixes] at h
  | cons a t =>
      have hne : (splitSlash (normPath p)).filter (· ≠ []) ≠ [] := by rw [hpe]; simp
      have hnomem : [] ∉ (splitSlash (normPath p)).filter (· ≠ []) := by
        intro hin
        have := List.of_mem_filter hin
        simp at this
      have h2 : List.foldl accStep [] ((splitSlash (normPath p)).filter (· ≠ []))
          = joinSegs ((splitSlash (normPath p)).filter (· ≠ [])) :=
        foldl_accStep_joinSegs _ hne hnomem
      rw [h2] at h1
      calc q.length ≤ (joinSegs ((splitSlash (normPath p)).filter (· ≠ []))).length := h1
        _ ≤ (joinSegs (splitSlash (normPath p))).length := joinSegs_filter_length_le _
        _ = (normPath p).length := by rw [joinSegs_splitSlash]

theorem parentOf_length_lt (P : Str) (hP : normPath P ≠ []) :
    (parentOf P).length < (normPath P).length := by
  simp only [parentOf]
  rw [if_neg hP]
  have hLne : splitSlash (normPath P) ≠ [] := splitSlash_ne_nil _
  rcases List.eq_nil_or_concat (splitSlash (normPath P)) with hL | ⟨init, last, hL⟩
  · exact absurd hL hLne
  · have hdl : (splitSlash (normPath P)).dropLast = init := by rw [hL]; simp
    rw [hdl]
    have hPP : normPath P = joinSegs (init ++ [last]) := by
      rw [← List.concat_eq_append, ← hL, joinSegs_splitSlash]
    cases init with
    | nil =>
        simp only [joinSegs, List.length_nil]
        rcases hcl : normPath P with _ | ⟨c, r⟩
        · exact absurd hcl hP
        · simp
    | cons i0 it =>
        rw [joinSegs_append _ _ (by simp) (by simp)] at hPP
        rw [hPP]
        simp [joinSegs]

theorem ne_of_mem_segPrefixes_parentOf (P q : Str)
    (hq : q ∈ segPrefixes (parentOf P)) : P ≠ q := by
  by_cases hP : normPath P = []
  · exfalso
    have hpar : parentOf P = [] := by simp [parentOf, hP]
    rw [hpar] at hq
    have : segPrefixes ([] : Str) = [] := rfl
    rw [this] at hq
    exact absurd hq (List.not_mem_nil q)
  · intro he
    have h1 : q.length ≤ (normPath (parentOf P)).length := mem_segPrefixes_length_le _ _ hq
    have h2 : (normPath (parentOf P)).length ≤ (parentOf P).length := normPath_length_le _
    have h3 : (parentOf P).length < (normPath P).length := parentOf_length_lt P hP
    have h4 : (normPath P).length ≤ P.length := normPath_length_le _
    have h5 : P.length = q.length := by rw [he]
    omega

/-! ### Upload batches: ancestry side conditions and ensure-loop facts -/

/-- Ancestor-freeness of a batch of desired paths: no path of the batch lies
on the parent folder chain of another (so no file row of the batch can
replace, via the upsert key, a folder row the batch itself requires). -/
def AncFree (l : List Str) : Prop :=
  ∀ d ∈ l, ∀ d2 ∈ l, d ∉ segPrefixes (parentOf d2)

instance : DecidablePred AncFree := fun l => by
  unfold AncFree
  infer_instance

/-- The ok-set recomputed from the physical upload results, phrased on the
results list that the response itself exposes. -/
def okSetOfResults (base : Str) (results : List UpResult) : List Str :=
  (results.map (fun u => relativeFromS3Key base u.key)).filter (· ≠ [])

theorem mkOkSet_eq (base : Str) (raw : UploadManyRaw) :
    mkOkSet base raw = okSetOfResults base raw.results := rfl

/-- The desired relative paths computed by `uploadMultiple` from the cleaned
base path and the original file names. -/
def umDesired (p : Str) (files : List MFile) : List Str :=
  files.map (fun f =>
    relFromOriginalName (if p = [] then f.originalname else p ++ '/' :: f.originalname))

/-- On a successful run the row loop of `uploadMultiple` materializes the
parent folder chain of every non-skipped batch element. -/
theorem umLoop_ok_chains (root : Str) (emp : Option Str) (okSet : List Str) :
    ∀ (batch : List (MFile × Str)) (cache : List CacheKey) (sys : Sys)
      (rows : List Entry) (sys₂ : Sys),
      umLoop root emp okSet batch cache sys = (Except.ok rows, sys₂) →
      cacheOK sys.db cache = true →
      ∀ fr ∈ batch, umSkip okSet fr.2 = false →
        ∀ q ∈ segPrefixes (parentOf fr.2), hasFolder sys₂.db root emp q = true := by
  intro batch
  induction batch with
  | nil =>
      intro cache sys rows sys₂ _ _ fr hfr
      exact absurd hfr (List.not_mem_nil fr)
  | cons fr0 t ih =>
      intro cache sys rows sys₂ h hok fr hfr hns q hq
      by_cases hskip : umSkip okSet fr0.2 = true
      · replace h : umLoop root emp okSet t cache sys = (Except.ok rows, sys₂) := by
          rw [← h]
          show umLoop root emp okSet t cache sys = umLoop root emp okSet (fr0 :: t) cache sys
          rcases fr0 with ⟨f, rel⟩
          simp only [umLoop, hskip, if_true]
        rcases List.mem_cons.mp hfr with he | ht
        · subst he
          rw [hns] at hskip
          exact absurd hskip (by simp)
        · exact ih cache sys rows sys₂ h hok fr ht hns q hq
      · have hskip2 : umSkip okSet fr0.2 = false := by simpa using hskip
        replace h : ((ensureFolderChainCached root (parentOf fr0.2) emp cache >>= fun cache2 =>
            umLoop root emp okSet t cache2 >>= fun rows2 =>
            pure (fileRow root emp fr0.2 fr0.1 :: rows2)) sys) = (Except.ok rows, sys₂) := by
          rw [← h]
          rcases fr0 with ⟨f, rel⟩
          show _ = umLoop root emp okSet ((f, rel) :: t) cache sys
          simp only [umLoop, hskip2, Bool.false_eq_true, if_false]
        obtain ⟨cache2, s1, hens, h⟩ := StM.bind_ok (h := h)
        obtain ⟨rows2, s2, hloop, h⟩ := StM.bind_ok (h := h)
        replace h : ((Except.ok (fileRow root emp fr0.2 fr0.1 :: rows2), s2) :
            Except Err (List Entry) × Sys) = (Except.ok rows, sys₂) := h
        have h2 := congrArg Prod.snd h
        simp only at h2
        subst h2
        obtain ⟨hchainHead, hcache2⟩ :=
          ensureFolderChainCached_ok root (parentOf fr0.2) emp cache sys s1 cache2 hok hens
        rcases List.mem_cons.mp hfr with he | ht
        · subst he
          have hbase := hchainHead q hq
          obtain ⟨⟨extraL, hL1, _⟩, _, _⟩ :=
            umLoop_ok_props root emp okSet t cache2 s1 rows2 s2 hloop hcache2
          rw [hL1]
          exact hasFolder_mono _ _ _ _ _ hbase
        · exact ih cache2 s1 rows2 s2 hloop hcache2 fr ht hns q hq

/-- The up-front ensure loop of `uploadFolder`: only appends same-tenant
folder rows, touches no S3 object, keeps the cache sound, and materializes
the parent folder chain of every desired path. -/
theorem ufEnsureAll_ok (root : Str) (emp : Option Str) :
    ∀ (l : List Str) (cache : List CacheKey) (sys : Sys)
      (cache' : List CacheKey) (sys' : Sys),
      ufEnsureAll root emp l cache sys = (Except.ok cache', sys') →
      cacheOK sys.db cache = true →
      (∃ extra : Store, sys'.db = sys.db ++ extra ∧ sys'.s3 = sys.s3 ∧
        ∀ e ∈ extra, e.type = EType.folder ∧ e.root = root ∧ e.employeeNumber = emp) ∧
      cacheOK sys'.db cache' = true ∧
      ∀ rel ∈ l, ∀ q ∈ segPrefixes (parentOf rel), hasFolder sys'.db root emp q = true := by
  intro l
  induction l with
  | nil =>
      intro cache sys cache' sys' h hok
      replace h : ((Except.ok cache, sys) : Except Err (List CacheKey) × Sys)
          = (Except.ok cache', sys') := h
      have h1 := congrArg Prod.fst h
      have h2 := congrArg Prod.snd h
      simp only at h1 h2
      injection h1 with h1
      subst h1
      subst h2
      exact ⟨⟨[], by simp, rfl, by simp⟩, hok, by simp⟩
  | cons rel t ih =>
      intro cache sys cache' sys' h hok
      replace h : ((ensureFolderChainCached root (parentOf rel) emp cache >>= fun c2 =>
          ufEnsureAll root emp t c2) sys) = (Except.ok cache', sys') := by
        rw [← h]
        show _ = ufEnsureAll root emp (rel :: t) cache sys
        simp only [ufEnsureAll]
      obtain ⟨c2, s1, hens, hrest⟩ := StM.bind_ok (h := h)
      obtain ⟨hE, hch⟩ :=
        ensureFolderChainCached_ok root (parentOf rel) emp cache sys s1 c2 hok hens
      obtain ⟨extraE, hE1, hE3, hE2⟩ :=
        ensureFolderChainCached_extends root (parentOf rel) emp cache sys
      rw [hens] at hE1 hE3
      simp only at hE1 hE3
      obtain ⟨⟨extraL, hL1, hL3, hL2⟩, hcache', hchains⟩ := ih c2 s1 cache' sys' hrest hch
      refine ⟨⟨extraE ++ extraL, ?_, ?_, ?_⟩, hcache', ?_⟩
      · rw [hL1, hE1, List.append_assoc]
      · rw [hL3, hE3]
      · intro e he
        rcases List.mem_append.mp he with h1 | h2
        · obtain ⟨u1, u2, u3, _⟩ := hE2 e h1
          exact ⟨u1, u2, u3⟩
        · exact hL2 e h2
      · intro r hr q hq
        rcases List.mem_cons.mp hr with he | ht
        · subst he
          have hbase := hE q hq
          rw [hL1]
          exact hasFolder_mono _ _ _ _ _ hbase
        · exact hchains r ht q hq

/-! ### Folder-chain guarantees of the write endpoints -/

/-- `createFolder`: on success every segment prefix of the final path
(including the created folder itself) has a folder row. -/
theorem createFolderOp_chain (mf : Bool) (root path name : Str) (emp : Option Str)
    (sys : Sys) (resp : FolderResp) (sys' : Sys)
    (h : createFolderOp mf root path name emp sys = (Except.ok resp, sys')) :
    ∀ q ∈ segPrefixes resp.finalPath, hasFolder sys'.db (normRoot root) emp q = true := by
  simp only [createFolderOp] at h
  by_cases hn : relFromOriginalName name = []
  · rw [if_pos hn] at h
    replace h : ((Except.error (Err.validation (str "name is required")), sys) :
        Except Err FolderResp × Sys) = (Except.ok resp, sys') := h
    have := congrArg Prod.fst h
    simp at this
  · rw [if_neg hn] at h
    obtain ⟨u1, s1, hens1, h⟩ := StM.bind_ok (h := h)
    obtain ⟨u2, s2, hens2, h⟩ := StM.bind_ok (h := h)
    by_cases hmf : mf = true
    · rw [if_pos hmf] at h
      replace h : ((Except.error Err.storage, s2) : Except Err FolderResp × Sys)
          = (Except.ok resp, sys') := h
      have := congrArg Prod.fst h
      simp at this
    · rw [if_neg hmf] at h
      obtain ⟨k, s3, hmark, h⟩ := StM.bind_ok (h := h)
      replace h : ((Except.ok
          ({ finalPath := joinPath (normPath path) (relFromOriginalName name),
             s3Key := buildTenantS3Key (normRoot root) emp
               (joinPath (normPath path) (relFromOriginalName name)) true } : FolderResp), s3) :
          Except Err FolderResp × Sys) = (Except.ok resp, sys') := h
      have h1 := congrArg Prod.fst h
      have h2 := congrArg Prod.snd h
      simp only at h1 h2
      injection h1 with h1
      subst h2
      rw [stCreateFolderMarker_run] at hmark
      have h3 := congrArg Prod.snd hmark
      simp only at h3
      intro q hq
      rw [← h1] at hq
      simp only at hq
      have hchain := ensureFolderChain_ok _ _ _ _ _ hens2 q hq
      rw [← h3]
      exact hchain

/-- `uploadOne`: on success every segment prefix of the parent of the
written path has a folder row (the file row itself cannot displace one of
them: its path is strictly longer than any of its ancestors). -/
theorem uploadOneOp_chain (sf : Bool) (root path : Str) (emp : Option Str) (file : MFile)
    (sys : Sys) (resp : UploadOneResp) (sys' : Sys)
    (h : uploadOneOp sf root path emp file sys = (Except.ok resp, sys')) :
    ∀ q ∈ segPrefixes (parentOf resp.path), hasFolder sys'.db (normRoot root) emp q = true := by
  unfold uploadOneOp at h
  obtain ⟨u1, s1, hens1, h⟩ := StM.bind_ok (h := h)
  obtain ⟨u2, s2, hens2, h⟩ := StM.bind_ok (h := h)
  by_cases hsf : sf = true
  · rw [if_pos hsf] at h
    replace h : ((Except.error Err.storage, s2) : Except Err UploadOneResp × Sys)
        = (Except.ok resp, sys') := h
    have := congrArg Prod.fst h
    simp at this
  · rw [if_neg hsf] at h
    obtain ⟨u3, s3, hput, h⟩ := StM.bind_ok (h := h)
    obtain ⟨u4, s4, hups, h⟩ := StM.bind_ok (h := h)
    replace h : ((Except.ok
        ({ path := relFromOriginalName
             (if normPath path = [] then file.originalname
              else normPath path ++ '/' :: file.originalname),
           s3Key := buildTenantS3Key (normRoot root) emp
             (relFromOriginalName
               (if normPath path = [] then file.originalname
                else normPath path ++ '/' :: file.originalname)) false } : UploadOneResp), s4) :
        Except Err UploadOneResp × Sys) = (Except.ok resp, sys') := h
    have h1 := congrArg Prod.fst h
    have h2 := congrArg Prod.snd h
    simp only at h1 h2
    injection h1 with h1
    subst h2
    intro q hq
    rw [← h1] at hq
    simp only at hq
    have hchain := ensureFolderChain_ok _ _ _ _ _ hens2 q hq
    replace hput : ((Except.ok (), { s2 with
        s3 := if s2.s3.contains (storageBuildKey (s3BaseFolder (normRoot root) emp)
                 (relFromOriginalName
                   (if normPath path = [] then file.originalname
                    else normPath path ++ '/' :: file.originalname))) then s2.s3
              else s2.s3 ++ [storageBuildKey (s3BaseFolder (normRoot root) emp)
                 (relFromOriginalName
                   (if normPath path = [] then file.originalname
                    else normPath path ++ '/' :: file.originalname))] }) :
        Except Err Unit × Sys) = (Except.ok u3, s3) := hput
    have h3 := congrArg Prod.snd hput
    simp only at h3
    have hchain3 : hasFolder s3.db (normRoot root) emp q = true := by
      rw [← h3]
      exact hchain
    have h4 := congrArg Prod.snd hups
    simp only at h4
    rw [← h4]
    apply upsertRowDb_keeps
    · intro hcon
      exact ne_of_mem_segPrefixes_parentOf _ q hq hcon.2.2
    · exact hchain3

/-- `uploadMultiple`: on success, if the desired batch paths are
ancestor-free, every non-skipped batch element has its full parent folder
chain materialized in the final store. -/
theorem uploadMultipleOp_chain (fails : List Bool) (root path : Str) (emp : Option Str)
    (files : List MFile) (sys : Sys) (resp : UploadManyResp) (sys' : Sys)
    (h : uploadMultipleOp fails root path emp files sys = (Except.ok resp, sys'))
    (hanc : AncFree (umDesired (normPath path) files)) :
    ∀ fr ∈ files.zip (umDesired (normPath path) files),
      umSkip (okSetOfResults (s3BaseFolder (normRoot root) emp) resp.results) fr.2 = false →
      ∀ q ∈ segPrefixes (parentOf fr.2), hasFolder sys'.db (normRoot root) emp q = true := by
  simp only [uploadMultipleOp] at h
  obtain ⟨u1, s1, hens1, h⟩ := StM.bind_ok (h := h)
  obtain ⟨cache1, s2, hcache, h⟩ := StM.bind_ok (h := h)
  obtain ⟨raw, s3, hup, h⟩ := StM.bind_ok (h := h)
  obtain ⟨rows, s4, hloop, h⟩ := StM.bind_ok (h := h)
  obtain ⟨u5, s5, hups, h⟩ := StM.bind_ok (h := h)
  rw [StM.run_pure] at h
  have h1 := congrArg Prod.fst h
  have h2 := congrArg Prod.snd h
  simp only at h1 h2
  injection h1 with h1
  subst h2
  obtain ⟨raw0, s3x, hrun⟩ := stUploadMultipleFiles_run fails files
    (s3BaseFolder (normRoot root) emp) (some (umDesired (normPath path) files)) s2
  have hx : ((Except.ok raw0, { s2 with s3 := s3x }) : Except Err UploadManyRaw × Sys)
      = (Except.ok raw, s3) := Eq.trans hrun.symm hup
  have hs3 := congrArg Prod.snd hx
  simp only at hs3
  have hdb3 : s3.db = s2.db := by rw [← hs3]
  obtain ⟨_, hcok⟩ := ensureFolderChainCached_ok (normRoot root) (normPath path) emp [] s1 s2
    cache1 (by simp [cacheOK]) hcache
  have hcok3 : cacheOK s3.db cache1 = true := by rw [hdb3]; exact hcok
  rintro ⟨ff, dd⟩ hfr hns q hq
  have hns2 : umSkip (mkOkSet (s3BaseFolder (normRoot root) emp) raw) dd = false := by
    rw [← h1] at hns
    simp only at hns
    exact hns
  have hchain4 := umLoop_ok_chains _ _ _ _ _ _ _ _ hloop hcok3 (ff, dd) hfr hns2 q hq
  have hkeep := upsertManyDb_keeps rows s4 s5 (normRoot root) emp q hups ?hnot hchain4
  case hnot =>
    intro r1 hr1 hcon
    obtain ⟨_, hrows, _⟩ := umLoop_ok_props _ _ _ _ cache1 s3 rows s4 hloop hcok3
    obtain ⟨⟨f1, d1⟩, hfr1, he1⟩ := hrows r1 hr1
    have hp1 : r1.path = d1 := by
      rw [he1]
      rfl
    have hd1 : d1 ∈ umDesired (normPath path) files := (List.of_mem_zip hfr1).2
    have hd : dd ∈ umDesired (normPath path) files := (List.of_mem_zip hfr).2
    apply hanc d1 hd1 dd hd
    rw [← hp1, hcon.2.2]
    exact hq
  exact hkeep

/-- `uploadFolder`: on success, if the desired batch paths are
ancestor-free, every desired path (skipped or not: the ensure loop runs
up-front over the whole batch) has its full parent folder chain
materialized in the final store. -/
theorem uploadFolderOp_chain (fails : List Bool) (root basePath : Str) (emp : Option Str)
    (paths : Option (List Str)) (files : List MFile) (sys : Sys)
    (resp : UploadManyResp) (sys' : Sys)
    (h : uploadFolderOp fails root basePath emp paths files sys = (Except.ok resp, sys'))
    (hanc : AncFree (ufDesired (normPath basePath) paths files)) :
    ∀ d ∈ ufDesired (normPath basePath) paths files,
      ∀ q ∈ segPrefixes (parentOf d), hasFolder sys'.db (normRoot root) emp q = true := by
  simp only [uploadFolderOp] at h
  by_cases hlen : (ufIncoming paths files).length ≠ files.length
  · rw [if_pos hlen] at h
    replace h : ((Except.error (Err.validation (str "paths[] length must match files[] length")),
        sys) : Except Err UploadManyResp × Sys) = (Except.ok resp, sys') := h
    have := congrArg Prod.fst h
    simp at this
  · rw [if_neg hlen] at h
    by_cases hany : (ufIncoming paths files).any (· = []) = true
    · rw [if_pos hany] at h
      replace h : ((Except.error (Err.validation (str "Invalid file path(s)")), sys) :
          Except Err UploadManyResp × Sys) = (Except.ok resp, sys') := h
      have := congrArg Prod.fst h
      simp at this
    · rw [if_neg hany] at h
      obtain ⟨c1, s1, hens, h⟩ := StM.bind_ok (h := h)
      obtain ⟨raw, s2, hup, h⟩ := StM.bind_ok (h := h)
      obtain ⟨u3, s3, hups, h⟩ := StM.bind_ok (h := h)
      rw [StM.run_pure] at h
      have h2 := congrArg Prod.snd h
      simp only at h2
      subst h2
      obtain ⟨⟨extraE, hdb1, _, _⟩, hcok1, hchains⟩ := ufEnsureAll_ok (normRoot root) emp
        (ufDesired (normPath basePath) paths files) [] sys c1 s1 hens (by simp [cacheOK])
      obtain ⟨raw0, s2x, hrun⟩ := stUploadMultipleFiles_run fails files
        (s3BaseFolder (normRoot root) emp)
        (some (ufDesired (normPath basePath) paths files)) s1
      have hx : ((Except.ok raw0, { s1 with s3 := s2x }) : Except Err UploadManyRaw × Sys)
          = (Except.ok raw, s2) := Eq.trans hrun.symm hup
      have hs2 := congrArg Prod.snd hx
      simp only at hs2
      have hdb2 : s2.db = s1.db := by rw [← hs2]
      intro d hd q hq
      have hbase := hchains d hd q hq
      have hbase2 : hasFolder s2.db (normRoot root) emp q = true := by
        rw [hdb2]
        exact hbase
      refine upsertManyDb_keeps _ s2 s3 (normRoot root) emp q hups ?_ hbase2
      intro r1 hr1 hcon
      obtain ⟨⟨f1, d1⟩, hfr1, hsome⟩ := List.mem_filterMap.mp hr1
      split at hsome
      · exact absurd hsome (by simp)
      · have he1 : fileRow (normRoot root) emp d1 f1 = r1 := by
          injection hsome
        have hp1 : r1.path = d1 := by
          rw [← he1]
          rfl
        have hd1 : d1 ∈ ufDesired (normPath basePath) paths files := (List.of_mem_zip hfr1).2
        apply hanc d1 hd1 d hd
        rw [← hp1, hcon.2.2]
        exact hq

/-! ### C6: counterexample, amended invariant and witness -/

def c6FileDeep : MFile :=
  { originalname := str "A/b.png", size := some 3, mimetype := some (str "image/png") }

def c6FileFlat : MFile :=
  { originalname := str "A", size := some 4, mimetype := some (str "text/plain") }

def c6run : Except Err UploadManyResp × Sys :=
  uploadMultipleOp [false, false] (str "drive") [] tE1 [c6FileDeep, c6FileFlat] sysEmpty

/-- C6 (counterexample): a fully successful `uploadMultiple` batch writes the
file `A/b.png`, whose proper prefix `A` the claim requires to carry a folder
entry — yet the sibling batch file whose desired path is exactly `A`
replaces, through the upsert conflict key `(root, employeeNumber, path)`,
the very folder row the chain ensurer had just created: after the run no
folder entry at `A` exists. -/
theorem C6_upsert_clobbers_folder_chain :
    c6run.1 = Except.ok
      { success := true
        results := [{ filename := str "A/b.png", key := str "drive/E1/A/b.png" },
                    { filename := str "A", key := str "drive/E1/A" }]
        errors := []
        count := 2 } ∧
    c6run.2.db.any (fun e => e.path == str "A/b.png" && e.type == EType.file) = true ∧
    (str "A") ∈ segPrefixes (parentOf (str "A/b.png")) ∧
    hasFolder c6run.2.db (normRoot (str "drive")) tE1 (str "A") = false := by
  decide

/-- C6: the folder-chain invariant, amended.  (1) After a successful
`createFolder` every segment prefix of the final path has a folder row, and
(2) after a successful `uploadOne` every segment prefix of the parent of
the written path has one.  For the batch endpoints the invariant needs the
desired batch paths to be ancestor-free (no batch path may lie on the
parent chain of another, else its file row replaces a required folder row
through the upsert conflict key — see the counterexample): (3) under that
side condition a successful `uploadMultiple` materializes the parent chain
of every non-skipped batch element, and (4) a successful `uploadFolder`
that of every desired path.  (5) Ensuring an already-materialized chain is
a no-op on the whole system state, and (6) so is ensuring an empty path. -/
theorem C6_folder_chain_invariant :
    (∀ (mf : Bool) (root path name : Str) (emp : Option Str) (sys : Sys)
       (resp : FolderResp) (sys' : Sys),
       createFolderOp mf root path name emp sys = (Except.ok resp, sys') →
       ∀ q ∈ segPrefixes resp.finalPath, hasFolder sys'.db (normRoot root) emp q = true) ∧
    (∀ (sf : Bool) (root path : Str) (emp : Option Str) (file : MFile) (sys : Sys)
       (resp : UploadOneResp) (sys' : Sys),
       uploadOneOp sf root path emp file sys = (Except.ok resp, sys') →
       ∀ q ∈ segPrefixes (parentOf resp.path), hasFolder sys'.db (normRoot root) emp q = true) ∧
    (∀ (fails : List Bool) (root path : Str) (emp : Option Str) (files : List MFile)
       (sys : Sys) (resp : UploadManyResp) (sys' : Sys),
       uploadMultipleOp fails root path emp files sys = (Except.ok resp, sys') →
       AncFree (umDesired (normPath path) files) →
       ∀ fr ∈ files.zip (umDesired (normPath path) files),
         umSkip (okSetOfResults (s3BaseFolder (normRoot root) emp) resp.results) fr.2 = false →
         ∀ q ∈ segPrefixes (parentOf fr.2), hasFolder sys'.db (normRoot root) emp q = true) ∧
    (∀ (fails : List Bool) (root basePath : Str) (emp : Option Str)
       (paths : Option (List Str)) (files : List MFile) (sys : Sys)
       (resp : UploadManyResp) (sys' : Sys),
       uploadFolderOp fails root basePath emp paths files sys = (Except.ok resp, sys') →
       AncFree (ufDesired (normPath basePath) paths files) →
       ∀ d ∈ ufDesired (normPath basePath) paths files,
         ∀ q ∈ segPrefixes (parentOf d), hasFolder sys'.db (normRoot root) emp q = true) ∧
    (∀ (root p : Str) (emp : Option Str) (sys : Sys),
       (∀ q ∈ segPrefixes p, hasFolder sys.db root emp q = true) →
       ensureFolderChain root p emp sys = (Except.ok (), sys)) ∧
    (∀ (root : Str) (emp : Option Str) (sys : Sys),
       ensureFolderChain root [] emp sys = (Except.ok (), sys)) := by
  refine ⟨createFolderOp_chain, uploadOneOp_chain, uploadMultipleOp_chain,
    uploadFolderOp_chain, ensureFolderChain_noop, ?_⟩
  intro root emp sys
  apply ensureFolderChain_noop
  intro q hq
  rw [show segPrefixes ([] : Str) = [] from rfl] at hq
  exact absurd hq (List.not_mem_nil q)

def c6wFile : MFile := { originalname := str "b.png", size := some 1, mimetype := none }

def c6wSys : Sys :=
  { db := [{ id := 1, root := str "d", path := str "A", name := str "A",
             type := EType.folder, parentPath := [], s3Key := str "d/A/",
             size := none, mimeType := none, employeeNumber := none }],
    s3 := [], nextId := 2 }

/-- C6 (witness): each branch of the amended invariant instantiated on a
concrete run. -/
theorem C6_folder_chain_invariant_witness :
    hasFolder (createFolderOp false (str "d") [] (str "A") none sysEmpty).2.db
      (normRoot (str "d")) none (str "A") = true ∧
    hasFolder (uploadOneOp false (str "d") (str "A") none c6wFile sysEmpty).2.db
      (normRoot (str "d")) none (str "A") = true ∧
    hasFolder (uploadMultipleOp [false] (str "d") (str "A") none [c6wFile] sysEmpty).2.db
      (normRoot (str "d")) none (str "A") = true ∧
    hasFolder (uploadFolderOp [false] (str "d") [] none (some [str "A/b.png"]) [c6wFile]
      sysEmpty).2.db (normRoot (str "d")) none (str "A") = true ∧
    ensureFolderChain (str "d") (str "A") none c6wSys = (Except.ok (), c6wSys) ∧
    ensureFolderChain (str "d") [] none sysEmpty = (Except.ok (), sysEmpty) :=
  ⟨C6_folder_chain_invariant.1 false (str "d") [] (str "A") none sysEmpty
      { finalPath := str "A", s3Key := str "d/A/" }
      (createFolderOp false (str "d") [] (str "A") none sysEmpty).2 (by decide)
      (str "A") (by decide),
   C6_folder_chain_invariant.2.1 false (str "d") (str "A") none c6wFile sysEmpty
      { path := str "A/b.png", s3Key := str "d/A/b.png" }
      (uploadOneOp false (str "d") (str "A") none c6wFile sysEmpty).2 (by decide)
      (str "A") (by decide),
   C6_folder_chain_invariant.2.2.1 [false] (str "d") (str "A") none [c6wFile] sysEmpty
      { success := true
        results := [{ filename := str "b.png", key := str "d/A/b.png" }]
        errors := []
        count := 1 }
      (uploadMultipleOp [false] (str "d") (str "A") none [c6wFile] sysEmpty).2 (by decide)
      (by decide) (c6wFile, str "A/b.png") (by decide) (by decide) (str "A") (by decide),
   C6_folder_chain_invariant.2.2.2.1 [false] (str "d") [] none (some [str "A/b.png"])
      [c6wFile] sysEmpty
      { success := true
        results := [{ filename := str "b.png", key := str "d/A/b.png" }]
        errors := []
        count := 1 }
      (uploadFolderOp [false] (str "d") [] none (some [str "A/b.png"]) [c6wFile] sysEmpty).2
      (by decide) (by decide) (str "A/b.png") (by decide) (str "A") (by decide),
   C6_folder_chain_invariant.2.2.2.2.1 (str "d") (str "A") none c6wSys (by decide),
   C6_folder_chain_invariant.2.2.2.2.2 (str "d") none sysEmpty⟩

/-! ### C3: move placement policy -/

/-- C3: the move placement policy, amended.  Both `moveFile` and
`moveFolder` ALWAYS nest the source under the target
(`newPath = targetPath/sourceName`, or just `sourceName` for an empty
target) on every successful run — the computed destination never depends on
whether the target currently exists as a folder entry, so there is no
rename-via-move branch. -/
theorem C3_move_always_nests :
    (∀ (sf : Bool) (root source target : Str) (emp : Option Str) (sys : Sys)
       (resp : MoveResp) (sys' : Sys),
       moveFileOp sf root source target emp sys = (Except.ok resp, sys') →
       resp.oldPath = normPath source ∧
       resp.newPath = (if normPath target = [] then nameOf (normPath source)
                       else joinPath (normPath target) (nameOf (normPath source)))) ∧
    (∀ (sf : Bool) (cut : Nat) (root source target : Str) (emp : Option Str) (sys : Sys)
       (resp : MoveResp) (sys' : Sys),
       moveFolderOp sf cut root source target emp sys = (Except.ok resp, sys') →
       resp.oldPath = normPath source ∧
       resp.newPath = (if normPath target = [] then nameOf (normPath source)
                       else joinPath (normPath target) (nameOf (normPath source)))) := by
  constructor
  · intro sf root source target emp sys resp sys' h
    simp only [moveFileOp] at h
    by_cases hsrc : normPath source = []
    · rw [if_pos hsrc] at h
      replace h : ((Except.error (Err.validation (str "sourcePath is required")), sys) :
          Except Err MoveResp × Sys) = (Except.ok resp, sys') := h
      have := congrArg Prod.fst h
      simp at this
    · rw [if_neg hsrc] at h
      obtain ⟨a, s1, hfind, h⟩ := StM.bind_ok (h := h)
      split at h
      · replace h : ((Except.error (Err.validation (str "File not found in DB")), s1) :
            Except Err MoveResp × Sys) = (Except.ok resp, sys') := h
        have := congrArg Prod.fst h
        simp at this
      · split at h
        · replace h : ((Except.error (Err.validation (str "sourcePath is not a file")), s1) :
              Except Err MoveResp × Sys) = (Except.ok resp, sys') := h
          have := congrArg Prod.fst h
          simp at this
        · obtain ⟨u1, s2, hens, h⟩ := StM.bind_ok (h := h)
          obtain ⟨u2, s3, hmv, h⟩ := StM.bind_ok (h := h)
          obtain ⟨u3, s4, hupd, h⟩ := StM.bind_ok (h := h)
          rw [StM.run_pure] at h
          have h1 := congrArg Prod.fst h
          simp only at h1
          injection h1 with h1
          exact ⟨by rw [← h1], by rw [← h1]⟩
  · intro sf cut root source target emp sys resp sys' h
    unfold moveFolderOp at h
    by_cases hsrc : normPath source = []
    · rw [if_pos hsrc] at h
      replace h : ((Except.error (Err.validation (str "sourcePath is required")), sys) :
          Except Err MoveResp × Sys) = (Except.ok resp, sys') := h
      have := congrArg Prod.fst h
      simp at this
    · rw [if_neg hsrc] at h
      obtain ⟨a, s1, hfind, h⟩ := StM.bind_ok (h := h)
      split at h
      · replace h : ((Except.error (Err.validation (str "Folder not found in DB")), s1) :
            Except Err MoveResp × Sys) = (Except.ok resp, sys') := h
        have := congrArg Prod.fst h
        simp at this
      · split at h
        · replace h : ((Except.error (Err.validation (str "sourcePath is not a folder")), s1) :
              Except Err MoveResp × Sys) = (Except.ok resp, sys') := h
          have := congrArg Prod.fst h
          simp at this
        · obtain ⟨u1, s2, hens, h⟩ := StM.bind_ok (h := h)
          obtain ⟨u2, s3, hmv, h⟩ := StM.bind_ok (h := h)
          obtain ⟨chg, s4, hcas, h⟩ := StM.bind_ok (h := h)
          rw [StM.run_pure] at h
          have h1 := congrArg Prod.fst h
          simp only at h1
          injection h1 with h1
          exact ⟨by rw [← h1], by rw [← h1]⟩

def c3wSys : Sys :=
  { db := [{ id := 1, root := str "d", path := str "A/f.txt", name := str "f.txt",
             type := EType.file, parentPath := str "A", s3Key := str "d/A/f.txt",
             size := some 1, mimeType := none, employeeNumber := none }],
    s3 := [str "d/A/f.txt"], nextId := 2 }

def c3wSys2 : Sys :=
  { db := [{ id := 1, root := str "d", path := str "A", name := str "A",
             type := EType.folder, parentPath := [], s3Key := str "d/A/",
             size := none, mimeType := none, employeeNumber := none }],
    s3 := [str "d/A/"], nextId := 2 }

/-- C3 (witness): both branches instantiated on concrete successful moves
(`A/f.txt → B` and folder `A → B`), where no folder entry at `B` exists. -/
theorem C3_move_always_nests_witness :
    (({ oldPath := str "A/f.txt", newPath := str "B/f.txt", updated := 0 } : MoveResp).oldPath
        = normPath (str "A/f.txt") ∧
     ({ oldPath := str "A/f.txt", newPath := str "B/f.txt", updated := 0 } : MoveResp).newPath
        = (if normPath (str "B") = [] then nameOf (normPath (str "A/f.txt"))
           else joinPath (normPath (str "B")) (nameOf (normPath (str "A/f.txt"))))) ∧
    (({ oldPath := str "A", newPath := str "B/A", updated := 1 } : MoveResp).oldPath
        = normPath (str "A") ∧
     ({ oldPath := str "A", newPath := str "B/A", updated := 1 } : MoveResp).newPath
        = (if normPath (str "B") = [] then nameOf (normPath (str "A"))
           else joinPath (normPath (str "B")) (nameOf (normPath (str "A"))))) :=
  ⟨C3_move_always_nests.1 false (str "d") (str "A/f.txt") (str "B") none c3wSys
      { oldPath := str "A/f.txt", newPath := str "B/f.txt", updated := 0 }
      (moveFileOp false (str "d") (str "A/f.txt") (str "B") none c3wSys).2 (by decide),
   C3_move_always_nests.2 false 0 (str "d") (str "A") (str "B") none c3wSys2
      { oldPath := str "A", newPath := str "B/A", updated := 1 }
      (moveFolderOp false 0 (str "d") (str "A") (str "B") none c3wSys2).2 (by decide)⟩

/-! ### C2: infrastructure -/

/-- A computation that always succeeds touching only the blob-store keys. -/
def S3Only {α : Type} (m : StM Sys α) : Prop :=
  ∀ s : Sys, ∃ a s3', m s = (Except.ok a, { s with s3 := s3' })

theorem S3Only.bind {α β : Type} {x : StM Sys α} {f : α → StM Sys β}
    (hx : S3Only x) (hf : ∀ a, S3Only (f a)) : S3Only (x >>= f) := by
  intro s
  obtain ⟨a, s3x, hxr⟩ := hx s
  obtain ⟨b, s3f, hfr⟩ := hf a { s with s3 := s3x }
  refine ⟨b, s3f, ?_⟩
  rw [StM.run_bind, hxr]
  exact hfr

theorem S3Only.pure {α : Type} (a : α) : S3Only (pure a : StM Sys α) :=
  fun s => ⟨a, s.s3, rfl⟩

theorem S3Only.s3Put (k : Str) : S3Only (s3Put k) :=
  fun s => ⟨(), if s.s3.contains k then s.s3 else s.s3 ++ [k], rfl⟩

theorem S3Only.s3Delete (k : Str) : S3Only (s3Delete k) :=
  fun s => ⟨(), s.s3.filter (fun x => !(x == k)), rfl⟩

theorem S3Only.s3ListPrefix (p : Str) : S3Only (s3ListPrefix p) :=
  fun s => ⟨s.s3.filter (fun k => p.isPrefixOf k), s.s3, rfl⟩

theorem S3Only.s3PutAll (l : List Str) : S3Only (s3PutAll l) := by
  induction l with
  | nil => exact S3Only.pure ()
  | cons k t ih => exact S3Only.bind (S3Only.s3Put k) (fun _ => ih)

theorem S3Only.s3DeleteAll (l : List Str) : S3Only (s3DeleteAll l) := by
  induction l with
  | nil => exact S3Only.pure ()
  | cons k t ih => exact S3Only.bind (S3Only.s3Delete k) (fun _ => ih)

theorem S3Only.ite {α : Type} (c : Prop) [Decidable c] {x y : StM Sys α}
    (hx : S3Only x) (hy : S3Only y) : S3Only (if c then x else y) := by
  by_cases h : c
  · rw [if_pos h]; exact hx
  · rw [if_neg h]; exact hy

theorem stMoveFile_s3Only (b o n : Str) : S3Only (stMoveFile false b o n) :=
  S3Only.bind (S3Only.s3Put (storageBuildKey b n)) (fun _ =>
    S3Only.bind (S3Only.s3Delete (storageBuildKey b o)) (fun _ =>
      S3Only.pure (storageBuildKey b o, storageBuildKey b n)))

theorem stMovePrefix_s3Only (cut : Nat) (b o n : Str) :
    S3Only (stMovePrefix false cut b o n) := by
  unfold stMovePrefix
  refine S3Only.bind (S3Only.s3ListPrefix _) (fun objs => ?_)
  rw [if_neg (by simp : ¬ (false = true))]
  exact S3Only.ite _
    (S3Only.bind (S3Only.s3Put _) (fun _ => S3Only.pure 0))
    (S3Only.bind (S3Only.s3PutAll _) (fun _ =>
      S3Only.bind (S3Only.s3DeleteAll _) (fun _ => S3Only.pure objs.length)))

/-! ### C5: storage-failure runs of the physical primitives -/

/-- A computation that always fails, touching only the blob-store keys
(possibly leaving partial physical mutations behind). -/
def S3ErrOnly {α : Type} (m : StM Sys α) : Prop :=
  ∀ s : Sys, ∃ e s3', m s = (Except.error e, { s with s3 := s3' })

theorem S3ErrOnly.fail {α : Type} (e : Err) : S3ErrOnly (StM.fail e : StM Sys α) :=
  fun s => ⟨e, s.s3, rfl⟩

theorem S3ErrOnly.iteE {α : Type} (c : Prop) [Decidable c] {x y : StM Sys α}
    (hx : S3ErrOnly x) (hy : S3ErrOnly y) : S3ErrOnly (if c then x else y) := by
  by_cases h : c
  · rw [if_pos h]
    exact hx
  · rw [if_neg h]
    exact hy

theorem S3ErrOnly.bindE {α β : Type} {x : StM Sys α} {f : α → StM Sys β}
    (hx : S3Only x) (hf : ∀ a, S3ErrOnly (f a)) : S3ErrOnly (x >>= f) := by
  intro s
  obtain ⟨a, s3x, hxr⟩ := hx s
  obtain ⟨e, s3f, hfr⟩ := hf a { s with s3 := s3x }
  refine ⟨e, s3f, ?_⟩
  rw [StM.run_bind, hxr]
  exact hfr

/-- A failing `renameFile`: with `cut = 0` the copy threw, otherwise the
copy landed and the delete threw — either way only failure and blob keys. -/
theorem stRenameFile_fail_err (cut : Nat) (b o n : Str) :
    S3ErrOnly (stRenameFile true cut b o n) := by
  unfold stRenameFile
  refine S3ErrOnly.iteE _ (S3ErrOnly.fail _) ?_
  show S3ErrOnly (if cut = 0 then (StM.fail Err.storage : StM Sys (Str × Str))
    else (s3Put (storageBuildKey b n) >>= fun _ => StM.fail Err.storage))
  exact S3ErrOnly.iteE _ (S3ErrOnly.fail _)
    (S3ErrOnly.bindE (S3Only.s3Put _) (fun _ => S3ErrOnly.fail _))

theorem stMoveFile_fail_run (b o n : Str) (s : Sys) :
    stMoveFile true b o n s = (Except.error Err.storage, s) := rfl

/-- A failing `movePrefix`: up to `cut` copies landed (none for an empty
folder) before the throw. -/
theorem stMovePrefix_fail_err (cut : Nat) (b o n : Str) :
    S3ErrOnly (stMovePrefix true cut b o n) := by
  unfold stMovePrefix
  refine S3ErrOnly.bindE (S3Only.s3ListPrefix _) (fun objs => ?_)
  rw [if_pos (rfl : true = true)]
  exact S3ErrOnly.iteE _ (S3ErrOnly.fail _)
    (S3ErrOnly.bindE (S3Only.s3PutAll _) (fun _ => S3ErrOnly.fail _))

theorem stDeleteObject_fail_run (b r : Str) (s : Sys) :
    stDeleteObject true b r s = (Except.error Err.storage, s) := rfl

/-- A failing `deletePrefix`: up to `cut` object deletions went through
before the throw. -/
theorem stDeletePrefix_fail_err (cut : Nat) (b r : Str) :
    S3ErrOnly (stDeletePrefix true cut b r) := by
  unfold stDeletePrefix
  refine S3ErrOnly.bindE (S3Only.s3ListPrefix _) (fun objs => ?_)
  rw [if_pos (rfl : true = true)]
  exact S3ErrOnly.bindE (S3Only.s3DeleteAll _) (fun _ => S3ErrOnly.fail _)

/-- Inverting a failed step: the pair equation of an error run. -/
theorem pairErr_inv {α : Type} {e : Err} {s1 : Sys} {res : Except Err α} {sys2 : Sys}
    (h : ((Except.error e, s1) : Except Err α × Sys) = (res, sys2)) :
    (∀ r : α, res ≠ Except.ok r) ∧ sys2 = s1 := by
  have hf := congrArg Prod.fst h
  have hs := congrArg Prod.snd h
  simp only at hf hs
  exact ⟨fun r hr => by rw [← hf] at hr; exact Except.noConfusion hr, hs.symm⟩

/-- Inverting a failed step whose state kept the metadata store (only the
blob keys moved). -/
theorem pairErrS3_inv {α : Type} {e : Err} {s1 : Sys} {s3x : List Str}
    {res : Except Err α} {sys2 : Sys}
    (h : ((Except.error e, { s1 with s3 := s3x }) : Except Err α × Sys) = (res, sys2)) :
    (∀ r : α, res ≠ Except.ok r) ∧ sys2.db = s1.db ∧ sys2.nextId = s1.nextId := by
  have hf := congrArg Prod.fst h
  have hs := congrArg Prod.snd h
  simp only at hf hs
  refine ⟨fun r hr => by rw [← hf] at hr; exact Except.noConfusion hr, ?_, ?_⟩
  · rw [← hs]
  · rw [← hs]

/-- C5: physical-then-metadata ordering, amended.  When the physical step
fails — possibly midway, after partial blob mutations (`cut` injects how
many of its requests had already succeeded) — `rename` and `remove`
propagate the failure with the METADATA STORE unchanged: same rows and the
same id counter, while the blob store may keep the partial copies or
deletions.  `moveFile` and `moveFolder` also never succeed and never
update, cascade or delete an existing row — but they do NOT leave the
metadata store unchanged: `ensureFolderChain` runs for the target BEFORE
the physical step, so the table may already have gained same-tenant folder
rows (see the counterexample). -/
theorem C5_storage_failure_atomicity :
    (∀ (cut : Nat) (root o n : Str) (emp : Option Str) (sys : Sys)
       (res : Except Err MoveResp) (sys2 : Sys),
       renameOp true cut root o n emp sys = (res, sys2) →
       (∀ resp, res ≠ Except.ok resp) ∧ sys2.db = sys.db ∧ sys2.nextId = sys.nextId) ∧
    (∀ (cut : Nat) (root p : Str) (kind : DelKind) (emp : Option Str) (sys : Sys)
       (res : Except Err DeleteResp) (sys2 : Sys),
       removeOp true cut root p kind emp sys = (res, sys2) →
       (∀ resp, res ≠ Except.ok resp) ∧ sys2.db = sys.db ∧ sys2.nextId = sys.nextId) ∧
    (∀ (root source target : Str) (emp : Option Str) (sys : Sys)
       (res : Except Err MoveResp) (sys2 : Sys),
       moveFileOp true root source target emp sys = (res, sys2) →
       (∀ resp, res ≠ Except.ok resp) ∧
       ∃ extra : Store, sys2.db = sys.db ++ extra ∧
         ∀ x ∈ extra, x.type = EType.folder ∧ x.root = normRoot root ∧
           x.employeeNumber = emp) ∧
    (∀ (cut : Nat) (root source target : Str) (emp : Option Str) (sys : Sys)
       (res : Except Err MoveResp) (sys2 : Sys),
       moveFolderOp true cut root source target emp sys = (res, sys2) →
       (∀ resp, res ≠ Except.ok resp) ∧
       ∃ extra : Store, sys2.db = sys.db ++ extra ∧
         ∀ x ∈ extra, x.type = EType.folder ∧ x.root = normRoot root ∧
           x.employeeNumber = emp) := by
  refine ⟨?_, ?_, ?_, ?_⟩
  · intro cut root o n emp sys res sys2 h
    simp only [renameOp] at h
    by_cases h1 : normPath o = []
    · rw [if_pos h1] at h
      obtain ⟨hne, hs⟩ := pairErr_inv h
      exact ⟨hne, by rw [hs], by rw [hs]⟩
    · rw [if_neg h1] at h
      by_cases h2 : relFromOriginalName n = []
      · rw [if_pos h2] at h
        obtain ⟨hne, hs⟩ := pairErr_inv h
        exact ⟨hne, by rw [hs], by rw [hs]⟩
      · rw [if_neg h2] at h
        rw [StM.run_bind] at h
        split at h
        · rename_i a s' heq
          have hs' : s' = sys := by
            have := congrArg Prod.snd heq
            simp only [findOneDb] at this
            exact this.symm
          subst hs'
          split at h
          · obtain ⟨hne, hs⟩ := pairErr_inv h
            exact ⟨hne, by rw [hs], by rw [hs]⟩
          · split at h
            · rw [StM.run_bind] at h
              obtain ⟨e2, s3x, hrun⟩ := stMovePrefix_fail_err cut
                (s3BaseFolder (normRoot root) emp) (normPath o)
                (if parentOf (normPath o) = [] then relFromOriginalName n
                 else joinPath (parentOf (normPath o)) (relFromOriginalName n)) s'
              rw [hrun] at h
              exact pairErrS3_inv h
            · rw [StM.run_bind] at h
              obtain ⟨e2, s3x, hrun⟩ := stRenameFile_fail_err cut
                (s3BaseFolder (normRoot root) emp) (normPath o)
                (if parentOf (normPath o) = [] then relFromOriginalName n
                 else joinPath (parentOf (normPath o)) (relFromOriginalName n)) s'
              rw [hrun] at h
              exact pairErrS3_inv h
        · rename_i e s' heq
          exfalso
          have := congrArg Prod.fst heq
          simp [findOneDb] at this
  · intro cut root p kind emp sys res sys2 h
    simp only [removeOp] at h
    by_cases h1 : normPath p = []
    · rw [if_pos h1] at h
      obtain ⟨hne, hs⟩ := pairErr_inv h
      exact ⟨hne, by rw [hs], by rw [hs]⟩
    · rw [if_neg h1] at h
      rw [StM.run_bind] at h
      split at h
      · rename_i a s' heq
        have hs' : s' = sys := by
          have := congrArg Prod.snd heq
          simp only [findOneDb] at this
          exact this.symm
        subst hs'
        split at h
        · obtain ⟨hne, hs⟩ := pairErr_inv h
          exact ⟨hne, by rw [hs], by rw [hs]⟩
        · split at h
          · rw [StM.run_bind] at h
            obtain ⟨e2, s3x, hrun⟩ := stDeletePrefix_fail_err cut
              (s3BaseFolder (normRoot root) emp) (normPath p) s'
            rw [hrun] at h
            exact pairErrS3_inv h
          · obtain ⟨hne, hs⟩ := pairErr_inv h
            exact ⟨hne, by rw [hs], by rw [hs]⟩
      · rename_i e s' heq
        exfalso
        have := congrArg Prod.fst heq
        simp [findOneDb] at this
  · intro root source target emp sys res sys2 h
    simp only [moveFileOp] at h
    by_cases h1 : normPath source = []
    · rw [if_pos h1] at h
      obtain ⟨hne, hs⟩ := pairErr_inv h
      refine ⟨hne, [], ?_, by simp⟩
      rw [hs]
      simp
    · rw [if_neg h1] at h
      rw [StM.run_bind] at h
      split at h
      · rename_i a s' heq
        have hs' : sys = s' := by
          have := congrArg Prod.snd heq
          simp only [findOneDb] at this
          exact this
        subst hs'
        split at h
        · obtain ⟨hne, hs⟩ := pairErr_inv h
          refine ⟨hne, [], ?_, by simp⟩
          rw [hs]
          simp
        · split at h
          · obtain ⟨hne, hs⟩ := pairErr_inv h
            refine ⟨hne, [], ?_, by simp⟩
            rw [hs]
            simp
          · rw [StM.run_bind] at h
            split at h
            · rename_i u s₁ hens
              obtain ⟨hne, hs⟩ := pairErr_inv h
              obtain ⟨extra, hdb, hprops⟩ :=
                ensureFolderChain_extends (normRoot root) (normPath target) emp sys
              rw [hens] at hdb
              simp only at hdb
              refine ⟨hne, extra, ?_, ?_⟩
              · rw [hs]
                exact hdb
              · intro x hx
                obtain ⟨a1, a2, a3, _⟩ := hprops x hx
                exact ⟨a1, a2, a3⟩
            · rename_i e s₁ hens
              obtain ⟨hne, hs⟩ := pairErr_inv h
              obtain ⟨extra, hdb, hprops⟩ :=
                ensureFolderChain_extends (normRoot root) (normPath target) emp sys
              rw [hens] at hdb
              simp only at hdb
              refine ⟨hne, extra, ?_, ?_⟩
              · rw [hs]
                exact hdb
              · intro x hx
                obtain ⟨a1, a2, a3, _⟩ := hprops x hx
                exact ⟨a1, a2, a3⟩
      · rename_i e s' heq
        exfalso
        have := congrArg Prod.fst heq
        simp [findOneDb] at this
  · intro cut root source target emp sys res sys2 h
    unfold moveFolderOp at h
    by_cases h1 : normPath source = []
    · rw [if_pos h1] at h
      obtain ⟨hne, hs⟩ := pairErr_inv h
      refine ⟨hne, [], ?_, by simp⟩
      rw [hs]
      simp
    · rw [if_neg h1] at h
      rw [StM.run_bind] at h
      split at h
      · rename_i a s' heq
        have hs' : sys = s' := by
          have := congrArg Prod.snd heq
          simp only [findOneDb] at this
          exact this
        subst hs'
        split at h
        · obtain ⟨hne, hs⟩ := pairErr_inv h
          refine ⟨hne, [], ?_, by simp⟩
          rw [hs]
          simp
        · split at h
          · obtain ⟨hne, hs⟩ := pairErr_inv h
            refine ⟨hne, [], ?_, by simp⟩
            rw [hs]
            simp
          · rw [StM.run_bind] at h
            split at h
            · rename_i u s₁ hens
              rw [StM.run_bind] at h
              obtain ⟨e2, s3x, hrun⟩ := stMovePrefix_fail_err cut
                (s3BaseFolder (normRoot root) emp) (normPath source)
                (if normPath target = [] then nameOf (normPath source)
                 else joinPath (normPath target) (nameOf (normPath source))) s₁
              rw [hrun] at h
              obtain ⟨hne, hdb2, hnid2⟩ := pairErrS3_inv h
              obtain ⟨extra, hdb, hprops⟩ :=
                ensureFolderChain_extends (normRoot root)
                  (parentOf (if normPath target = [] then nameOf (normPath source)
                             else joinPath (normPath target) (nameOf (normPath source))))
                  emp sys
              rw [hens] at hdb
              simp only at hdb
              refine ⟨hne, extra, ?_, ?_⟩
              · rw [hdb2]
                exact hdb
              · intro x hx
                obtain ⟨a1, a2, a3, _⟩ := hprops x hx
                exact ⟨a1, a2, a3⟩
            · rename_i e s₁ hens
              obtain ⟨hne, hs⟩ := pairErr_inv h
              obtain ⟨extra, hdb, hprops⟩ :=
                ensureFolderChain_extends (normRoot root)
                  (parentOf (if normPath target = [] then nameOf (normPath source)
                             else joinPath (normPath target) (nameOf (normPath source))))
                  emp sys
              rw [hens] at hdb
              simp only at hdb
              refine ⟨hne, extra, ?_, ?_⟩
              · rw [hs]
                exact hdb
              · intro x hx
                obtain ⟨a1, a2, a3, _⟩ := hprops x hx
                exact ⟨a1, a2, a3⟩
      · rename_i e s' heq
        exfalso
        have := congrArg Prod.fst heq
        simp [findOneDb] at this

/-- C5 (witness): the four branches instantiated on concrete storage-failing
runs; the rename one fails after its copy landed (`cut = 1`). -/
theorem C5_storage_failure_atomicity_witness :
    ((∀ resp, (renameOp true 1 (str "d") (str "A/f.txt") (str "g.txt") none c3wSys).1
        ≠ Except.ok resp) ∧
      (renameOp true 1 (str "d") (str "A/f.txt") (str "g.txt") none c3wSys).2.db
        = c3wSys.db ∧
      (renameOp true 1 (str "d") (str "A/f.txt") (str "g.txt") none c3wSys).2.nextId
        = c3wSys.nextId) ∧
    ((∀ resp, (removeOp true 0 (str "d") (str "A/f.txt") DelKind.file none c3wSys).1
        ≠ Except.ok resp) ∧
      (removeOp true 0 (str "d") (str "A/f.txt") DelKind.file none c3wSys).2.db
        = c3wSys.db ∧
      (removeOp true 0 (str "d") (str "A/f.txt") DelKind.file none c3wSys).2.nextId
        = c3wSys.nextId) ∧
    ((∀ resp, (moveFileOp true (str "d") (str "A/f.txt") (str "B") none c3wSys).1
        ≠ Except.ok resp) ∧
      ∃ extra : Store, (moveFileOp true (str "d") (str "A/f.txt") (str "B") none c3wSys).2.db
          = c3wSys.db ++ extra ∧
        ∀ x ∈ extra, x.type = EType.folder ∧ x.root = normRoot (str "d") ∧
          x.employeeNumber = none) ∧
    ((∀ resp, (moveFolderOp true 0 (str "d") (str "A") (str "B") none c3wSys2).1
        ≠ Except.ok resp) ∧
      ∃ extra : Store, (moveFolderOp true 0 (str "d") (str "A") (str "B") none c3wSys2).2.db
          = c3wSys2.db ++ extra ∧
        ∀ x ∈ extra, x.type = EType.folder ∧ x.root = normRoot (str "d") ∧
          x.employeeNumber = none) :=
  ⟨C5_storage_failure_atomicity.1 1 (str "d") (str "A/f.txt") (str "g.txt") none
      c3wSys _ _ rfl,
   C5_storage_failure_atomicity.2.1 0 (str "d") (str "A/f.txt") DelKind.file none
      c3wSys _ _ rfl,
   C5_storage_failure_atomicity.2.2.1 (str "d") (str "A/f.txt") (str "B") none
      c3wSys _ _ rfl,
   C5_storage_failure_atomicity.2.2.2 0 (str "d") (str "A") (str "B") none
      c3wSys2 _ _ rfl⟩

theorem beqSymm {γ : Type} [BEq γ] [LawfulBEq γ] (a b : γ) : (a == b) = (b == a) := by
  by_cases h : a = b
  · subst h
    rfl
  · have h2 : ¬ b = a := fun hh => h hh.symm
    rw [beq_eq_false_iff_ne.mpr h, beq_eq_false_iff_ne.mpr h2]

theorem entryKeyEq_symm (a b : Entry) : entryKeyEq a b = entryKeyEq b a := by
  unfold entryKeyEq
  rw [beqSymm a.root b.root, beqSymm a.employeeNumber b.employeeNumber,
    beqSymm a.path b.path]

theorem uniqueKeysOk_eq_false_of_two :
    ∀ (l : List Entry) (a b : Entry), a ∈ l → b ∈ l → a ≠ b →
      entryKeyEq a b = true → uniqueKeysOk l = false := by
  intro l
  induction l with
  | nil =>
      intro a b ha _ _ _
      exact absurd ha (List.not_mem_nil a)
  | cons e t ih =>
      intro a b ha hb hne hk
      rcases List.mem_cons.mp ha with ha1 | ha2
      · rcases List.mem_cons.mp hb with hb1 | hb2
        · exact absurd (ha1.trans hb1.symm) hne
        · have hany : t.any (fun x => entryKeyEq x e) = true :=
            List.any_eq_true.mpr ⟨b, hb2, by rw [entryKeyEq_symm, ← ha1]; exact hk⟩
          simp [uniqueKeysOk, hany]
      · rcases List.mem_cons.mp hb with hb1 | hb2
        · have hany : t.any (fun x => entryKeyEq x e) = true :=
            List.any_eq_true.mpr ⟨a, ha2, by rw [← hb1]; exact hk⟩
          simp [uniqueKeysOk, hany]
        · simp [uniqueKeysOk, ih a b ha2 hb2 hne hk]

theorem find?_id_eq_self :
    ∀ (l : List Entry) (ex : Entry), ex ∈ l →
      (∀ a ∈ l, ∀ b ∈ l, a.id = b.id → a = b) →
      l.find? (fun x => x.id == ex.id) = some ex := by
  intro l
  induction l with
  | nil =>
      intro ex hx _
      exact absurd hx (List.not_mem_nil ex)
  | cons e t ih =>
      intro ex hx hinj
      by_cases he : (e.id == ex.id) = true
      · have heq : e = ex := by
          rcases List.mem_cons.mp hx with h1 | h2
          · exact h1.symm
          · exact hinj e (by simp) ex (by simp [h2]) (by simpa using he)
        simp [List.find?, he, heq]
      · have he2 : (e.id == ex.id) = false := by simpa using he
        have hext : ex ∈ t := by
          rcases List.mem_cons.mp hx with h1 | h2
          · exfalso
            rw [h1] at he2
            simp at he2
          · exact h2
        simp only [List.find?, he2]
        exact ih ex hext (fun a haa b hbb => hinj a (by simp [haa]) b (by simp [hbb]))

/-- `updateOnePath` into an occupied destination key: the save hits the
unique index and the state is preserved. -/
theorem updateOnePath_unique_fail (r : Str) (emp : Option Str) (oldP newP : Str) (s : Sys)
    (ex occ : Entry)
    (hfind : s.db.find? (keyPred r emp oldP) = some ex)
    (hocc : occ ∈ s.db)
    (hoccR : occ.root = r) (hoccE : occ.employeeNumber = emp)
    (hoccP : occ.path = normPath newP)
    (hid : occ.id ≠ ex.id) :
    updateOnePath r emp oldP newP s = (Except.error Err.uniqueViolation, s) := by
  have hexKey : keyPred r emp oldP ex = true := List.find?_some hfind
  have hexR : ex.root = r := by
    simp only [keyPred, Bool.and_eq_true, beq_iff_eq] at hexKey
    exact hexKey.1.1
  have hexE : ex.employeeNumber = emp := by
    simp only [keyPred, Bool.and_eq_true, beq_iff_eq] at hexKey
    exact hexKey.1.2
  unfold updateOnePath
  rw [StM.run_bind]
  have hf1 : findOneDb (keyPred r emp oldP) s = (Except.ok (some ex), s) := by
    show (Except.ok (s.db.find? (keyPred r emp oldP)), s) = _
    rw [hfind]
  rw [hf1]
  show (saveUpdateDb
      { ex with
        path := normPath newP, parentPath := parentOf (normPath newP),
        name := nameOf (normPath newP),
        s3Key := buildTenantS3Key r emp (normPath newP) (ex.type == EType.folder) } >>= fun _ =>
    pure (some
      { ex with
        path := normPath newP, parentPath := parentOf (normPath newP),
        name := nameOf (normPath newP),
        s3Key := buildTenantS3Key r emp (normPath newP) (ex.type == EType.folder) })) s
    = (Except.error Err.uniqueViolation, s)
  rw [StM.run_bind]
  have hany : s.db.any (fun x => x.id ≠ ex.id && entryKeyEq x
      { ex with
        path := normPath newP, parentPath := parentOf (normPath newP),
        name := nameOf (normPath newP),
        s3Key := buildTenantS3Key r emp (normPath newP) (ex.type == EType.folder) }) = true := by
    apply List.any_eq_true.mpr
    refine ⟨occ, hocc, ?_⟩
    rw [Bool.and_eq_true]
    constructor
    · exact decide_eq_true hid
    · simp only [entryKeyEq, Bool.and_eq_true, beq_iff_eq]
      exact ⟨⟨by rw [hoccR, hexR], by rw [hoccE, hexE]⟩, hoccP⟩
  have hsv : saveUpdateDb
      { ex with
        path := normPath newP, parentPath := parentOf (normPath newP),
        name := nameOf (normPath newP),
        s3Key := buildTenantS3Key r emp (normPath newP) (ex.type == EType.folder) } s
      = (Except.error Err.uniqueViolation, s) := by
    unfold saveUpdateDb
    rw [if_pos hany]
  rw [hsv]

/-- `cascadeUpdatePrefix` whose rewrite lands on an occupied destination
key: the bulk save hits the unique index and the state is preserved. -/
theorem cascadeUpdatePrefix_unique_fail (r : Str) (emp : Option Str)
    (oldPrefix newPrefix : Str) (s : Sys) (ex occ : Entry)
    (hinj : ∀ a ∈ s.db, ∀ b ∈ s.db, a.id = b.id → a = b)
    (hex : ex ∈ s.db) (hexR : ex.root = r) (hexE : ex.employeeNumber = emp)
    (hexP : ex.path = normPath oldPrefix)
    (hfix : normPath (normPath oldPrefix) = normPath oldPrefix)
    (hocc : occ ∈ s.db) (hoccR : occ.root = r) (hoccE : occ.employeeNumber = emp)
    (hoccP : occ.path = normPath newPrefix)
    (hid : occ.id ≠ ex.id)
    (hne2 : normPath newPrefix ≠ normPath oldPrefix)
    (hnp : ¬ ((normPath oldPrefix ++ ['/']).isPrefixOf (normPath newPrefix) = true)) :
    cascadeUpdatePrefix r emp oldPrefix newPrefix s
      = (Except.error Err.uniqueViolation, s) := by
  have haffEx : cascadeAff r emp (normPath oldPrefix) ex = true := by
    simp only [cascadeAff, Bool.and_eq_true, Bool.or_eq_true, beq_iff_eq]
    exact ⟨⟨hexR, hexE⟩, Or.inl hexP⟩
  have haffOcc : cascadeAff r emp (normPath oldPrefix) occ = false := by
    have h1 : (occ.path == normPath oldPrefix) = false := by
      rw [hoccP]
      exact beq_eq_false_iff_ne.mpr hne2
    have h2 : (normPath oldPrefix ++ ['/']).isPrefixOf occ.path = false := by
      rw [hoccP]
      cases hb : (normPath oldPrefix ++ ['/']).isPrefixOf (normPath newPrefix)
      · rfl
      · exact absurd hb hnp
    simp [cascadeAff, h1, h2]
  have hmemA : ex ∈ s.db.filter (cascadeAff r emp (normPath oldPrefix)) :=
    List.mem_filter.mpr ⟨hex, haffEx⟩
  have hinjA : ∀ a ∈ s.db.filter (cascadeAff r emp (normPath oldPrefix)),
      ∀ b ∈ s.db.filter (cascadeAff r emp (normPath oldPrefix)), a.id = b.id → a = b :=
    fun a ha b hb => hinj a (List.mem_of_mem_filter ha) b (List.mem_of_mem_filter hb)
  have hfex : ((s.db.filter (cascadeAff r emp (normPath oldPrefix))).map
      (cascadeRewrite r emp (normPath oldPrefix) (normPath newPrefix))).find?
        (fun rr => rr.id == ex.id)
      = some (cascadeRewrite r emp (normPath oldPrefix) (normPath newPrefix) ex) := by
    rw [List.find?_map]
    rw [show (s.db.filter (cascadeAff r emp (normPath oldPrefix))).find?
        ((fun rr => rr.id == ex.id) ∘
          cascadeRewrite r emp (normPath oldPrefix) (normPath newPrefix))
        = some ex from find?_id_eq_self _ ex hmemA hinjA]
    rfl
  have hfocc : ((s.db.filter (cascadeAff r emp (normPath oldPrefix))).map
      (cascadeRewrite r emp (normPath oldPrefix) (normPath newPrefix))).find?
        (fun rr => rr.id == occ.id) = none := by
    rw [List.find?_map]
    rw [show (s.db.filter (cascadeAff r emp (normPath oldPrefix))).find?
        ((fun rr => rr.id == occ.id) ∘
          cascadeRewrite r emp (normPath oldPrefix) (normPath newPrefix))
        = none from ?_]
    · rfl
    · apply List.find?_eq_none.mpr
      intro x hx hpx
      have hxid : x.id = occ.id := by simpa using hpx
      have hxdb : x ∈ s.db := List.mem_of_mem_filter hx
      have hxo : x = occ := hinj x hxdb occ hocc hxid
      have haff := (List.mem_filter.mp hx).2
      rw [hxo, haffOcc] at haff
      exact absurd haff (by simp)
  have hrwid : (cascadeRewrite r emp (normPath oldPrefix) (normPath newPrefix) ex).id
      = ex.id := rfl
  have hrwpath : (cascadeRewrite r emp (normPath oldPrefix) (normPath newPrefix) ex).path
      = normPath newPrefix := by
    show (if normPath ex.path = normPath oldPrefix then normPath newPrefix
          else if (normPath oldPrefix ++ ['/']).isPrefixOf (normPath ex.path) then
            normPath newPrefix ++ '/' :: (normPath ex.path).drop ((normPath oldPrefix).length + 1)
          else ex.path) = normPath newPrefix
    rw [hexP, hfix, if_pos rfl]
  have huniq : uniqueKeysOk (s.db.map (fun x =>
      match ((s.db.filter (cascadeAff r emp (normPath oldPrefix))).map
          (cascadeRewrite r emp (normPath oldPrefix) (normPath newPrefix))).find?
          (fun rr => rr.id == x.id) with
      | some rr => rr
      | none => x)) = false := by
    apply uniqueKeysOk_eq_false_of_two _
      (cascadeRewrite r emp (normPath oldPrefix) (normPath newPrefix) ex) occ
    · apply List.mem_map.mpr
      refine ⟨ex, hex, ?_⟩
      rw [hfex]
    · apply List.mem_map.mpr
      refine ⟨occ, hocc, ?_⟩
      rw [hfocc]
    · intro heq
      apply hid
      have h2 := congrArg Entry.id heq
      rw [hrwid] at h2
      exact h2.symm
    · simp only [entryKeyEq, Bool.and_eq_true, beq_iff_eq]
      refine ⟨⟨?_, ?_⟩, ?_⟩
      · show ex.root = occ.root
        rw [hexR, hoccR]
      · show ex.employeeNumber = occ.employeeNumber
        rw [hexE, hoccE]
      · rw [hrwpath, hoccP]
  unfold cascadeUpdatePrefix
  rw [StM.run_bind]
  have hfa : findAllDb (cascadeAff r emp (normPath oldPrefix)) s
      = (Except.ok (s.db.filter (cascadeAff r emp (normPath oldPrefix))), s) := rfl
  rw [hfa]
  show (if ((s.db.filter (cascadeAff r emp (normPath oldPrefix))).map
        (cascadeRewrite r emp (normPath oldPrefix) (normPath newPrefix))).length ≠ 0 then
      (saveManyDb ((s.db.filter (cascadeAff r emp (normPath oldPrefix))).map
          (cascadeRewrite r emp (normPath oldPrefix) (normPath newPrefix))) >>= fun _ =>
        pure (s.db.filter (cascadeAff r emp (normPath oldPrefix))).length)
    else (pure PUnit.unit >>= fun _ =>
        pure (s.db.filter (cascadeAff r emp (normPath oldPrefix))).length)) s
    = (Except.error Err.uniqueViolation, s)
  have hlen : ((s.db.filter (cascadeAff r emp (normPath oldPrefix))).map
      (cascadeRewrite r emp (normPath oldPrefix) (normPath newPrefix))).length ≠ 0 := by
    simp only [List.length_map]
    intro h0
    rw [List.length_eq_zero] at h0
    rw [h0] at hmemA
    exact absurd hmemA (List.not_mem_nil ex)
  rw [if_pos hlen, StM.run_bind]
  have hsm : saveManyDb ((s.db.filter (cascadeAff r emp (normPath oldPrefix))).map
      (cascadeRewrite r emp (normPath oldPrefix) (normPath newPrefix))) s
      = (Except.error Err.uniqueViolation, s) := by
    show (if uniqueKeysOk (s.db.map (fun x =>
        match ((s.db.filter (cascadeAff r emp (normPath oldPrefix))).map
            (cascadeRewrite r emp (normPath oldPrefix) (normPath newPrefix))).find?
            (fun rr => rr.id == x.id) with
        | some rr => rr
        | none => x)) = true then
      (Except.ok (), { s with db := s.db.map (fun x =>
        match ((s.db.filter (cascadeAff r emp (normPath oldPrefix))).map
            (cascadeRewrite r emp (normPath oldPrefix) (normPath newPrefix))).find?
            (fun rr => rr.id == x.id) with
        | some rr => rr
        | none => x) })
    else ((Except.error Err.uniqueViolation, s) : Except Err Unit × Sys))
      = (Except.error Err.uniqueViolation, s)
    rw [if_neg (by rw [huniq]; simp)]
  rw [hsm]

/-- The final destination a move computes (always nested under the target). -/
def mvDest (source target : Str) : Str :=
  if normPath target = [] then nameOf (normPath source)
  else joinPath (normPath target) (nameOf (normPath source))

set_option maxHeartbeats 1600000 in
/-- C2: the destination-collision policy, amended.  Neither `moveFile` nor
`moveFolder` pre-checks the destination: when the computed destination key
is already occupied by another entry of the same root and tenant, the
physical copy+delete runs FIRST and the operation then fails with the
unique-index violation raised by the metadata save — the final state keeps
the metadata rows untouched but carries the already-mutated blob store. -/
theorem C2B_collision_after_physical_mutation :
    (∀ (root source target : Str) (emp : Option Str) (sys : Sys) (ex occ : Entry),
       normPath source ≠ [] →
       sys.db.find? (keyPred (normRoot root) emp (normPath source)) = some ex →
       ex.type = EType.file →
       occ ∈ sys.db →
       occ.root = normRoot root → occ.employeeNumber = emp →
       occ.path = normPath (mvDest source target) →
       occ.id ≠ ex.id →
       (∀ q ∈ segPrefixes (normPath target),
         hasFolder sys.db (normRoot root) emp q = true) →
       moveFileOp false root source target emp sys
         = (Except.error Err.uniqueViolation,
            { sys with s3 := ((stMoveFile false (s3BaseFolder (normRoot root) emp)
                (normPath source) (mvDest source target) sys).2).s3 })) ∧
    (∀ (root source target : Str) (emp : Option Str) (sys : Sys) (ex occ : Entry),
       normPath source ≠ [] →
       (∀ a ∈ sys.db, ∀ b ∈ sys.db, a.id = b.id → a = b) →
       sys.db.find? (keyPred (normRoot root) emp (normPath source)) = some ex →
       ex.type = EType.folder →
       normPath (normPath source) = normPath source →
       occ ∈ sys.db →
       occ.root = normRoot root → occ.employeeNumber = emp →
       occ.path = normPath (mvDest source target) →
       occ.id ≠ ex.id →
       normPath (mvDest source target) ≠ normPath source →
       ¬ ((normPath source ++ ['/']).isPrefixOf (normPath (mvDest source target)) = true) →
       (∀ q ∈ segPrefixes (parentOf (mvDest source target)),
         hasFolder sys.db (normRoot root) emp q = true) →
       moveFolderOp false 0 root source target emp sys
         = (Except.error Err.uniqueViolation,
            { sys with s3 := ((stMovePrefix false 0 (s3BaseFolder (normRoot root) emp)
                (normPath source) (mvDest source target) sys).2).s3 })) := by
  constructor
  · intro root source target emp sys ex occ hsrc hfind hty hocc hoccR hoccE hoccP hid hchain
    unfold moveFileOp
    rw [if_neg hsrc, StM.run_bind]
    have hf1 : findOneDb (keyPred (normRoot root) emp (normPath source)) sys
        = (Except.ok (some ex), sys) := by
      show (Except.ok (sys.db.find? (keyPred (normRoot root) emp (normPath source))), sys) = _
      rw [hfind]
    rw [hf1]
    show (if (!(ex.type == EType.file)) = true then
        (StM.fail (Err.validation (str "sourcePath is not a file")) : StM Sys MoveResp)
      else
        (ensureFolderChain (normRoot root) (normPath target) emp >>= fun _ =>
         stMoveFile false (s3BaseFolder (normRoot root) emp) (normPath source)
           (mvDest source target) >>= fun _ =>
         updateOnePath (normRoot root) emp (normPath source) (mvDest source target) >>= fun _ =>
         pure ({ oldPath := normPath source, newPath := mvDest source target,
                 updated := 0 } : MoveResp))) sys
      = (Except.error Err.uniqueViolation,
         { sys with s3 := ((stMoveFile false (s3BaseFolder (normRoot root) emp)
             (normPath source) (mvDest source target) sys).2).s3 })
    have hcond : ¬ ((!(ex.type == EType.file)) = true) := by
      rw [hty]
      simp
    rw [if_neg hcond, StM.run_bind,
      ensureFolderChain_noop (normRoot root) (normPath target) emp sys hchain]
    show (stMoveFile false (s3BaseFolder (normRoot root) emp) (normPath source)
        (mvDest source target) >>= fun _ =>
      updateOnePath (normRoot root) emp (normPath source) (mvDest source target) >>= fun _ =>
      pure ({ oldPath := normPath source, newPath := mvDest source target,
              updated := 0 } : MoveResp)) sys
      = (Except.error Err.uniqueViolation,
         { sys with s3 := ((stMoveFile false (s3BaseFolder (normRoot root) emp)
             (normPath source) (mvDest source target) sys).2).s3 })
    obtain ⟨v, s3mv, hmv⟩ := stMoveFile_s3Only (s3BaseFolder (normRoot root) emp)
      (normPath source) (mvDest source target) sys
    rw [StM.run_bind, hmv]
    show (updateOnePath (normRoot root) emp (normPath source) (mvDest source target) >>=
        fun _ =>
      pure ({ oldPath := normPath source, newPath := mvDest source target,
              updated := 0 } : MoveResp))
      { sys with s3 := s3mv }
      = (Except.error Err.uniqueViolation, { sys with s3 := s3mv })
    rw [StM.run_bind,
      updateOnePath_unique_fail (normRoot root) emp (normPath source) (mvDest source target)
        { sys with s3 := s3mv } ex occ hfind hocc hoccR hoccE hoccP hid]
  · intro root source target emp sys ex occ hsrc hinj hfind hty hfix2 hocc hoccR hoccE
      hoccP hid hne2 hnp hchain
    have hexKey : keyPred (normRoot root) emp (normPath source) ex = true :=
      List.find?_some hfind
    have hexR : ex.root = normRoot root := by
      simp only [keyPred, Bool.and_eq_true, beq_iff_eq] at hexKey
      exact hexKey.1.1
    have hexE : ex.employeeNumber = emp := by
      simp only [keyPred, Bool.and_eq_true, beq_iff_eq] at hexKey
      exact hexKey.1.2
    have hexP0 : ex.path = normPath source := by
      simp only [keyPred, Bool.and_eq_true, beq_iff_eq] at hexKey
      exact hexKey.2
    obtain ⟨v, s3mv, hmv⟩ := stMovePrefix_s3Only 0 (s3BaseFolder (normRoot root) emp)
      (normPath source) (mvDest source target) sys
    have hcas := cascadeUpdatePrefix_unique_fail (normRoot root) emp (normPath source)
        (mvDest source target) { sys with s3 := s3mv } ex occ hinj
        (List.mem_of_find?_eq_some hfind) hexR hexE
        (by rw [hfix2]; exact hexP0)
        (by rw [hfix2]; exact hfix2)
        hocc hoccR hoccE hoccP hid
        (by rw [hfix2]; exact hne2)
        (by rw [hfix2]; exact hnp)
    suffices hsuff : ∀ res sys2,
        moveFolderOp false 0 root source target emp sys = (res, sys2) →
        (res, sys2) = (Except.error Err.uniqueViolation,
          { sys with s3 := ((stMovePrefix false 0 (s3BaseFolder (normRoot root) emp)
              (normPath source) (mvDest source target) sys).2).s3 }) by
      have h2 := hsuff (moveFolderOp false 0 root source target emp sys).1
        (moveFolderOp false 0 root source target emp sys).2 rfl
      rw [← h2]
    intro res sys2 h
    unfold moveFolderOp at h
    rw [if_neg hsrc, StM.run_bind] at h
    split at h
    · rename_i a s' heq
      have hfa : a = some ex := by
        have h1 := congrArg Prod.fst heq
        simp only [findOneDb] at h1
        injection h1 with h1
        rw [← h1, hfind]
      have hfs : sys = s' := by
        have h2 := congrArg Prod.snd heq
        simp only [findOneDb] at h2
        exact h2
      subst hfs
      split at h
      · exact absurd hfa (by simp)
      · rename_i ex2
        injection hfa with hfa
        subst hfa
        split at h
        · rename_i hty2
          rw [hty] at hty2
          simp at hty2
        · rw [StM.run_bind] at h
          split at h
          · rename_i u s₁ hens
            have hcomb : ((Except.ok (), sys) : Except Err Unit × Sys) = (Except.ok u, s₁) :=
              Eq.trans (ensureFolderChain_noop (normRoot root)
                (parentOf (mvDest source target)) emp sys hchain).symm hens
            have hs₁ : sys = s₁ := by
              have := congrArg Prod.snd hcomb
              simpa using this
            subst hs₁
            rw [StM.run_bind] at h
            split at h
            · rename_i v₂ s₂ hmv2
              have hcomb2 : ((Except.ok v, { sys with s3 := s3mv }) :
                  Except Err Nat × Sys) = (Except.ok v₂, s₂) := Eq.trans hmv.symm hmv2
              have hs₂ : ({ sys with s3 := s3mv } : Sys) = s₂ := by
                have := congrArg Prod.snd hcomb2
                simpa using this
              subst hs₂
              rw [StM.run_bind] at h
              split at h
              · rename_i chg s₃ hcas2
                have hcomb3 : ((Except.error Err.uniqueViolation,
                    ({ sys with s3 := s3mv } : Sys)) : Except Err Nat × Sys)
                    = (Except.ok chg, s₃) := Eq.trans hcas.symm hcas2
                have := congrArg Prod.fst hcomb3
                simp at this
              · rename_i e₂ s₃ hcas2
                have hcomb3 : ((Except.error Err.uniqueViolation,
                    ({ sys with s3 := s3mv } : Sys)) : Except Err Nat × Sys)
                    = (Except.error e₂, s₃) := Eq.trans hcas.symm hcas2
                have he₂ : Err.uniqueViolation = e₂ := by
                  have := congrArg Prod.fst hcomb3
                  simp only at this
                  injection this
                have hs₃ : ({ sys with s3 := s3mv } : Sys) = s₃ := by
                  have := congrArg Prod.snd hcomb3
                  simpa using this
                rw [← h, ← he₂, ← hs₃, hmv]
            · rename_i e₂ s₂ hmv2
              have hcomb2 : ((Except.ok v, { sys with s3 := s3mv }) :
                  Except Err Nat × Sys) = (Except.error e₂, s₂) := Eq.trans hmv.symm hmv2
              have := congrArg Prod.fst hcomb2
              simp at this
          · rename_i e s₁ hens
            have hcomb : ((Except.ok (), sys) : Except Err Unit × Sys) = (Except.error e, s₁) :=
              Eq.trans (ensureFolderChain_noop (normRoot root)
                (parentOf (mvDest source target)) emp sys hchain).symm hens
            have := congrArg Prod.fst hcomb
            simp at this
    · rename_i e s' heq
      have h1 := congrArg Prod.fst heq
      simp only [findOneDb] at h1
      exact absurd h1 (by simp)

def c2wE1 : Entry :=
  { id := 1, root := str "drive", path := str "a.txt", name := str "a.txt",
    type := EType.file, parentPath := [], s3Key := str "drive/E1/a.txt",
    size := some 1, mimeType := none, employeeNumber := tE1 }

def c2wE2 : Entry :=
  { id := 2, root := str "drive", path := str "dst", name := str "dst",
    type := EType.folder, parentPath := [], s3Key := str "drive/E1/dst/",
    size := none, mimeType := none, employeeNumber := tE1 }

def c2wE3 : Entry :=
  { id := 3, root := str "drive", path := str "dst/a.txt", name := str "a.txt",
    type := EType.file, parentPath := str "dst", s3Key := str "drive/E1/dst/a.txt",
    size := some 2, mimeType := none, employeeNumber := tE1 }

def c2wSys : Sys := { db := [c2wE1, c2wE2, c2wE3], s3 := [str "drive/E1/a.txt"], nextId := 4 }

def c2wF1 : Entry :=
  { id := 1, root := str "drive", path := str "A", name := str "A",
    type := EType.folder, parentPath := [], s3Key := str "drive/E1/A/",
    size := none, mimeType := none, employeeNumber := tE1 }

def c2wF2 : Entry :=
  { id := 2, root := str "drive", path := str "B", name := str "B",
    type := EType.folder, parentPath := [], s3Key := str "drive/E1/B/",
    size := none, mimeType := none, employeeNumber := tE1 }

def c2wF3 : Entry :=
  { id := 3, root := str "drive", path := str "B/A", name := str "A",
    type := EType.folder, parentPath := str "B", s3Key := str "drive/E1/B/A/",
    size := none, mimeType := none, employeeNumber := tE1 }

def c2wSys2 : Sys := { db := [c2wF1, c2wF2, c2wF3], s3 := [], nextId := 4 }

/-- C2 (witness): both branches instantiated on concrete occupied-destination
moves (`a.txt → dst` with `dst/a.txt` occupied; folder `A → B` with `B/A`
occupied). -/
theorem C2B_collision_after_physical_mutation_witness :
    moveFileOp false (str "drive") (str "a.txt") (str "dst") tE1 c2wSys
      = (Except.error Err.uniqueViolation,
         { c2wSys with s3 := ((stMoveFile false
             (s3BaseFolder (normRoot (str "drive")) tE1)
             (normPath (str "a.txt")) (mvDest (str "a.txt") (str "dst")) c2wSys).2).s3 }) ∧
    moveFolderOp false 0 (str "drive") (str "A") (str "B") tE1 c2wSys2
      = (Except.error Err.uniqueViolation,
         { c2wSys2 with s3 := ((stMovePrefix false 0
             (s3BaseFolder (normRoot (str "drive")) tE1)
             (normPath (str "A")) (mvDest (str "A") (str "B")) c2wSys2).2).s3 }) :=
  ⟨C2B_collision_after_physical_mutation.1 (str "drive") (str "a.txt") (str "dst") tE1
      c2wSys c2wE1 c2wE3 (by decide) (by decide) (by decide) (by decide) (by decide)
      (by decide) (by decide) (by decide) (by decide),
   C2B_collision_after_physical_mutation.2 (str "drive") (str "A") (str "B") tE1
      c2wSys2 c2wF1 c2wF3 (by decide) (by decide) (by decide) (by decide) (by decide)
      (by decide) (by decide) (by decide) (by decide) (by decide) (by decide) (by decide)
      (by decide)⟩

/-! ### C4: cascade completeness -/

theorem rows_find?_of_aff (s : Sys) (r : Str) (emp : Option Str) (oldP newP : Str)
    (hinj : ∀ a ∈ s.db, ∀ b ∈ s.db, a.id = b.id → a = b) (x : Entry) (hx : x ∈ s.db)
    (haff : cascadeAff r emp oldP x = true) :
    ((s.db.filter (cascadeAff r emp oldP)).map (cascadeRewrite r emp oldP newP)).find?
      (fun rr => rr.id == x.id) = some (cascadeRewrite r emp oldP newP x) := by
  have hmemA : x ∈ s.db.filter (cascadeAff r emp oldP) := List.mem_filter.mpr ⟨hx, haff⟩
  have hinjA : ∀ a ∈ s.db.filter (cascadeAff r emp oldP),
      ∀ b ∈ s.db.filter (cascadeAff r emp oldP), a.id = b.id → a = b :=
    fun a ha b hb => hinj a (List.mem_of_mem_filter ha) b (List.mem_of_mem_filter hb)
  rw [List.find?_map]
  rw [show (s.db.filter (cascadeAff r emp oldP)).find?
      ((fun rr => rr.id == x.id) ∘ cascadeRewrite r emp oldP newP)
      = some x from find?_id_eq_self _ x hmemA hinjA]
  rfl

theorem rows_find?_of_naff (s : Sys) (r : Str) (emp : Option Str) (oldP newP : Str)
    (hinj : ∀ a ∈ s.db, ∀ b ∈ s.db, a.id = b.id → a = b) (x : Entry) (hx : x ∈ s.db)
    (haff : cascadeAff r emp oldP x = false) :
    ((s.db.filter (cascadeAff r emp oldP)).map (cascadeRewrite r emp oldP newP)).find?
      (fun rr => rr.id == x.id) = none := by
  rw [List.find?_map]
  rw [show (s.db.filter (cascadeAff r emp oldP)).find?
      ((fun rr => rr.id == x.id) ∘ cascadeRewrite r emp oldP newP)
      = none from ?_]
  · rfl
  · apply List.find?_eq_none.mpr
    intro y hy hpy
    have hyid : y.id = x.id := by simpa using hpy
    have hydb : y ∈ s.db := List.mem_of_mem_filter hy
    have hyx : y = x := hinj y hydb x hx hyid
    have haffy := (List.mem_filter.mp hy).2
    rw [hyx, haff] at haffy
    exact absurd haffy (by simp)

theorem saveManyDb_ok_inv (rows : List Entry) (s : Sys) (u : Unit) (s₁ : Sys)
    (h : saveManyDb rows s = (Except.ok u, s₁)) :
    s₁ = { s with db := s.db.map (fun x =>
      match rows.find? (fun rr => rr.id == x.id) with
      | some rr => rr
      | none => x) } := by
  by_cases huq : uniqueKeysOk (s.db.map (fun x =>
      match rows.find? (fun rr => rr.id == x.id) with
      | some rr => rr
      | none => x)) = true
  · have hrun : saveManyDb rows s = (Except.ok (), { s with db := s.db.map (fun x =>
        match rows.find? (fun rr => rr.id == x.id) with
        | some rr => rr
        | none => x) }) := by
      show (if uniqueKeysOk (s.db.map (fun x =>
          match rows.find? (fun rr => rr.id == x.id) with
          | some rr => rr
          | none => x)) = true then
        ((Except.ok (), { s with db := s.db.map (fun x =>
          match rows.find? (fun rr => rr.id == x.id) with
          | some rr => rr
          | none => x) }) : Except Err Unit × Sys)
      else (Except.error Err.uniqueViolation, s)) = _
      rw [if_pos huq]
    rw [hrun] at h
    have := congrArg Prod.snd h
    simpa using this.symm
  · have hrun : saveManyDb rows s = (Except.error Err.uniqueViolation, s) := by
      show (if uniqueKeysOk (s.db.map (fun x =>
          match rows.find? (fun rr => rr.id == x.id) with
          | some rr => rr
          | none => x)) = true then
        ((Except.ok (), { s with db := s.db.map (fun x =>
          match rows.find? (fun rr => rr.id == x.id) with
          | some rr => rr
          | none => x) }) : Except Err Unit × Sys)
      else (Except.error Err.uniqueViolation, s)) = _
      rw [if_neg huq]
    rw [hrun] at h
    have := congrArg Prod.fst h
    simp at this

set_option maxHeartbeats 2000000 in
theorem cascadeRewrite_fields (r : Str) (emp : Option Str) (oldP newP : Str) (x : Entry) :
    (cascadeRewrite r emp oldP newP x).id = x.id ∧
    (cascadeRewrite r emp oldP newP x).root = x.root ∧
    (cascadeRewrite r emp oldP newP x).employeeNumber = x.employeeNumber ∧
    (cascadeRewrite r emp oldP newP x).type = x.type ∧
    (cascadeRewrite r emp oldP newP x).parentPath
      = parentOf (cascadeRewrite r emp oldP newP x).path ∧
    (cascadeRewrite r emp oldP newP x).name
      = nameOf (cascadeRewrite r emp oldP newP x).path ∧
    (cascadeRewrite r emp oldP newP x).s3Key
      = buildTenantS3Key r emp (cascadeRewrite r emp oldP newP x).path
          (x.type == EType.folder) := by
  unfold cascadeRewrite
  exact ⟨rfl, rfl, rfl, rfl, rfl, rfl, rfl⟩

/-- C4: cascade completeness, amended.  For a successful
`cascadeUpdatePrefix` (the cascade both folder `rename` and `moveFolder`
run) over a store with unique ids and normalized paths, and prefix-disjoint
old/new prefixes: (1) no same-tenant entry remains at the old prefix or
under it, (2) every affected entry reappears (same id, root, tenant, type)
at the substituted path with `parentPath`, `name` and the storage key
recomputed from it, (3) unaffected entries survive unchanged, and (4) the
row count is preserved and the reported count is the number of affected
entries.  Without the disjointness proviso the original claim fails: a
degenerate rename onto the same prefix succeeds and leaves the old-prefix
entries in place. -/
theorem C4_cascade_completeness (r : Str) (emp : Option Str) (oldPrefix newPrefix : Str)
    (s : Sys) (n : Nat) (s' : Sys)
    (hinj : ∀ a ∈ s.db, ∀ b ∈ s.db, a.id = b.id → a = b)
    (hcanon : ∀ x ∈ s.db, normPath x.path = x.path)
    (hfresh : ¬ ((normPath oldPrefix ++ ['/']).isPrefixOf
      (normPath newPrefix ++ ['/']) = true))
    (hfresh2 : ¬ ((normPath newPrefix ++ ['/']).isPrefixOf
      (normPath oldPrefix ++ ['/']) = true))
    (hok : cascadeUpdatePrefix r emp oldPrefix newPrefix s = (Except.ok n, s')) :
    (∀ e ∈ s'.db, e.root = r → e.employeeNumber = emp →
       e.path ≠ normPath oldPrefix ∧
       ¬ ((normPath oldPrefix ++ ['/']).isPrefixOf e.path = true)) ∧
    (∀ x ∈ s.db, cascadeAff r emp (normPath oldPrefix) x = true →
       ∃ e ∈ s'.db, e.id = x.id ∧ e.root = x.root ∧ e.employeeNumber = x.employeeNumber ∧
         e.type = x.type ∧
         e.path = (if x.path = normPath oldPrefix then normPath newPrefix
                   else normPath newPrefix ++ '/' ::
                     x.path.drop ((normPath oldPrefix).length + 1)) ∧
         e.parentPath = parentOf e.path ∧ e.name = nameOf e.path ∧
         e.s3Key = buildTenantS3Key r emp e.path (x.type == EType.folder)) ∧
    (∀ x ∈ s.db, cascadeAff r emp (normPath oldPrefix) x = false → x ∈ s'.db) ∧
    s'.db.length = s.db.length ∧
    n = (s.db.filter (cascadeAff r emp (normPath oldPrefix))).length := by
  -- region-freeness of a rewritten path
  have hregion : ∀ p2 : Str,
      (p2 = normPath newPrefix ∨
       ∃ suf, p2 = normPath newPrefix ++ '/' :: suf) →
      p2 ≠ normPath oldPrefix ∧
      ¬ ((normPath oldPrefix ++ ['/']).isPrefixOf p2 = true) := by
    intro p2 hp2
    have hNN : (normPath newPrefix ++ ['/'] : Str) <+: normPath newPrefix ++ ['/'] :=
      List.prefix_refl _
    rcases hp2 with hp2 | ⟨suf, hp2⟩
    · constructor
      · intro heq
        apply hfresh
        rw [hp2] at heq
        rw [heq]
        exact List.isPrefixOf_iff_prefix.mpr (List.prefix_refl _)
      · intro hpre
        apply hfresh
        have h1 : (normPath oldPrefix ++ ['/'] : Str) <+: normPath newPrefix := by
          rw [← hp2]
          exact List.isPrefixOf_iff_prefix.mp hpre
        exact List.isPrefixOf_iff_prefix.mpr
          (h1.trans (List.prefix_append _ _))
    · have hshape : p2 = (normPath newPrefix ++ ['/']) ++ suf := by
        rw [hp2]
        simp
      constructor
      · intro heq
        apply hfresh2
        have h1 : (normPath newPrefix ++ ['/'] : Str) <+: normPath oldPrefix := by
          rw [← heq, hshape]
          exact List.prefix_append _ _
        exact List.isPrefixOf_iff_prefix.mpr (h1.trans (List.prefix_append _ _))
      · intro hpre
        have h1 : (normPath oldPrefix ++ ['/'] : Str) <+: (normPath newPrefix ++ ['/']) ++ suf := by
          rw [← hshape]
          exact List.isPrefixOf_iff_prefix.mp hpre
        have h2 : (normPath newPrefix ++ ['/'] : Str) <+: (normPath newPrefix ++ ['/']) ++ suf :=
          List.prefix_append _ _
        rcases List.prefix_or_prefix_of_prefix h1 h2 with h3 | h3
        · exact hfresh (List.isPrefixOf_iff_prefix.mpr h3)
        · exact hfresh2 (List.isPrefixOf_iff_prefix.mpr h3)
  -- the rewritten path of an affected row
  have hrwpath : ∀ x ∈ s.db, cascadeAff r emp (normPath oldPrefix) x = true →
      (cascadeRewrite r emp (normPath oldPrefix) (normPath newPrefix) x).path
        = (if x.path = normPath oldPrefix then normPath newPrefix
           else normPath newPrefix ++ '/' ::
             x.path.drop ((normPath oldPrefix).length + 1)) := by
    intro x hx haff
    show (if normPath x.path = normPath oldPrefix then normPath newPrefix
          else if (normPath oldPrefix ++ ['/']).isPrefixOf (normPath x.path) then
            normPath newPrefix ++ '/' ::
              (normPath x.path).drop ((normPath oldPrefix).length + 1)
          else x.path) = _
    rw [hcanon x hx]
    by_cases hxo : x.path = normPath oldPrefix
    · rw [if_pos hxo, if_pos hxo]
    · rw [if_neg hxo, if_neg hxo]
      have hpre : (normPath oldPrefix ++ ['/']).isPrefixOf x.path = true := by
        simp only [cascadeAff, Bool.and_eq_true, Bool.or_eq_true, beq_iff_eq] at haff
        rcases haff.2 with h | h
        · exact absurd h hxo
        · exact h
      rw [if_pos hpre]
  -- invert the run
  have hinv : s'.db = s.db.map (fun x =>
      match ((s.db.filter (cascadeAff r emp (normPath oldPrefix))).map
          (cascadeRewrite r emp (normPath oldPrefix) (normPath newPrefix))).find?
          (fun rr => rr.id == x.id) with
      | some rr => rr
      | none => x) ∧
      n = (s.db.filter (cascadeAff r emp (normPath oldPrefix))).length := by
    unfold cascadeUpdatePrefix at hok
    rw [StM.run_bind] at hok
    rw [show findAllDb (cascadeAff r emp (normPath oldPrefix)) s
        = (Except.ok (s.db.filter (cascadeAff r emp (normPath oldPrefix))), s) from rfl] at hok
    split at hok
    · rename_i a s'' heq
      have ha : a = s.db.filter (cascadeAff r emp (normPath oldPrefix)) := by
        have h1 := congrArg Prod.fst heq
        simp only at h1
        injection h1 with h1
        exact h1.symm
      have hs'' : s = s'' := by
        have h2 := congrArg Prod.snd heq
        simpa using h2
      subst ha
      subst hs''
      by_cases hlen : ((s.db.filter (cascadeAff r emp (normPath oldPrefix))).map
          (cascadeRewrite r emp (normPath oldPrefix) (normPath newPrefix))).length ≠ 0
      · rw [if_pos hlen, StM.run_bind] at hok
        split at hok
        · rename_i u s₁ hsv
          have hs₁ := saveManyDb_ok_inv _ s u s₁ hsv
          replace hok : ((Except.ok
              ((s.db.filter (cascadeAff r emp (normPath oldPrefix))).length), s₁) :
              Except Err Nat × Sys) = (Except.ok n, s') := hok
          have h1 := congrArg Prod.fst hok
          have h2 := congrArg Prod.snd hok
          simp only at h1 h2
          injection h1 with h1
          constructor
          · rw [← h2, hs₁]
          · exact h1.symm
        · rename_i e s₁ hsv
          have hcontra := congrArg Prod.fst hok
          simp at hcontra
      · rw [if_neg hlen] at hok
        replace hok : ((Except.ok ((s.db.filter
            (cascadeAff r emp (normPath oldPrefix))).length), s) :
            Except Err Nat × Sys) = (Except.ok n, s') := hok
        have h1 := congrArg Prod.fst hok
        have h2 := congrArg Prod.snd hok
        simp only at h1 h2
        injection h1 with h1
        have hempty : (s.db.filter (cascadeAff r emp (normPath oldPrefix))).map
            (cascadeRewrite r emp (normPath oldPrefix) (normPath newPrefix)) = [] := by
          have : ((s.db.filter (cascadeAff r emp (normPath oldPrefix))).map
              (cascadeRewrite r emp (normPath oldPrefix) (normPath newPrefix))).length = 0 := by
            omega
          exact List.length_eq_zero.mp this
        constructor
        · rw [← h2]
          symm
          calc s.db.map (fun x =>
              match ((s.db.filter (cascadeAff r emp (normPath oldPrefix))).map
                  (cascadeRewrite r emp (normPath oldPrefix) (normPath newPrefix))).find?
                  (fun rr => rr.id == x.id) with
              | some rr => rr
              | none => x)
              = s.db.map (fun x => x) := by
                apply List.map_congr_left
                intro a _
                rw [hempty]
                rfl
            _ = s.db := List.map_id' s.db
        · exact h1.symm
    · rename_i e s'' heq
      have h1 := congrArg Prod.fst heq
      simp only at h1
      exact absurd h1 (by simp)
  obtain ⟨hdb, hn⟩ := hinv
  refine ⟨?_, ?_, ?_, ?_, hn⟩
  · intro e he hroot hemp
    rw [hdb] at he
    obtain ⟨x, hx, hfx⟩ := List.mem_map.mp he
    by_cases haff : cascadeAff r emp (normPath oldPrefix) x = true
    · rw [rows_find?_of_aff s r emp (normPath oldPrefix) (normPath newPrefix)
        hinj x hx haff] at hfx
      replace hfx : cascadeRewrite r emp (normPath oldPrefix) (normPath newPrefix) x = e := hfx
      have hpath : e.path = (if x.path = normPath oldPrefix then normPath newPrefix
          else normPath newPrefix ++ '/' ::
            x.path.drop ((normPath oldPrefix).length + 1)) := by
        rw [← hfx]
        exact hrwpath x hx haff
      apply hregion
      by_cases hxo : x.path = normPath oldPrefix
      · left
        rw [hpath, if_pos hxo]
      · right
        refine ⟨x.path.drop ((normPath oldPrefix).length + 1), ?_⟩
        rw [hpath, if_neg hxo]
    · have haff2 : cascadeAff r emp (normPath oldPrefix) x = false := by simpa using haff
      rw [rows_find?_of_naff s r emp (normPath oldPrefix) (normPath newPrefix)
        hinj x hx haff2] at hfx
      replace hfx : x = e := hfx
      subst hfx
      simp only [cascadeAff, hroot, hemp] at haff2
      have hor : ((x.path == normPath oldPrefix) ||
          (normPath oldPrefix ++ ['/']).isPrefixOf x.path) = false := by
        rcases Bool.and_eq_false_iff.mp haff2 with h | h
        · exfalso
          rcases Bool.and_eq_false_iff.mp h with h2 | h2 <;> simp at h2
        · exact h
      rcases Bool.or_eq_false_iff.mp hor with ⟨h1, h2⟩
      constructor
      · intro heq
        rw [heq] at h1
        simp at h1
      · intro hpre
        rw [hpre] at h2
        exact absurd h2 (by simp)
  · intro x hx haff
    obtain ⟨f1, f2, f3, f4, f5, f6, f7⟩ :=
      cascadeRewrite_fields r emp (normPath oldPrefix) (normPath newPrefix) x
    refine ⟨cascadeRewrite r emp (normPath oldPrefix) (normPath newPrefix) x, ?_,
      f1, f2, f3, f4, hrwpath x hx haff, f5, f6, f7⟩
    rw [hdb]
    apply List.mem_map.mpr
    refine ⟨x, hx, ?_⟩
    rw [rows_find?_of_aff s r emp (normPath oldPrefix) (normPath newPrefix) hinj x hx haff]
  · intro x hx haff
    rw [hdb]
    apply List.mem_map.mpr
    refine ⟨x, hx, ?_⟩
    rw [rows_find?_of_naff s r emp (normPath oldPrefix) (normPath newPrefix) hinj x hx haff]
  · rw [hdb]
    exact List.length_map _ _

def c4wSys : Sys :=
  { db := [{ id := 1, root := str "d", path := str "A", name := str "A",
             type := EType.folder, parentPath := [], s3Key := str "d/A/",
             size := none, mimeType := none, employeeNumber := none },
           { id := 2, root := str "d", path := str "A/B", name := str "B",
             type := EType.folder, parentPath := str "A", s3Key := str "d/A/B/",
             size := none, mimeType := none, employeeNumber := none },
           { id := 3, root := str "d", path := str "A/B/c.txt", name := str "c.txt",
             type := EType.file, parentPath := str "A/B", s3Key := str "d/A/B/c.txt",
             size := some 1, mimeType := none, employeeNumber := none }],
    s3 := [], nextId := 4 }

/-- C4 (witness): the amended cascade-completeness instantiated on a
concrete successful cascade `A/B → A/C` over a three-row store. -/
theorem C4_cascade_completeness_witness :
    (∀ e ∈ (cascadeUpdatePrefix (str "d") none (str "A/B") (str "A/C") c4wSys).2.db,
       e.root = str "d" → e.employeeNumber = none →
       e.path ≠ normPath (str "A/B") ∧
       ¬ ((normPath (str "A/B") ++ ['/']).isPrefixOf e.path = true)) ∧
    (∀ x ∈ c4wSys.db, cascadeAff (str "d") none (normPath (str "A/B")) x = true →
       ∃ e ∈ (cascadeUpdatePrefix (str "d") none (str "A/B") (str "A/C") c4wSys).2.db,
         e.id = x.id ∧ e.root = x.root ∧ e.employeeNumber = x.employeeNumber ∧
         e.type = x.type ∧
         e.path = (if x.path = normPath (str "A/B") then normPath (str "A/C")
                   else normPath (str "A/C") ++ '/' ::
                     x.path.drop ((normPath (str "A/B")).length + 1)) ∧
         e.parentPath = parentOf e.path ∧ e.name = nameOf e.path ∧
         e.s3Key = buildTenantS3Key (str "d") none e.path (x.type == EType.folder)) ∧
    (∀ x ∈ c4wSys.db, cascadeAff (str "d") none (normPath (str "A/B")) x = false →
       x ∈ (cascadeUpdatePrefix (str "d") none (str "A/B") (str "A/C") c4wSys).2.db) ∧
    (cascadeUpdatePrefix (str "d") none (str "A/B") (str "A/C") c4wSys).2.db.length
      = c4wSys.db.length ∧
    2 = (c4wSys.db.filter (cascadeAff (str "d") none (normPath (str "A/B")))).length :=
  C4_cascade_completeness (str "d") none (str "A/B") (str "A/C") c4wSys 2
    (cascadeUpdatePrefix (str "d") none (str "A/B") (str "A/C") c4wSys).2
    (by decide) (by decide) (by decide) (by decide) (by decide)

/-! ### C1: batch partial tolerance -/

/-- The pure value of the storage upload loop (results and error names). -/
def upResultsVal (fails : List Bool) (folder : Str) (paths : Option (List Str)) :
    List MFile → Nat → List UpResult × List Str
  | [], _ => ([], [])
  | f :: t, i =>
      let key := storageBuildKey folder (relAt paths f i)
      let rest := upResultsVal fails folder paths t (i + 1)
      if fails.getD i false then (rest.1, f.originalname :: rest.2)
      else ({ filename := f.originalname, key := key } :: rest.1, rest.2)

/-- The original names of the files whose physical write fails. -/
def failedNames (fails : List Bool) : List MFile → Nat → List Str
  | [], _ => []
  | f :: t, i =>
      if fails.getD i false then f.originalname :: failedNames fails t (i + 1)
      else failedNames fails t (i + 1)

/-- The desired paths whose physical write succeeds. -/
def okDesired (fails : List Bool) : List Str → Nat → List Str
  | [], _ => []
  | d :: t, i =>
      if fails.getD i false then okDesired fails t (i + 1)
      else d :: okDesired fails t (i + 1)

theorem stUploadLoop_val (fails : List Bool) (folder : Str) (paths : Option (List Str)) :
    ∀ (fs : List MFile) (i : Nat) (s : Sys), ∃ s3',
      stUploadLoop fails folder paths fs i s
        = (Except.ok (upResultsVal fails folder paths fs i), { s with s3 := s3' }) := by
  intro fs
  induction fs with
  | nil =>
      intro i s
      exact ⟨s.s3, rfl⟩
  | cons f t ih =>
      intro i s
      simp only [stUploadLoop, upResultsVal]
      by_cases hf : fails.getD i false = true
      · simp only [hf, if_true, StM.run_bind]
        obtain ⟨s3', hrec⟩ := ih (i + 1) s
        rw [hrec]
        exact ⟨s3', rfl⟩
      · have hf2 : fails.getD i false = false := by simpa using hf
        simp only [hf2, Bool.false_eq_true, if_false, StM.run_bind, s3Put]
        obtain ⟨s3', hrec⟩ := ih (i + 1)
          { s with s3 := if s.s3.contains (storageBuildKey folder (relAt paths f i)) then s.s3
                         else s.s3 ++ [storageBuildKey folder (relAt paths f i)] }
        rw [hrec]
        exact ⟨s3', rfl⟩

theorem stUploadMultipleFiles_val (fails : List Bool) (files : List MFile) (folder : Str)
    (paths : Option (List Str)) (s : Sys) : ∃ s3',
      stUploadMultipleFiles fails files folder paths s
        = (Except.ok { success := (upResultsVal fails folder paths files 0).2.isEmpty,
                       results := (upResultsVal fails folder paths files 0).1,
                       errors := (upResultsVal fails folder paths files 0).2 },
           { s with s3 := s3' }) := by
  obtain ⟨s3', hrun⟩ := stUploadLoop_val fails folder paths files 0 s
  refine ⟨s3', ?_⟩
  simp only [stUploadMultipleFiles, StM.run_bind]
  rw [hrun]
  rfl

theorem upResultsVal_errors (fails : List Bool) (folder : Str) (paths : Option (List Str)) :
    ∀ (fs : List MFile) (i : Nat),
      (upResultsVal fails folder paths fs i).2 = failedNames fails fs i := by
  intro fs
  induction fs with
  | nil => intro i; rfl
  | cons f t ih =>
      intro i
      simp only [upResultsVal, failedNames]
      by_cases hf : fails.getD i false = true
      · rw [if_pos hf, if_pos hf]
        show f.originalname :: (upResultsVal fails folder paths t (i + 1)).2 = _
        rw [ih]
      · rw [if_neg hf, if_neg hf]
        show (upResultsVal fails folder paths t (i + 1)).2 = _
        rw [ih]

theorem relAt_some (ds : List Str) (f : MFile) (i : Nat) (hi : i < ds.length)
    (hne : ds.get ⟨i, hi⟩ ≠ []) : relAt (some ds) f i = ds.get ⟨i, hi⟩ := by
  simp only [relAt]
  rw [show ds.get? i = some (ds.get ⟨i, hi⟩) from List.get?_eq_get hi]
  show (if ds.get ⟨i, hi⟩ = [] then f.originalname else ds.get ⟨i, hi⟩) = ds.get ⟨i, hi⟩
  rw [if_neg hne]

theorem upResults_okSet (fails : List Bool) (base : Str) (ds : List Str)
    (hne : ∀ d ∈ ds, d ≠ [])
    (hrt : ∀ d ∈ ds, relativeFromS3Key base (storageBuildKey base d) = d) :
    ∀ (fs : List MFile) (i : Nat), i + fs.length = ds.length →
      ((upResultsVal fails base (some ds) fs i).1.map
        (fun u => relativeFromS3Key base u.key)).filter (· ≠ [])
        = okDesired fails (ds.drop i) i := by
  intro fs
  induction fs with
  | nil =>
      intro i hlen
      have hd : ds.drop i = [] := List.drop_eq_nil_of_le (by simp at hlen; omega)
      rw [hd]
      rfl
  | cons f t ih =>
      intro i hlen
      have hi : i < ds.length := by
        simp only [List.length_cons] at hlen
        omega
      have hdrop : ds.drop i = ds.get ⟨i, hi⟩ :: ds.drop (i + 1) := List.drop_eq_get_cons hi
      rw [hdrop]
      simp only [upResultsVal, okDesired]
      by_cases hf : fails.getD i false = true
      · rw [if_pos hf, if_pos hf]
        exact ih (i + 1) (by simp only [List.length_cons] at hlen; omega)
      · rw [if_neg hf, if_neg hf]
        have hmem : ds.get ⟨i, hi⟩ ∈ ds := List.get_mem ds i hi
        have hrel : relAt (some ds) f i = ds.get ⟨i, hi⟩ :=
          relAt_some ds f i hi (hne _ hmem)
        show ((relativeFromS3Key base (storageBuildKey base (relAt (some ds) f i)) ::
            (upResultsVal fails base (some ds) t (i + 1)).1.map
              (fun u => relativeFromS3Key base u.key)).filter (· ≠ []))
          = ds.get ⟨i, hi⟩ :: okDesired fails (ds.drop (i + 1)) (i + 1)
        rw [hrel, hrt _ hmem]
        rw [List.filter_cons_of_pos (by simpa using hne _ hmem)]
        rw [ih (i + 1) (by simp only [List.length_cons] at hlen; omega)]

theorem okDesired_sound (fails : List Bool) :
    ∀ (ds0 : List Str) (i0 : Nat) (d : Str), d ∈ okDesired fails ds0 i0 →
      ∃ j, ∃ hj : j < ds0.length, ds0.get ⟨j, hj⟩ = d ∧ fails.getD (i0 + j) false = false := by
  intro ds0
  induction ds0 with
  | nil =>
      intro i0 d hd
      simp [okDesired] at hd
  | cons x t ih =>
      intro i0 d hd
      simp only [okDesired] at hd
      by_cases hf : fails.getD i0 false = true
      · rw [if_pos hf] at hd
        obtain ⟨j, hj, h1, h2⟩ := ih (i0 + 1) d hd
        refine ⟨j + 1, by simp; omega, by simpa using h1, ?_⟩
        rw [show i0 + (j + 1) = i0 + 1 + j from by omega]
        exact h2
      · rw [if_neg hf] at hd
        rcases List.mem_cons.mp hd with h1 | h1
        · refine ⟨0, by simp, h1.symm, by simpa using hf⟩
        · obtain ⟨j, hj, h2, h3⟩ := ih (i0 + 1) d h1
          refine ⟨j + 1, by simp; omega, by simpa using h2, ?_⟩
          rw [show i0 + (j + 1) = i0 + 1 + j from by omega]
          exact h3

theorem okDesired_complete (fails : List Bool) :
    ∀ (ds0 : List Str) (i0 j : Nat) (hj : j < ds0.length),
      fails.getD (i0 + j) false = false →
      ds0.get ⟨j, hj⟩ ∈ okDesired fails ds0 i0 := by
  intro ds0
  induction ds0 with
  | nil =>
      intro i0 j hj
      simp at hj
  | cons x t ih =>
      intro i0 j hj hje
      simp only [okDesired]
      cases j with
      | zero =>
          have hf : fails.getD i0 false = false := by simpa using hje
          rw [if_neg (by rw [hf]; simp)]
          simp
      | succ j2 =>
          have hj2 : j2 < t.length := by simpa using hj
          have hmem := ih (i0 + 1) j2 hj2 (by
            rw [show i0 + 1 + j2 = i0 + (j2 + 1) from by omega]
            exact hje)
          by_cases hf : fails.getD i0 false = true
          · rw [if_pos hf]
            simpa using hmem
          · rw [if_neg hf]
            right
            simpa using hmem

theorem count_zip_non_skipped (fails : List Bool) (okSet : List Str) (ds : List Str)
    (hnodup : ds.Nodup)
    (hok : okSet = okDesired fails ds 0)
    (hkne : okSet ≠ []) :
    ∀ (fs : List MFile) (i : Nat), i + fs.length = ds.length →
      (fs.zip (ds.drop i)).countP (fun fr => !umSkip okSet fr.2)
        + (failedNames fails fs i).length = fs.length := by
  intro fs
  induction fs with
  | nil =>
      intro i hlen
      simp [failedNames]
  | cons f t ih =>
      intro i hlen
      have hi : i < ds.length := by
        simp only [List.length_cons] at hlen
        omega
      rw [List.drop_eq_get_cons hi]
      rw [show ((f :: t).zip (ds.get ⟨i, hi⟩ :: ds.drop (i + 1)))
          = (f, ds.get ⟨i, hi⟩) :: t.zip (ds.drop (i + 1)) from rfl]
      rw [List.countP_cons]
      simp only [failedNames]
      have hrec := ih (i + 1) (by simp only [List.length_cons] at hlen; omega)
      by_cases hf : fails.getD i false = true
      · rw [if_pos hf]
        have hnotmem : ds.get ⟨i, hi⟩ ∉ okSet := by
          rw [hok]
          intro hmem
          obtain ⟨j, hj, hjeq, hjf⟩ := okDesired_sound fails ds 0 _ hmem
          have hij : (⟨j, hj⟩ : Fin ds.length) = ⟨i, hi⟩ :=
            (List.Nodup.get_inj_iff hnodup).mp hjeq
          have hji : j = i := by
            have := congrArg Fin.val hij
            simpa using this
          rw [hji] at hjf
          simp only [Nat.zero_add] at hjf
          rw [hjf] at hf
          exact absurd hf (by simp)
        have hskip : umSkip okSet (ds.get ⟨i, hi⟩) = true := by
          simp only [umSkip]
          have h1 : okSet.isEmpty = false := by
            cases hks : okSet
            · exact absurd hks hkne
            · rfl
          have h2 : okSet.contains (ds.get ⟨i, hi⟩) = false := by
            rw [← Bool.not_eq_true, List.elem_iff]
            exact hnotmem
          rw [h1, h2]
          rfl
        rw [show (!umSkip okSet (f, ds.get ⟨i, hi⟩).2) = false from by rw [hskip]; rfl]
        simp only [Bool.false_eq_true, if_false, List.length_cons]
        omega
      · have hf2 : fails.getD i false = false := by simpa using hf
        rw [if_neg hf]
        have hmem : ds.get ⟨i, hi⟩ ∈ okSet := by
          rw [hok]
          exact okDesired_complete fails ds 0 i hi (by simpa using hf2)
        have hskip : umSkip okSet (ds.get ⟨i, hi⟩) = false := by
          simp only [umSkip]
          have h2 : okSet.contains (ds.get ⟨i, hi⟩) = true := List.elem_iff.mpr hmem
          rw [h2]
          simp
        rw [show (!umSkip okSet (f, ds.get ⟨i, hi⟩).2) = true from by rw [hskip]; rfl]
        simp only [if_true, List.length_cons]
        omega

theorem umLoop_ok_count (root : Str) (emp : Option Str) (okSet : List Str) :
    ∀ (batch : List (MFile × Str)) (cache : List CacheKey) (sys : Sys)
      (rows : List Entry) (sys₂ : Sys),
      umLoop root emp okSet batch cache sys = (Except.ok rows, sys₂) →
      rows.length = batch.countP (fun fr => !umSkip okSet fr.2) := by
  intro batch
  induction batch with
  | nil =>
      intro cache sys rows sys₂ h
      replace h : ((Except.ok [], sys) : Except Err (List Entry) × Sys)
          = (Except.ok rows, sys₂) := h
      have h1 := congrArg Prod.fst h
      simp only at h1
      injection h1 with h1
      rw [← h1]
      rfl
  | cons fr0 t ih =>
      intro cache sys rows sys₂ h
      rw [List.countP_cons]
      by_cases hskip : umSkip okSet fr0.2 = true
      · replace h : umLoop root emp okSet t cache sys = (Except.ok rows, sys₂) := by
          rw [← h]
          show umLoop root emp okSet t cache sys = umLoop root emp okSet (fr0 :: t) cache sys
          rcases fr0 with ⟨f, rel⟩
          simp only [umLoop, hskip, if_true]
        rw [show (!umSkip okSet fr0.2) = false from by rw [hskip]; rfl]
        simp only [Bool.false_eq_true, if_false]
        rw [ih cache sys rows sys₂ h]
        omega
      · have hskip2 : umSkip okSet fr0.2 = false := by simpa using hskip
        replace h : ((ensureFolderChainCached root (parentOf fr0.2) emp cache >>= fun cache2 =>
            umLoop root emp okSet t cache2 >>= fun rows2 =>
            pure (fileRow root emp fr0.2 fr0.1 :: rows2)) sys) = (Except.ok rows, sys₂) := by
          rw [← h]
          rcases fr0 with ⟨f, rel⟩
          show _ = umLoop root emp okSet ((f, rel) :: t) cache sys
          simp only [umLoop, hskip2, Bool.false_eq_true, if_false]
        obtain ⟨cache2, s1, hens, h⟩ := StM.bind_ok (h := h)
        obtain ⟨rows2, s2, hloop, h⟩ := StM.bind_ok (h := h)
        rw [StM.run_pure] at h
        have h1 := congrArg Prod.fst h
        simp only at h1
        injection h1 with h1
        rw [← h1]
        rw [show (!umSkip okSet fr0.2) = true from by rw [hskip2]; rfl]
        simp only [if_true, List.length_cons]
        rw [ih cache2 s1 rows2 s2 hloop]

theorem filterMap_skip_length (okSet : List Str) (r : Str) (emp : Option Str) :
    ∀ l : List (MFile × Str),
      (l.filterMap (fun fr => if umSkip okSet fr.2 then none
        else some (fileRow r emp fr.2 fr.1))).length
      = l.countP (fun fr => !umSkip okSet fr.2) := by
  intro l
  induction l with
  | nil => rfl
  | cons fr0 t ih =>
      rw [List.countP_cons, List.filterMap_cons]
      by_cases hskip : umSkip okSet fr0.2 = true
      · rw [if_pos hskip]
        rw [show (!umSkip okSet fr0.2) = false from by rw [hskip]; rfl]
        simp only [Bool.false_eq_true, if_false]
        rw [ih]
        omega
      · rw [if_neg hskip]
        rw [show (!umSkip okSet fr0.2) = true from by
          rw [show umSkip okSet fr0.2 = false from by simpa using hskip]; rfl]
        simp only [if_true, List.length_cons]
        rw [ih]

/-- C1: batch partial tolerance, amended.  For both batch endpoints, on a
successful run whose desired paths are pairwise distinct, non-empty, and
key-roundtrip-clean, and in which AT LEAST ONE physical write succeeds:
the response's `errors` lists exactly the failed files by original name,
and the written-row count plus the number of failures equals the batch
size (`count = n - k`).  The one-success proviso is essential: when every
write fails the ok-set is empty, the skip guard
`if (okSet.size && !okSet.has(rel))` is vacuously bypassed, and all `n`
rows are upserted anyway (see the counterexample). -/
theorem C1_partial_tolerance :
    (∀ (fails : List Bool) (root path : Str) (emp : Option Str) (files : List MFile)
       (sys : Sys) (resp : UploadManyResp) (sys' : Sys),
       uploadMultipleOp fails root path emp files sys = (Except.ok resp, sys') →
       (umDesired (normPath path) files).Nodup →
       (∀ d ∈ umDesired (normPath path) files, d ≠ []) →
       (∀ d ∈ umDesired (normPath path) files,
         relativeFromS3Key (s3BaseFolder (normRoot root) emp)
           (storageBuildKey (s3BaseFolder (normRoot root) emp) d) = d) →
       (∃ j, ∃ hj : j < files.length, fails.getD j false = false) →
       resp.errors = failedNames fails files 0 ∧
       resp.count + (failedNames fails files 0).length = files.length) ∧
    (∀ (fails : List Bool) (root basePath : Str) (emp : Option Str)
       (paths : Option (List Str)) (files : List MFile)
       (sys : Sys) (resp : UploadManyResp) (sys' : Sys),
       uploadFolderOp fails root basePath emp paths files sys = (Except.ok resp, sys') →
       (ufDesired (normPath basePath) paths files).Nodup →
       (∀ d ∈ ufDesired (normPath basePath) paths files, d ≠ []) →
       (∀ d ∈ ufDesired (normPath basePath) paths files,
         relativeFromS3Key (s3BaseFolder (normRoot root) emp)
           (storageBuildKey (s3BaseFolder (normRoot root) emp) d) = d) →
       (∃ j, ∃ hj : j < files.length, fails.getD j false = false) →
       resp.errors = failedNames fails files 0 ∧
       resp.count + (failedNames fails files 0).length = files.length) := by
  constructor
  · intro fails root path emp files sys resp sys' h hnodup hdne hrt hsucc
    simp only [uploadMultipleOp] at h
    obtain ⟨u1, s1, hens1, h⟩ := StM.bind_ok (h := h)
    obtain ⟨cache1, s2, hcache, h⟩ := StM.bind_ok (h := h)
    obtain ⟨raw, s3, hup, h⟩ := StM.bind_ok (h := h)
    obtain ⟨rows, s4, hloop, h⟩ := StM.bind_ok (h := h)
    obtain ⟨u5, s5, hups, h⟩ := StM.bind_ok (h := h)
    rw [StM.run_pure] at h
    have h1 := congrArg Prod.fst h
    simp only at h1
    injection h1 with h1
    obtain ⟨s3x, hval⟩ := stUploadMultipleFiles_val fails files
      (s3BaseFolder (normRoot root) emp) (some (umDesired (normPath path) files)) s2
    have hx := Eq.trans hval.symm hup
    have hraw := congrArg Prod.fst hx
    simp only at hraw
    injection hraw with hraw
    have herr : resp.errors = failedNames fails files 0 := by
      rw [← h1]
      show raw.errors = _
      rw [← hraw]
      show (upResultsVal fails (s3BaseFolder (normRoot root) emp)
        (some (umDesired (normPath path) files)) files 0).2 = _
      exact upResultsVal_errors fails _ _ files 0
    have hds_len : (umDesired (normPath path) files).length = files.length :=
      List.length_map _ _
    have hokval : mkOkSet (s3BaseFolder (normRoot root) emp) raw
        = okDesired fails (umDesired (normPath path) files) 0 := by
      rw [← hraw]
      show ((upResultsVal fails (s3BaseFolder (normRoot root) emp)
          (some (umDesired (normPath path) files)) files 0).1.map
          (fun u => relativeFromS3Key (s3BaseFolder (normRoot root) emp) u.key)).filter
          (· ≠ []) = _
      have hupd := upResults_okSet fails (s3BaseFolder (normRoot root) emp)
        (umDesired (normPath path) files) hdne hrt files 0 (by rw [hds_len]; omega)
      rw [List.drop_zero] at hupd
      exact hupd
    obtain ⟨j, hj, hjf⟩ := hsucc
    have hjds : j < (umDesired (normPath path) files).length := by
      rw [hds_len]
      exact hj
    have hmem : (umDesired (normPath path) files).get ⟨j, hjds⟩
        ∈ okDesired fails (umDesired (normPath path) files) 0 :=
      okDesired_complete fails _ 0 j hjds (by simpa using hjf)
    have hkne : mkOkSet (s3BaseFolder (normRoot root) emp) raw ≠ [] := by
      rw [hokval]
      intro h0
      rw [h0] at hmem
      exact absurd hmem (List.not_mem_nil _)
    have hcnt := umLoop_ok_count (normRoot root) emp
      (mkOkSet (s3BaseFolder (normRoot root) emp) raw)
      (files.zip (umDesired (normPath path) files)) cache1 s3 rows s4 hloop
    have hczip := count_zip_non_skipped fails
      (mkOkSet (s3BaseFolder (normRoot root) emp) raw)
      (umDesired (normPath path) files) hnodup hokval hkne files 0 (by rw [hds_len]; omega)
    rw [List.drop_zero] at hczip
    refine ⟨herr, ?_⟩
    have hcount : resp.count = rows.length := by
      rw [← h1]
    rw [hcount, hcnt]
    exact hczip
  · intro fails root basePath emp paths files sys resp sys' h hnodup hdne hrt hsucc
    simp only [uploadFolderOp] at h
    by_cases hlen : (ufIncoming paths files).length ≠ files.length
    · rw [if_pos hlen] at h
      replace h : ((Except.error (Err.validation
          (str "paths[] length must match files[] length")), sys) :
          Except Err UploadManyResp × Sys) = (Except.ok resp, sys') := h
      have := congrArg Prod.fst h
      simp at this
    · rw [if_neg hlen] at h
      by_cases hany : (ufIncoming paths files).any (· = []) = true
      · rw [if_pos hany] at h
        replace h : ((Except.error (Err.validation (str "Invalid file path(s)")), sys) :
            Except Err UploadManyResp × Sys) = (Except.ok resp, sys') := h
        have := congrArg Prod.fst h
        simp at this
      · rw [if_neg hany] at h
        obtain ⟨c1, s1, hens, h⟩ := StM.bind_ok (h := h)
        obtain ⟨raw, s2, hup, h⟩ := StM.bind_ok (h := h)
        obtain ⟨u3, s3, hups, h⟩ := StM.bind_ok (h := h)
        rw [StM.run_pure] at h
        have h1 := congrArg Prod.fst h
        simp only at h1
        injection h1 with h1
        obtain ⟨s2x, hval⟩ := stUploadMultipleFiles_val fails files
          (s3BaseFolder (normRoot root) emp)
          (some (ufDesired (normPath basePath) paths files)) s1
        have hx := Eq.trans hval.symm hup
        have hraw := congrArg Prod.fst hx
        simp only at hraw
        injection hraw with hraw
        have herr : resp.errors = failedNames fails files 0 := by
          rw [← h1]
          show raw.errors = _
          rw [← hraw]
          show (upResultsVal fails (s3BaseFolder (normRoot root) emp)
            (some (ufDesired (normPath basePath) paths files)) files 0).2 = _
          exact upResultsVal_errors fails _ _ files 0
        have hds_len : (ufDesired (normPath basePath) paths files).length
            = files.length := by
          have h2 : (ufDesired (normPath basePath) paths files).length
              = (ufIncoming paths files).length := List.length_map _ _
          rw [h2]
          omega
        have hokval : mkOkSet (s3BaseFolder (normRoot root) emp) raw
            = okDesired fails (ufDesired (normPath basePath) paths files) 0 := by
          rw [← hraw]
          show ((upResultsVal fails (s3BaseFolder (normRoot root) emp)
              (some (ufDesired (normPath basePath) paths files)) files 0).1.map
              (fun u => relativeFromS3Key (s3BaseFolder (normRoot root) emp) u.key)).filter
              (· ≠ []) = _
          have hupd := upResults_okSet fails (s3BaseFolder (normRoot root) emp)
            (ufDesired (normPath basePath) paths files) hdne hrt files 0
            (by rw [hds_len]; omega)
          rw [List.drop_zero] at hupd
          exact hupd
        obtain ⟨j, hj, hjf⟩ := hsucc
        have hjds : j < (ufDesired (normPath basePath) paths files).length := by
          rw [hds_len]
          exact hj
        have hmem : (ufDesired (normPath basePath) paths files).get ⟨j, hjds⟩
            ∈ okDesired fails (ufDesired (normPath basePath) paths files) 0 :=
          okDesired_complete fails _ 0 j hjds (by simpa using hjf)
        have hkne : mkOkSet (s3BaseFolder (normRoot root) emp) raw ≠ [] := by
          rw [hokval]
          intro h0
          rw [h0] at hmem
          exact absurd hmem (List.not_mem_nil _)
        have hczip := count_zip_non_skipped fails
          (mkOkSet (s3BaseFolder (normRoot root) emp) raw)
          (ufDesired (normPath basePath) paths files) hnodup hokval hkne files 0
          (by rw [hds_len]; omega)
        rw [List.drop_zero] at hczip
        refine ⟨herr, ?_⟩
        have hcount : resp.count = ((files.zip
            (ufDesired (normPath basePath) paths files)).filterMap
            (fun fr => if umSkip (mkOkSet (s3BaseFolder (normRoot root) emp) raw) fr.2
              then none else some (fileRow (normRoot root) emp fr.2 fr.1))).length := by
          rw [← h1]
        rw [hcount, filterMap_skip_length]
        exact hczip

def c1wF1 : MFile := { originalname := str "a.png", size := some 1, mimetype := none }

def c1wF2 : MFile := { originalname := str "b.png", size := some 1, mimetype := none }

def c1wResp : UploadManyResp :=
  { success := false,
    results := [{ filename := str "b.png", key := str "d/A/b.png" }],
    errors := [str "a.png"],
    count := 1 }

theorem C1_partial_tolerance_witness :
    (c1wResp.errors = failedNames [true, false] [c1wF1, c1wF2] 0 ∧
     c1wResp.count + (failedNames [true, false] [c1wF1, c1wF2] 0).length = 2) ∧
    (c1wResp.errors = failedNames [true, false] [c1wF1, c1wF2] 0 ∧
     c1wResp.count + (failedNames [true, false] [c1wF1, c1wF2] 0).length = 2) :=
  ⟨C1_partial_tolerance.1 [true, false] (str "d") (str "A") none [c1wF1, c1wF2] sysEmpty
      c1wResp
      (uploadMultipleOp [true, false] (str "d") (str "A") none [c1wF1, c1wF2] sysEmpty).2
      (by decide) (by decide) (by decide) (by decide) ⟨1, by decide, by decide⟩,
   C1_partial_tolerance.2 [true, false] (str "d") [] none
      (some [str "A/a.png", str "A/b.png"]) [c1wF1, c1wF2] sysEmpty
      c1wResp
      (uploadFolderOp [true, false] (str "d") [] none
        (some [str "A/a.png", str "A/b.png"]) [c1wF1, c1wF2] sysEmpty).2
      (by decide) (by decide) (by decide) (by decide) ⟨1, by decide, by decide⟩⟩

/-! ### C7: tenant isolation (noninterference across `employeeNumber`) -/

/-- Membership of an entry in tenant `emp`'s slice. -/
def ownT (emp : Option Str) (e : Entry) : Bool := e.employeeNumber == emp

/-- The rows of tenant `emp`. -/
def tslice (emp : Option Str) (db : Store) : Store := db.filter (ownT emp)

/-- The rows of every other tenant. -/
def oslice (emp : Option Str) (db : Store) : Store :=
  db.filter (fun e => !ownT emp e)

/-- Two systems agreeing on tenant `emp`'s rows, the blob store and the id
counter (they may differ arbitrarily on other tenants' rows). -/
structure TEqv (emp : Option Str) (s t : Sys) : Prop where
  own : tslice emp s.db = tslice emp t.db
  s3eq : s.s3 = t.s3
  nid : s.nextId = t.nextId

/-- The database invariants the engine relies on, guaranteed by TypeORM's
primary key (distinct `id`s, generated below the sequence counter) and the
unique index on `(root, employeeNumber, path)`. -/
def DbInv (s : Sys) : Prop :=
  (∀ a ∈ s.db, ∀ b ∈ s.db, a.id = b.id → a = b) ∧
  (∀ e ∈ s.db, e.id < s.nextId) ∧
  uniqueKeysOk s.db = true

/-- Tenant isolation of a stateful computation: it preserves the database
invariants, never changes another tenant's rows (frame), and its result and
the reachable tenant-`emp` state do not depend on other tenants' rows
(noninterference). -/
structure TIso (emp : Option Str) {α : Type} (m : StM Sys α) : Prop where
  pres : ∀ s : Sys, DbInv s → DbInv (m s).2
  frame : ∀ s : Sys, DbInv s → oslice emp (m s).2.db = oslice emp s.db
  ni : ∀ s t : Sys, DbInv s → DbInv t → TEqv emp s t →
    (m s).1 = (m t).1 ∧ TEqv emp (m s).2 (m t).2

theorem TIso.pureI {emp : Option Str} {α : Type} (a : α) :
    TIso emp (pure a : StM Sys α) :=
  ⟨fun _ h => h, fun _ _ => rfl, fun _ _ _ _ he => ⟨rfl, he⟩⟩

theorem TIso.failI {emp : Option Str} {α : Type} (e : Err) :
    TIso emp (StM.fail e : StM Sys α) :=
  ⟨fun _ h => h, fun _ _ => rfl, fun _ _ _ _ he => ⟨rfl, he⟩⟩

theorem TIso.bindI {emp : Option Str} {α β : Type} {x : StM Sys α}
    {f : α → StM Sys β} (hx : TIso emp x) (hf : ∀ a, TIso emp (f a)) :
    TIso emp (x >>= f) := by
  constructor
  · intro s hs
    rw [StM.run_bind]
    rcases hxs : x s with ⟨r, s'⟩
    have hs' : DbInv s' := by
      have := hx.pres s hs
      rw [hxs] at this
      exact this
    cases r with
    | ok a => exact (hf a).pres s' hs'
    | error e => exact hs'
  · intro s hs
    rw [StM.run_bind]
    rcases hxs : x s with ⟨r, s'⟩
    have hfr : oslice emp s'.db = oslice emp s.db := by
      have := hx.frame s hs
      rw [hxs] at this
      exact this
    have hs' : DbInv s' := by
      have := hx.pres s hs
      rw [hxs] at this
      exact this
    cases r with
    | ok a => exact ((hf a).frame s' hs').trans hfr
    | error e => exact hfr
  · intro s t hs ht he
    rw [StM.run_bind, StM.run_bind]
    obtain ⟨h1, h2⟩ := hx.ni s t hs ht he
    rcases hxs : x s with ⟨rs, s'⟩
    rcases hxt : x t with ⟨rt, t'⟩
    rw [hxs, hxt] at h1 h2
    simp only at h1 h2
    subst h1
    have hs' : DbInv s' := by
      have := hx.pres s hs
      rw [hxs] at this
      exact this
    have ht' : DbInv t' := by
      have := hx.pres t ht
      rw [hxt] at this
      exact this
    cases rs with
    | ok a => exact (hf a).ni s' t' hs' ht' h2
    | error e => exact ⟨rfl, h2⟩

theorem TIso.iteI {emp : Option Str} {α : Type} (c : Prop) [Decidable c]
    {x y : StM Sys α} (hx : TIso emp x) (hy : TIso emp y) :
    TIso emp (if c then x else y) := by
  by_cases h : c
  · rw [if_pos h]; exact hx
  · rw [if_neg h]; exact hy

theorem TIso.s3PutI {emp : Option Str} (k : Str) : TIso emp (s3Put k) := by
  constructor
  · intro s hs
    exact hs
  · intro s _
    rfl
  · intro s t _ _ he
    refine ⟨rfl, ⟨he.own, ?_, he.nid⟩⟩
    show (if s.s3.contains k then s.s3 else s.s3 ++ [k])
      = (if t.s3.contains k then t.s3 else t.s3 ++ [k])
    rw [he.s3eq]

theorem TIso.s3DeleteI {emp : Option Str} (k : Str) : TIso emp (s3Delete k) := by
  constructor
  · intro s hs
    exact hs
  · intro s _
    rfl
  · intro s t _ _ he
    refine ⟨rfl, ⟨he.own, ?_, he.nid⟩⟩
    show s.s3.filter _ = t.s3.filter _
    rw [he.s3eq]

theorem TIso.s3ListPrefixI {emp : Option Str} (p : Str) :
    TIso emp (s3ListPrefix p) := by
  constructor
  · intro s hs
    exact hs
  · intro s _
    rfl
  · intro s t _ _ he
    constructor
    · show Except.ok (s.s3.filter _) = Except.ok (t.s3.filter _)
      rw [he.s3eq]
    · exact he

theorem TIso.s3PutAllI {emp : Option Str} (l : List Str) :
    TIso emp (s3PutAll l) := by
  induction l with
  | nil => exact TIso.pureI ()
  | cons k t ih => exact TIso.bindI (TIso.s3PutI k) (fun _ => ih)

theorem TIso.s3DeleteAllI {emp : Option Str} (l : List Str) :
    TIso emp (s3DeleteAll l) := by
  induction l with
  | nil => exact TIso.pureI ()
  | cons k t ih => exact TIso.bindI (TIso.s3DeleteI k) (fun _ => ih)

theorem find?_restrict (p q : Entry → Bool) (hpq : ∀ e, p e = true → q e = true) :
    ∀ db : Store, db.find? p = (db.filter q).find? p := by
  intro db
  induction db with
  | nil => rfl
  | cons h t ih =>
      by_cases hph : p h = true
      · rw [List.filter_cons_of_pos (hpq h hph), List.find?_cons_of_pos _ hph,
          List.find?_cons_of_pos _ hph]
      · have hph2 : p h = false := by simpa using hph
        rw [List.find?_cons_of_neg _ (by simp [hph2])]
        by_cases hqh : q h = true
        · rw [List.filter_cons_of_pos hqh, List.find?_cons_of_neg _ (by simp [hph2])]
          exact ih
        · rw [List.filter_cons_of_neg (by simpa using hqh)]
          exact ih

theorem filter_restrict (p q : Entry → Bool) (hpq : ∀ e, p e = true → q e = true) :
    ∀ db : Store, db.filter p = (db.filter q).filter p := by
  intro db
  induction db with
  | nil => rfl
  | cons h t ih =>
      by_cases hph : p h = true
      · rw [List.filter_cons_of_pos (hpq h hph), List.filter_cons_of_pos hph,
          List.filter_cons_of_pos hph, ih]
      · have hph2 : p h = false := by simpa using hph
        rw [List.filter_cons_of_neg (by simp [hph2])]
        by_cases hqh : q h = true
        · rw [List.filter_cons_of_pos hqh, List.filter_cons_of_neg (by simp [hph2])]
          exact ih
        · rw [List.filter_cons_of_neg (by simpa using hqh)]
          exact ih

theorem any_restrict (p q : Entry → Bool) (hpq : ∀ e, p e = true → q e = true) :
    ∀ db : Store, db.any p = (db.filter q).any p := by
  intro db
  induction db with
  | nil => rfl
  | cons h t ih =>
      by_cases hph : p h = true
      · rw [List.filter_cons_of_pos (hpq h hph)]
        show (p h || t.any p) = (p h || (t.filter q).any p)
        rw [ih]
      · have hph2 : p h = false := by simpa using hph
        by_cases hqh : q h = true
        · rw [List.filter_cons_of_pos hqh]
          show (p h || t.any p) = (p h || (t.filter q).any p)
          rw [ih]
        · rw [List.filter_cons_of_neg (by simpa using hqh)]
          show (p h || t.any p) = (t.filter q).any p
          rw [hph2, Bool.false_or, ih]

theorem ownT_of_entryKeyEq (emp : Option Str) (a b : Entry)
    (h : entryKeyEq a b = true) : ownT emp a = ownT emp b := by
  unfold entryKeyEq at h
  rw [Bool.and_eq_true, Bool.and_eq_true] at h
  have he : a.employeeNumber = b.employeeNumber := by
    have := h.1.2
    exact beq_iff_eq.mp this
  unfold ownT
  rw [he]

theorem uKO_sublist {l1 l2 : Store} (hs : l1.Sublist l2)
    (h : uniqueKeysOk l2 = true) : uniqueKeysOk l1 = true := by
  induction hs with
  | slnil => rfl
  | cons a hsub ih =>
      rename_i t1 t2
      have h2 : uniqueKeysOk t2 = true := by
        have hh : (!(t2.any fun x => entryKeyEq x a) && uniqueKeysOk t2) = true := h
        rw [Bool.and_eq_true] at hh
        exact hh.2
      exact ih h2
  | cons₂ a hsub ih =>
      rename_i t1 t2
      have hh : (!(t2.any fun x => entryKeyEq x a) && uniqueKeysOk t2) = true := h
      rw [Bool.and_eq_true] at hh
      show (!(t1.any fun x => entryKeyEq x a) && uniqueKeysOk t1) = true
      rw [Bool.and_eq_true]
      refine ⟨?_, ih hh.2⟩
      by_cases hany : (t1.any fun x => entryKeyEq x a) = true
      · obtain ⟨x, hx, hxe⟩ := List.any_eq_true.mp hany
        have : (t2.any fun x => entryKeyEq x a) = true :=
          List.any_eq_true.mpr ⟨x, hsub.subset hx, hxe⟩
        rw [this] at hh
        exact absurd hh.1 (by simp)
      · rw [Bool.not_eq_true] at hany
        rw [hany]
        rfl

theorem uKO_append_one (db : Store) (e : Entry)
    (h1 : uniqueKeysOk db = true) (h2 : db.any (fun x => entryKeyEq x e) = false) :
    uniqueKeysOk (db ++ [e]) = true := by
  induction db with
  | nil => rfl
  | cons h t ih =>
      have hh : (!(t.any fun x => entryKeyEq x h) && uniqueKeysOk t) = true := h1
      rw [Bool.and_eq_true] at hh
      have h2' : (entryKeyEq h e || t.any fun x => entryKeyEq x e) = false := h2
      rw [Bool.or_eq_false_iff] at h2'
      show (!((t ++ [e]).any fun x => entryKeyEq x h) && uniqueKeysOk (t ++ [e])) = true
      rw [Bool.and_eq_true]
      constructor
      · rw [List.any_append]
        have heh : entryKeyEq e h = false := by
          rw [entryKeyEq_symm]
          exact h2'.1
        have h3 : ([e].any fun x => entryKeyEq x h) = false := by
          simp [heh]
        have h4 : (t.any fun x => entryKeyEq x h) = false := by
          have := hh.1
          rw [Bool.not_eq_true'] at this
          exact this
        rw [h3, h4]
        rfl
      · exact ih hh.2 h2'.2

theorem uKO_split (emp : Option Str) :
    ∀ db : Store, uniqueKeysOk db
      = (uniqueKeysOk (tslice emp db) && uniqueKeysOk (oslice emp db)) := by
  intro db
  induction db with
  | nil => rfl
  | cons h t ih =>
      by_cases hOwn : ownT emp h = true
      · have ht : tslice emp (h :: t) = h :: tslice emp t :=
          List.filter_cons_of_pos hOwn
        have ho : oslice emp (h :: t) = oslice emp t :=
          List.filter_cons_of_neg (by simp [hOwn])
        rw [ht, ho]
        show (!(t.any fun x => entryKeyEq x h) && uniqueKeysOk t)
          = ((!((tslice emp t).any fun x => entryKeyEq x h) &&
              uniqueKeysOk (tslice emp t)) && uniqueKeysOk (oslice emp t))
        have hany : (t.any fun x => entryKeyEq x h)
            = ((tslice emp t).any fun x => entryKeyEq x h) :=
          any_restrict _ (ownT emp)
            (fun x hx => by rw [ownT_of_entryKeyEq emp x h hx]; exact hOwn) t
        rw [← hany, ih, Bool.and_assoc]
      · have hOwn2 : ownT emp h = false := by simpa using hOwn
        have ht : tslice emp (h :: t) = tslice emp t :=
          List.filter_cons_of_neg (by simp [hOwn2])
        have ho : oslice emp (h :: t) = h :: oslice emp t :=
          List.filter_cons_of_pos (by simp [hOwn2])
        rw [ht, ho]
        show (!(t.any fun x => entryKeyEq x h) && uniqueKeysOk t)
          = (uniqueKeysOk (tslice emp t) &&
             (!((oslice emp t).any fun x => entryKeyEq x h) &&
              uniqueKeysOk (oslice emp t)))
        have hany : (t.any fun x => entryKeyEq x h)
            = ((oslice emp t).any fun x => entryKeyEq x h) :=
          any_restrict _ (fun e => !ownT emp e)
            (fun x hx => by
              show (!ownT emp x) = true
              rw [ownT_of_entryKeyEq emp x h hx, hOwn2]
              rfl) t
        rw [← hany, ih, Bool.and_left_comm]

theorem oslice_filter_keep (emp : Option Str) (p : Entry → Bool)
    (hp : ∀ e, p e = true → ownT emp e = true) :
    ∀ db : Store, oslice emp (db.filter (fun e => !p e)) = oslice emp db := by
  intro db
  induction db with
  | nil => rfl
  | cons h t ih =>
      by_cases hph : p h = true
      · have hOwn := hp h hph
        rw [List.filter_cons_of_neg (by simp [hph]),
          show oslice emp (h :: t) = oslice emp t from
            List.filter_cons_of_neg (by simp [hOwn])]
        exact ih
      · have hph2 : p h = false := by simpa using hph
        rw [List.filter_cons_of_pos (by simp [hph2])]
        by_cases hOwn : ownT emp h = true
        · rw [show oslice emp (h :: (t.filter fun e => !p e)) =
              oslice emp (t.filter fun e => !p e) from
              List.filter_cons_of_neg (by simp [hOwn]),
            show oslice emp (h :: t) = oslice emp t from
              List.filter_cons_of_neg (by simp [hOwn])]
          exact ih
        · have hOwn2 : ownT emp h = false := by simpa using hOwn
          rw [show oslice emp (h :: (t.filter fun e => !p e)) =
              h :: oslice emp (t.filter fun e => !p e) from
              List.filter_cons_of_pos (by simp [hOwn2]),
            show oslice emp (h :: t) = h :: oslice emp t from
              List.filter_cons_of_pos (by simp [hOwn2]), ih]

theorem tslice_filter_comm (emp : Option Str) (p : Entry → Bool) (db : Store) :
    tslice emp (db.filter p) = (tslice emp db).filter p := by
  unfold tslice
  rw [List.filter_comm]

theorem TIso.findOneI {emp : Option Str} (p : Entry → Bool)
    (hp : ∀ e, p e = true → ownT emp e = true) : TIso emp (findOneDb p) := by
  constructor
  · intro s hs
    exact hs
  · intro s _
    rfl
  · intro s t _ _ he
    refine ⟨?_, he⟩
    show Except.ok (s.db.find? p) = Except.ok (t.db.find? p)
    rw [find?_restrict p (ownT emp) hp s.db, find?_restrict p (ownT emp) hp t.db]
    show Except.ok ((tslice emp s.db).find? p) = Except.ok ((tslice emp t.db).find? p)
    rw [he.own]

theorem TIso.findAllI {emp : Option Str} (p : Entry → Bool)
    (hp : ∀ e, p e = true → ownT emp e = true) : TIso emp (findAllDb p) := by
  constructor
  · intro s hs
    exact hs
  · intro s _
    rfl
  · intro s t _ _ he
    refine ⟨?_, he⟩
    show Except.ok (s.db.filter p) = Except.ok (t.db.filter p)
    rw [filter_restrict p (ownT emp) hp s.db, filter_restrict p (ownT emp) hp t.db]
    show Except.ok ((tslice emp s.db).filter p) = Except.ok ((tslice emp t.db).filter p)
    rw [he.own]

theorem TIso.deleteI {emp : Option Str} (p : Entry → Bool)
    (hp : ∀ e, p e = true → ownT emp e = true) : TIso emp (deleteDb p) := by
  constructor
  · intro s hs
    obtain ⟨hinj, hbnd, huko⟩ := hs
    refine ⟨?_, ?_, ?_⟩
    · intro a ha b hb
      exact hinj a ((List.filter_sublist _).subset ha)
        b ((List.filter_sublist _).subset hb)
    · intro e hee
      exact hbnd e ((List.filter_sublist _).subset hee)
    · exact uKO_sublist (List.filter_sublist _) huko
  · intro s _
    exact oslice_filter_keep emp p hp s.db
  · intro s t _ _ he
    constructor
    · show Except.ok (s.db.filter p).length = Except.ok (t.db.filter p).length
      rw [filter_restrict p (ownT emp) hp s.db, filter_restrict p (ownT emp) hp t.db]
      show Except.ok ((tslice emp s.db).filter p).length
        = Except.ok ((tslice emp t.db).filter p).length
      rw [he.own]
    · refine ⟨?_, he.s3eq, he.nid⟩
      show tslice emp (s.db.filter fun e => !p e) = tslice emp (t.db.filter fun e => !p e)
      rw [tslice_filter_comm, tslice_filter_comm, he.own]

theorem TIso.saveNewI {emp : Option Str} (e0 : Entry)
    (he0 : ownT emp e0 = true) : TIso emp (saveNewDb e0) := by
  have hscope : ∀ x : Entry, entryKeyEq x e0 = true → ownT emp x = true :=
    fun x hx => by rw [ownT_of_entryKeyEq emp x e0 hx]; exact he0
  constructor
  · intro s hs
    obtain ⟨hinj, hbnd, huko⟩ := hs
    simp only [saveNewDb]
    by_cases hc : s.db.any (fun x => entryKeyEq x e0) = true
    · rw [if_pos hc]
      exact ⟨hinj, hbnd, huko⟩
    · rw [if_neg hc]
      have hc2 : s.db.any (fun x => entryKeyEq x e0) = false := by simpa using hc
      refine ⟨?_, ?_, ?_⟩
      · intro a ha b hb hab
        rcases List.mem_append.mp ha with ha1 | ha2
        · rcases List.mem_append.mp hb with hb1 | hb2
          · exact hinj a ha1 b hb1 hab
          · have hb3 : b = { e0 with id := s.nextId } := List.mem_singleton.mp hb2
            have : a.id < s.nextId := hbnd a ha1
            rw [hab, hb3] at this
            exact absurd this (by simp)
        · have ha3 : a = { e0 with id := s.nextId } := List.mem_singleton.mp ha2
          rcases List.mem_append.mp hb with hb1 | hb2
          · have : b.id < s.nextId := hbnd b hb1
            rw [← hab, ha3] at this
            exact absurd this (by simp)
          · exact ha3.trans (List.mem_singleton.mp hb2).symm
      · intro e hee
        rcases List.mem_append.mp hee with h1 | h2
        · exact Nat.lt_succ_of_lt (hbnd e h1)
        · rw [List.mem_singleton.mp h2]
          exact Nat.lt_succ_self _
      · exact uKO_append_one s.db _ huko (by
          have : (fun x => entryKeyEq x { e0 with id := s.nextId })
              = (fun x => entryKeyEq x e0) := by
            funext x
            rfl
          rw [this]
          simpa using hc)
  · intro s _
    simp only [saveNewDb]
    by_cases hc : s.db.any (fun x => entryKeyEq x e0) = true
    · rw [if_pos hc]
    · rw [if_neg hc]
      show oslice emp (s.db ++ [{ e0 with id := s.nextId }]) = oslice emp s.db
      unfold oslice
      rw [List.filter_append]
      have : List.filter (fun e => !ownT emp e) [{ e0 with id := s.nextId }] = [] := by
        have hOwn : ownT emp { e0 with id := s.nextId } = true := he0
        simp [hOwn]
      rw [this, List.append_nil]
  · intro s t _ _ he
    simp only [saveNewDb]
    have hcc : s.db.any (fun x => entryKeyEq x e0)
        = t.db.any (fun x => entryKeyEq x e0) := by
      rw [any_restrict _ (ownT emp) hscope s.db, any_restrict _ (ownT emp) hscope t.db]
      show (tslice emp s.db).any _ = (tslice emp t.db).any _
      rw [he.own]
    by_cases hc : s.db.any (fun x => entryKeyEq x e0) = true
    · rw [if_pos hc, if_pos (hcc ▸ hc)]
      exact ⟨rfl, he⟩
    · rw [if_neg hc, if_neg (fun hh => hc (hcc ▸ hh))]
      refine ⟨rfl, ?_, he.s3eq, ?_⟩
      · show tslice emp (s.db ++ [{ e0 with id := s.nextId }])
          = tslice emp (t.db ++ [{ e0 with id := t.nextId }])
        unfold tslice
        rw [List.filter_append, List.filter_append]
        have hOs : List.filter (ownT emp) [{ e0 with id := s.nextId }]
            = [{ e0 with id := s.nextId }] := by
          have hOwn : ownT emp { e0 with id := s.nextId } = true := he0
          simp [hOwn]
        have hOt : List.filter (ownT emp) [{ e0 with id := t.nextId }]
            = [{ e0 with id := t.nextId }] := by
          have hOwn : ownT emp { e0 with id := t.nextId } = true := he0
          simp [hOwn]
        rw [hOs, hOt, he.nid]
        show tslice emp s.db ++ _ = tslice emp t.db ++ _
        rw [he.own]
      · show s.nextId + 1 = t.nextId + 1
        rw [he.nid]

theorem entryKeyEq_refl (a : Entry) : entryKeyEq a a = true := by
  simp [entryKeyEq]

theorem entryKeyEq_trans (a b c : Entry) (h1 : entryKeyEq a b = true)
    (h2 : entryKeyEq b c = true) : entryKeyEq a c = true := by
  unfold entryKeyEq at h1 h2
  rw [Bool.and_eq_true, Bool.and_eq_true] at h1 h2
  have hr : a.root = c.root := (beq_iff_eq.mp h1.1.1).trans (beq_iff_eq.mp h2.1.1)
  have hemp : a.employeeNumber = c.employeeNumber :=
    (beq_iff_eq.mp h1.1.2).trans (beq_iff_eq.mp h2.1.2)
  have hp : a.path = c.path := (beq_iff_eq.mp h1.2).trans (beq_iff_eq.mp h2.2)
  unfold entryKeyEq
  rw [Bool.and_eq_true, Bool.and_eq_true]
  exact ⟨⟨beq_iff_eq.mpr hr, beq_iff_eq.mpr hemp⟩, beq_iff_eq.mpr hp⟩

theorem entryKeyEq_id_irrel (x e0 : Entry) (z : Nat) :
    entryKeyEq x { e0 with id := z } = entryKeyEq x e0 := rfl

theorem oslice_map_own (emp : Option Str) (f : Entry → Entry)
    (hf1 : ∀ x, ownT emp x = false → f x = x)
    (hf2 : ∀ x, ownT emp x = true → ownT emp (f x) = true) :
    ∀ db : Store, oslice emp (db.map f) = oslice emp db := by
  intro db
  induction db with
  | nil => rfl
  | cons h t ih =>
      rw [List.map_cons]
      by_cases hOwn : ownT emp h = true
      · rw [show oslice emp (f h :: t.map f) = oslice emp (t.map f) from
            List.filter_cons_of_neg (by simp [hf2 h hOwn]),
          show oslice emp (h :: t) = oslice emp t from
            List.filter_cons_of_neg (by simp [hOwn])]
        exact ih
      · have hOwn2 : ownT emp h = false := by simpa using hOwn
        rw [show oslice emp (f h :: t.map f) = f h :: oslice emp (t.map f) from
            List.filter_cons_of_pos (by simp [hf1 h hOwn2, hOwn2]),
          show oslice emp (h :: t) = h :: oslice emp t from
            List.filter_cons_of_pos (by simp [hOwn2]), ih, hf1 h hOwn2]

theorem tslice_map_own (emp : Option Str) (f : Entry → Entry)
    (hf1 : ∀ x, ownT emp x = false → f x = x)
    (hf2 : ∀ x, ownT emp x = true → ownT emp (f x) = true) :
    ∀ db : Store, tslice emp (db.map f) = (tslice emp db).map f := by
  intro db
  induction db with
  | nil => rfl
  | cons h t ih =>
      rw [List.map_cons]
      by_cases hOwn : ownT emp h = true
      · rw [show tslice emp (f h :: t.map f) = f h :: tslice emp (t.map f) from
            List.filter_cons_of_pos (hf2 h hOwn),
          show tslice emp (h :: t) = h :: tslice emp t from
            List.filter_cons_of_pos hOwn, List.map_cons, ih]
      · have hOwn2 : ownT emp h = false := by simpa using hOwn
        rw [show tslice emp (f h :: t.map f) = tslice emp (t.map f) from
            List.filter_cons_of_neg (by simp [hf1 h hOwn2, hOwn2]),
          show tslice emp (h :: t) = tslice emp t from
            List.filter_cons_of_neg (by simp [hOwn2]), ih]

theorem uKO_map_pairs (f : Entry → Entry) :
    ∀ db : Store,
      (∀ a ∈ db, ∀ b ∈ db, entryKeyEq a b = false → entryKeyEq (f a) (f b) = false) →
      uniqueKeysOk db = true → uniqueKeysOk (db.map f) = true := by
  intro db
  induction db with
  | nil =>
      intro _ _
      rfl
  | cons h t ih =>
      intro hpair h1
      have hh : (!(t.any fun x => entryKeyEq x h) && uniqueKeysOk t) = true := h1
      rw [Bool.and_eq_true] at hh
      have hfalse : ∀ x ∈ t, entryKeyEq x h = false := by
        intro x hx
        rcases hxx : entryKeyEq x h with _ | _
        · rfl
        · have : (t.any fun x => entryKeyEq x h) = true :=
            List.any_eq_true.mpr ⟨x, hx, hxx⟩
          rw [this] at hh
          exact absurd hh.1 (by simp)
      have hanyf : ((t.map f).any fun x => entryKeyEq x (f h)) = false := by
        rcases hc : (t.map f).any fun x => entryKeyEq x (f h) with _ | _
        · rfl
        · obtain ⟨y', hy', hye⟩ := List.any_eq_true.mp hc
          obtain ⟨y, hy, hyeq⟩ := List.mem_map.mp hy'
          have := hpair y (List.mem_cons_of_mem h hy) h (List.mem_cons_self h t)
            (hfalse y hy)
          rw [hyeq] at this
          rw [this] at hye
          exact absurd hye (by simp)
      rw [List.map_cons]
      show (!((t.map f).any fun x => entryKeyEq x (f h)) && uniqueKeysOk (t.map f)) = true
      rw [Bool.and_eq_true]
      refine ⟨by rw [hanyf]; rfl, ?_⟩
      exact ih (fun a ha b hb => hpair a (List.mem_cons_of_mem h ha)
        b (List.mem_cons_of_mem h hb)) hh.2

theorem TIso.upsertRowI {emp : Option Str} (e0 : Entry)
    (he0 : ownT emp e0 = true) : TIso emp (upsertRowDb e0) := by
  have hscope : ∀ x : Entry, entryKeyEq x e0 = true → ownT emp x = true :=
    fun x hx => by rw [ownT_of_entryKeyEq emp x e0 hx]; exact he0
  have hf1 : ∀ x, ownT emp x = false →
      (if entryKeyEq x e0 then { e0 with id := x.id } else x) = x := by
    intro x hx
    rcases hke : entryKeyEq x e0 with _ | _
    · rw [if_neg (by simp [hke])]
    · rw [hscope x hke] at hx
      exact absurd hx (by simp)
  have hf2 : ∀ x, ownT emp x = true →
      ownT emp (if entryKeyEq x e0 then { e0 with id := x.id } else x) = true := by
    intro x hx
    rcases hke : entryKeyEq x e0 with _ | _
    · rw [if_neg (by simp [hke])]
      exact hx
    · rw [if_pos rfl]
      exact he0
  have hpair : ∀ db : Store, ∀ a ∈ db, ∀ b ∈ db, entryKeyEq a b = false →
      entryKeyEq (if entryKeyEq a e0 then { e0 with id := a.id } else a)
        (if entryKeyEq b e0 then { e0 with id := b.id } else b) = false := by
    intro db a _ b _ hab
    rcases hae : entryKeyEq a e0 with _ | _
    · rcases hbe : entryKeyEq b e0 with _ | _
      · rw [if_neg (by simp [hae]), if_neg (by simp [hbe])]
        exact hab
      · rw [if_neg (by simp [hae]), if_pos rfl, entryKeyEq_id_irrel]
        exact hae
    · rcases hbe : entryKeyEq b e0 with _ | _
      · rw [if_pos rfl, if_neg (by simp [hbe])]
        have hsym : entryKeyEq b e0 = false := hbe
        have h0e : entryKeyEq { e0 with id := a.id } b = entryKeyEq e0 b := by
          rw [entryKeyEq_symm, entryKeyEq_id_irrel, entryKeyEq_symm]
        rw [h0e, entryKeyEq_symm]
        exact hsym
      · exfalso
        have h1 : entryKeyEq a b = true :=
          entryKeyEq_trans a e0 b hae (by rw [entryKeyEq_symm]; exact hbe)
        rw [h1] at hab
        exact absurd hab (by simp)
  constructor
  · intro s hs
    obtain ⟨hinj, hbnd, huko⟩ := hs
    simp only [upsertRowDb]
    by_cases hc : s.db.any (fun x => entryKeyEq x e0) = true
    · rw [if_pos hc]
      refine ⟨?_, ?_, ?_⟩
      · intro a ha b hb hab
        obtain ⟨a0, ha0, ha0e⟩ := List.mem_map.mp ha
        obtain ⟨b0, hb0, hb0e⟩ := List.mem_map.mp hb
        have hida : a.id = a0.id := by
          rw [← ha0e]
          rcases hke : entryKeyEq a0 e0 with _ | _
          · rw [if_neg (by simp [hke])]
          · rw [if_pos rfl]
        have hidb : b.id = b0.id := by
          rw [← hb0e]
          rcases hke : entryKeyEq b0 e0 with _ | _
          · rw [if_neg (by simp [hke])]
          · rw [if_pos rfl]
        have : a0 = b0 := hinj a0 ha0 b0 hb0 (by rw [← hida, ← hidb]; exact hab)
        rw [← ha0e, ← hb0e, this]
      · intro e hee
        obtain ⟨a0, ha0, ha0e⟩ := List.mem_map.mp hee
        have hida : e.id = a0.id := by
          rw [← ha0e]
          rcases hke : entryKeyEq a0 e0 with _ | _
          · rw [if_neg (by simp [hke])]
          · rw [if_pos rfl]
        rw [hida]
        exact hbnd a0 ha0
      · exact uKO_map_pairs _ s.db (hpair s.db) huko
    · rw [if_neg hc]
      refine ⟨?_, ?_, ?_⟩
      · intro a ha b hb hab
        rcases List.mem_append.mp ha with ha1 | ha2
        · rcases List.mem_append.mp hb with hb1 | hb2
          · exact hinj a ha1 b hb1 hab
          · have hb3 : b = { e0 with id := s.nextId } := List.mem_singleton.mp hb2
            have : a.id < s.nextId := hbnd a ha1
            rw [hab, hb3] at this
            exact absurd this (by simp)
        · have ha3 : a = { e0 with id := s.nextId } := List.mem_singleton.mp ha2
          rcases List.mem_append.mp hb with hb1 | hb2
          · have : b.id < s.nextId := hbnd b hb1
            rw [← hab, ha3] at this
            exact absurd this (by simp)
          · exact ha3.trans (List.mem_singleton.mp hb2).symm
      · intro e hee
        rcases List.mem_append.mp hee with h1 | h2
        · exact Nat.lt_succ_of_lt (hbnd e h1)
        · rw [List.mem_singleton.mp h2]
          exact Nat.lt_succ_self _
      · exact uKO_append_one s.db _ huko (by
          have : (fun x => entryKeyEq x { e0 with id := s.nextId })
              = (fun x => entryKeyEq x e0) := by
            funext x
            rfl
          rw [this]
          simpa using hc)
  · intro s _
    simp only [upsertRowDb]
    by_cases hc : s.db.any (fun x => entryKeyEq x e0) = true
    · rw [if_pos hc]
      exact oslice_map_own emp _ hf1 hf2 s.db
    · rw [if_neg hc]
      show oslice emp (s.db ++ [{ e0 with id := s.nextId }]) = oslice emp s.db
      unfold oslice
      rw [List.filter_append]
      have : List.filter (fun e => !ownT emp e) [{ e0 with id := s.nextId }] = [] := by
        have hOwn : ownT emp { e0 with id := s.nextId } = true := he0
        simp [hOwn]
      rw [this, List.append_nil]
  · intro s t _ _ he
    simp only [upsertRowDb]
    have hcc : s.db.any (fun x => entryKeyEq x e0)
        = t.db.any (fun x => entryKeyEq x e0) := by
      rw [any_restrict _ (ownT emp) hscope s.db, any_restrict _ (ownT emp) hscope t.db]
      show (tslice emp s.db).any _ = (tslice emp t.db).any _
      rw [he.own]
    by_cases hc : s.db.any (fun x => entryKeyEq x e0) = true
    · rw [if_pos hc, if_pos (hcc ▸ hc)]
      refine ⟨rfl, ?_, he.s3eq, he.nid⟩
      show tslice emp (s.db.map _) = tslice emp (t.db.map _)
      rw [tslice_map_own emp _ hf1 hf2 s.db, tslice_map_own emp _ hf1 hf2 t.db, he.own]
    · rw [if_neg hc, if_neg (fun hh => hc (hcc ▸ hh))]
      refine ⟨rfl, ?_, he.s3eq, ?_⟩
      · show tslice emp (s.db ++ [{ e0 with id := s.nextId }])
          = tslice emp (t.db ++ [{ e0 with id := t.nextId }])
        unfold tslice
        rw [List.filter_append, List.filter_append]
        have hOs : List.filter (ownT emp) [{ e0 with id := s.nextId }]
            = [{ e0 with id := s.nextId }] := by
          have hOwn : ownT emp { e0 with id := s.nextId } = true := he0
          simp [hOwn]
        have hOt : List.filter (ownT emp) [{ e0 with id := t.nextId }]
            = [{ e0 with id := t.nextId }] := by
          have hOwn : ownT emp { e0 with id := t.nextId } = true := he0
          simp [hOwn]
        rw [hOs, hOt, he.nid]
        show tslice emp s.db ++ _ = tslice emp t.db ++ _
        rw [he.own]
      · show s.nextId + 1 = t.nextId + 1
        rw [he.nid]

theorem TIso.upsertManyI {emp : Option Str} (rows : List Entry)
    (hrows : ∀ r ∈ rows, ownT emp r = true) : TIso emp (upsertManyDb rows) := by
  induction rows with
  | nil => exact TIso.pureI ()
  | cons r t ih =>
      exact TIso.bindI (TIso.upsertRowI r (hrows r (List.mem_cons_self r t)))
        (fun _ => ih (fun x hx => hrows x (List.mem_cons_of_mem r hx)))

theorem TIso.stCreateFolderMarkerI {emp : Option Str} (folder rel : Str) :
    TIso emp (stCreateFolderMarker folder rel) :=
  TIso.bindI (TIso.s3PutI _) (fun _ => TIso.pureI _)

theorem TIso.stUploadLoopI {emp : Option Str} (fails : List Bool) (folder : Str)
    (paths : Option (List Str)) :
    ∀ (fs : List MFile) (i : Nat), TIso emp (stUploadLoop fails folder paths fs i) := by
  intro fs
  induction fs with
  | nil =>
      intro i
      exact TIso.pureI _
  | cons f t ih =>
      intro i
      exact TIso.iteI _
        (TIso.bindI (ih (i + 1)) (fun a => by
          obtain ⟨rs, es⟩ := a
          exact TIso.pureI _))
        (TIso.bindI (TIso.s3PutI _) (fun _ =>
          TIso.bindI (ih (i + 1)) (fun a => by
            obtain ⟨rs, es⟩ := a
            exact TIso.pureI _)))

theorem TIso.stUploadMultipleFilesI {emp : Option Str} (fails : List Bool)
    (files : List MFile) (folder : Str) (paths : Option (List Str)) :
    TIso emp (stUploadMultipleFiles fails files folder paths) :=
  TIso.bindI (TIso.stUploadLoopI fails folder paths files 0) (fun a => by
    obtain ⟨rs, es⟩ := a
    exact TIso.pureI _)

theorem TIso.stRenameFileI {emp : Option Str} (fail : Bool) (cut : Nat) (b o n : Str) :
    TIso emp (stRenameFile fail cut b o n) := by
  unfold stRenameFile
  refine TIso.iteI _ (TIso.failI _) ?_
  show TIso emp (if fail = true then
      (if cut = 0 then (StM.fail Err.storage : StM Sys (Str × Str))
       else (s3Put (storageBuildKey b n) >>= fun _ => StM.fail Err.storage))
    else (s3Put (storageBuildKey b n) >>= fun _ =>
      s3Delete (storageBuildKey b o) >>= fun _ =>
      pure (storageBuildKey b o, storageBuildKey b n)))
  refine TIso.iteI _ ?_ ?_
  · exact TIso.iteI _ (TIso.failI _)
      (TIso.bindI (TIso.s3PutI _) (fun _ => TIso.failI _))
  · exact TIso.bindI (TIso.s3PutI _) (fun _ =>
      TIso.bindI (TIso.s3DeleteI _) (fun _ => TIso.pureI _))

theorem TIso.stMoveFileI {emp : Option Str} (fail : Bool) (b o n : Str) :
    TIso emp (stMoveFile fail b o n) :=
  TIso.iteI _ (TIso.failI _)
    (TIso.bindI (TIso.s3PutI _) (fun _ =>
      TIso.bindI (TIso.s3DeleteI _) (fun _ => TIso.pureI _)))

theorem TIso.stMovePrefixI {emp : Option Str} (fail : Bool) (cut : Nat) (b o n : Str) :
    TIso emp (stMovePrefix fail cut b o n) := by
  unfold stMovePrefix
  refine TIso.bindI (TIso.s3ListPrefixI _) (fun objs => ?_)
  refine TIso.iteI _ ?_ ?_
  · exact TIso.iteI _ (TIso.failI _)
      (TIso.bindI (TIso.s3PutAllI _) (fun _ => TIso.failI _))
  · exact TIso.iteI _
      (TIso.bindI (TIso.s3PutI _) (fun _ => TIso.pureI _))
      (TIso.bindI (TIso.s3PutAllI _) (fun _ =>
        TIso.bindI (TIso.s3DeleteAllI _) (fun _ => TIso.pureI _)))

theorem TIso.stDeleteObjectI {emp : Option Str} (fail : Bool) (b rel : Str) :
    TIso emp (stDeleteObject fail b rel) :=
  TIso.iteI _ (TIso.failI _)
    (TIso.bindI (TIso.s3DeleteI _) (fun _ => TIso.pureI _))

theorem TIso.stDeletePrefixI {emp : Option Str} (fail : Bool) (cut : Nat) (b rel : Str) :
    TIso emp (stDeletePrefix fail cut b rel) := by
  unfold stDeletePrefix
  refine TIso.bindI (TIso.s3ListPrefixI _) (fun objs => ?_)
  refine TIso.iteI _ ?_ ?_
  · exact TIso.bindI (TIso.s3DeleteAllI _) (fun _ => TIso.failI _)
  · exact TIso.bindI (TIso.s3DeleteAllI _) (fun _ =>
      TIso.bindI (TIso.s3DeleteI _) (fun _ => TIso.pureI _))

theorem TIso.stPresignedGetUrlI {emp : Option Str} (fail : Bool) (b rel : Str) :
    TIso emp (stPresignedGetUrl fail b rel) :=
  TIso.iteI _ (TIso.pureI _) (TIso.pureI _)

theorem folderAt_scoped (emp : Option Str) (root acc2 : Str) :
    ∀ e : Entry, folderAt root emp acc2 e = true → ownT emp e = true := by
  intro e hee
  unfold folderAt at hee
  rw [Bool.and_eq_true] at hee
  exact hee.2

theorem folderRow_own (emp : Option Str) (root acc2 part : Str) :
    ownT emp (folderRow root emp acc2 part) = true := by
  simp [ownT, folderRow]

theorem TIso.ensureChainGoI {emp : Option Str} (root : Str) :
    ∀ (parts : List Str) (acc : Str), TIso emp (ensureChainGo root emp acc parts) := by
  intro parts
  induction parts with
  | nil =>
      intro acc
      exact TIso.pureI _
  | cons part rest ih =>
      intro acc
      refine TIso.bindI (TIso.findOneI _ (folderAt_scoped emp root _)) ?_
      intro found
      cases found with
      | none =>
          exact TIso.bindI (TIso.saveNewI _ (folderRow_own emp root _ part)) (fun _ =>
            TIso.bindI (TIso.stCreateFolderMarkerI _ _) (fun _ => ih _))
      | some _ => exact ih _

theorem TIso.ensureFolderChainI {emp : Option Str} (root folderPath : Str) :
    TIso emp (ensureFolderChain root folderPath emp) :=
  TIso.iteI _ (TIso.pureI _) (TIso.ensureChainGoI root _ [])

theorem TIso.ensureChainCachedGoI {emp : Option Str} (root : Str) :
    ∀ (parts : List Str) (acc : Str) (cache : List CacheKey),
      TIso emp (ensureChainCachedGo root emp acc cache parts) := by
  intro parts
  induction parts with
  | nil =>
      intro acc cache
      exact TIso.pureI _
  | cons part rest ih =>
      intro acc cache
      refine TIso.iteI _ (ih _ _) ?_
      refine TIso.bindI (TIso.findOneI _ (folderAt_scoped emp root _)) ?_
      intro found
      cases found with
      | none =>
          exact TIso.bindI (TIso.saveNewI _ (folderRow_own emp root _ part)) (fun _ =>
            ih _ _)
      | some _ => exact ih _ _

theorem TIso.ensureFolderChainCachedI {emp : Option Str} (root folderPath : Str)
    (cache : List CacheKey) :
    TIso emp (ensureFolderChainCached root folderPath emp cache) :=
  TIso.iteI _ (TIso.pureI _) (TIso.ensureChainCachedGoI root _ [] cache)

theorem TIso.ufEnsureAllI {emp : Option Str} (root : Str) :
    ∀ (rels : List Str) (cache : List CacheKey),
      TIso emp (ufEnsureAll root emp rels cache) := by
  intro rels
  induction rels with
  | nil =>
      intro cache
      exact TIso.pureI _
  | cons rel t ih =>
      intro cache
      exact TIso.bindI (TIso.ensureFolderChainCachedI root _ cache) (fun c2 => ih c2)

theorem TIso.umLoopI {emp : Option Str} (root : Str) (okSet : List Str) :
    ∀ (batch : List (MFile × Str)) (cache : List CacheKey),
      TIso emp (umLoop root emp okSet batch cache) := by
  intro batch
  induction batch with
  | nil =>
      intro cache
      exact TIso.pureI _
  | cons fr t ih =>
      intro cache
      obtain ⟨f, rel⟩ := fr
      refine TIso.iteI _ (ih cache) ?_
      exact TIso.bindI (TIso.ensureFolderChainCachedI root _ cache) (fun cache2 =>
        TIso.bindI (ih cache2) (fun rows => TIso.pureI _))

theorem StM.run_bind_pure {α β : Type} (x : StM Sys α) (v : β) (s : Sys) :
    (x >>= fun _ => pure v) s = ((x s).1.map (fun _ => v), (x s).2) := by
  rw [StM.run_bind]
  rcases hx : x s with ⟨r, s'⟩
  cases r
  · rfl
  · rfl

theorem oslice_map_own_mem (emp : Option Str) (f : Entry → Entry) :
    ∀ db : Store,
      (∀ x ∈ db, ownT emp x = false → f x = x) →
      (∀ x ∈ db, ownT emp x = true → ownT emp (f x) = true) →
      oslice emp (db.map f) = oslice emp db := by
  intro db
  induction db with
  | nil =>
      intro _ _
      rfl
  | cons h t ih =>
      intro hf1 hf2
      rw [List.map_cons]
      by_cases hOwn : ownT emp h = true
      · rw [show oslice emp (f h :: t.map f) = oslice emp (t.map f) from
            List.filter_cons_of_neg
              (by simp [hf2 h (List.mem_cons_self h t) hOwn]),
          show oslice emp (h :: t) = oslice emp t from
            List.filter_cons_of_neg (by simp [hOwn])]
        exact ih (fun x hx => hf1 x (List.mem_cons_of_mem h hx))
          (fun x hx => hf2 x (List.mem_cons_of_mem h hx))
      · have hOwn2 : ownT emp h = false := by simpa using hOwn
        rw [show oslice emp (f h :: t.map f) = f h :: oslice emp (t.map f) from
            List.filter_cons_of_pos
              (by simp [hf1 h (List.mem_cons_self h t) hOwn2, hOwn2]),
          show oslice emp (h :: t) = h :: oslice emp t from
            List.filter_cons_of_pos (by simp [hOwn2]),
          ih (fun x hx => hf1 x (List.mem_cons_of_mem h hx))
            (fun x hx => hf2 x (List.mem_cons_of_mem h hx)),
          hf1 h (List.mem_cons_self h t) hOwn2]

theorem tslice_map_own_mem (emp : Option Str) (f : Entry → Entry) :
    ∀ db : Store,
      (∀ x ∈ db, ownT emp x = false → f x = x) →
      (∀ x ∈ db, ownT emp x = true → ownT emp (f x) = true) →
      tslice emp (db.map f) = (tslice emp db).map f := by
  intro db
  induction db with
  | nil =>
      intro _ _
      rfl
  | cons h t ih =>
      intro hf1 hf2
      rw [List.map_cons]
      by_cases hOwn : ownT emp h = true
      · rw [show tslice emp (f h :: t.map f) = f h :: tslice emp (t.map f) from
            List.filter_cons_of_pos (hf2 h (List.mem_cons_self h t) hOwn),
          show tslice emp (h :: t) = h :: tslice emp t from
            List.filter_cons_of_pos hOwn, List.map_cons,
          ih (fun x hx => hf1 x (List.mem_cons_of_mem h hx))
            (fun x hx => hf2 x (List.mem_cons_of_mem h hx))]
      · have hOwn2 : ownT emp h = false := by simpa using hOwn
        rw [show tslice emp (f h :: t.map f) = tslice emp (t.map f) from
            List.filter_cons_of_neg
              (by simp [hf1 h (List.mem_cons_self h t) hOwn2, hOwn2]),
          show tslice emp (h :: t) = tslice emp t from
            List.filter_cons_of_neg (by simp [hOwn2]),
          ih (fun x hx => hf1 x (List.mem_cons_of_mem h hx))
            (fun x hx => hf2 x (List.mem_cons_of_mem h hx))]

/-- The row rewritten by `updateOnePath` for a fetched entity. -/
def upd1 (root : Str) (emp : Option Str) (newPath : Str) (it : Entry) : Entry :=
  { it with
    path := normPath newPath, parentPath := parentOf (normPath newPath),
    name := nameOf (normPath newPath),
    s3Key := buildTenantS3Key root emp (normPath newPath) (it.type == EType.folder) }

theorem saveUpdateDb_pres (e2 : Entry) (s : Sys) (hs : DbInv s) :
    DbInv (saveUpdateDb e2 s).2 := by
  obtain ⟨hinj, hbnd, huko⟩ := hs
  simp only [saveUpdateDb]
  by_cases hc : s.db.any (fun x => decide (x.id ≠ e2.id) && entryKeyEq x e2) = true
  · rw [if_pos hc]
    exact ⟨hinj, hbnd, huko⟩
  · rw [if_neg hc]
    have hc2 : ∀ x ∈ s.db, (decide (x.id ≠ e2.id) && entryKeyEq x e2) = false := by
      intro x hx
      rcases hxx : (decide (x.id ≠ e2.id) && entryKeyEq x e2) with _ | _
      · rfl
      · exact absurd (List.any_eq_true.mpr ⟨x, hx, hxx⟩) hc
    have hid : ∀ x : Entry, (if x.id = e2.id then e2 else x).id = x.id := by
      intro x
      by_cases hxe : x.id = e2.id
      · rw [if_pos hxe, hxe]
      · rw [if_neg hxe]
    refine ⟨?_, ?_, ?_⟩
    · intro a ha b hb hab
      obtain ⟨a0, ha0, ha0e⟩ := List.mem_map.mp ha
      obtain ⟨b0, hb0, hb0e⟩ := List.mem_map.mp hb
      have : a0 = b0 := hinj a0 ha0 b0 hb0 (by
        have h1 : a.id = a0.id := by rw [← ha0e]; exact hid a0
        have h2 : b.id = b0.id := by rw [← hb0e]; exact hid b0
        rw [← h1, ← h2, hab])
      rw [← ha0e, ← hb0e, this]
    · intro e hee
      obtain ⟨a0, ha0, ha0e⟩ := List.mem_map.mp hee
      have h1 : e.id = a0.id := by rw [← ha0e]; exact hid a0
      rw [h1]
      exact hbnd a0 ha0
    · refine uKO_map_pairs _ s.db ?_ huko
      intro a ha b hb hab
      by_cases hae : a.id = e2.id
      · by_cases hbe : b.id = e2.id
        · exfalso
          have hab2 : a = b := hinj a ha b hb (hae.trans hbe.symm)
          rw [hab2, entryKeyEq_refl b] at hab
          exact absurd hab (by simp)
        · rw [if_pos hae, if_neg hbe]
          have := hc2 b hb
          rw [Bool.and_eq_false_iff] at this
          rcases this with h1 | h2
          · exact absurd h1 (by simp [hbe])
          · rw [entryKeyEq_symm]
            exact h2
      · by_cases hbe : b.id = e2.id
        · rw [if_neg hae, if_pos hbe]
          have := hc2 a ha
          rw [Bool.and_eq_false_iff] at this
          rcases this with h1 | h2
          · exact absurd h1 (by simp [hae])
          · exact h2
        · rw [if_neg hae, if_neg hbe]
          exact hab

theorem saveUpdateDb_anchored (emp : Option Str) (e2 : Entry)
    (he2 : ownT emp e2 = true) (s t : Sys) (hs : DbInv s) (ht : DbInv t)
    (he : TEqv emp s t)
    (hanc : ∃ x, x ∈ s.db ∧ ownT emp x = true ∧ x.id = e2.id) :
    (saveUpdateDb e2 s).1 = (saveUpdateDb e2 t).1 ∧
    TEqv emp (saveUpdateDb e2 s).2 (saveUpdateDb e2 t).2 ∧
    oslice emp (saveUpdateDb e2 s).2.db = oslice emp s.db ∧
    oslice emp (saveUpdateDb e2 t).2.db = oslice emp t.db := by
  obtain ⟨x0, hx0m, hx0o, hx0id⟩ := hanc
  have hx0t : x0 ∈ t.db := by
    have h1 : x0 ∈ tslice emp s.db := List.mem_filter.mpr ⟨hx0m, hx0o⟩
    rw [he.own] at h1
    exact (List.mem_filter.mp h1).1
  have hscope : ∀ x : Entry,
      (decide (x.id ≠ e2.id) && entryKeyEq x e2) = true → ownT emp x = true := by
    intro x hx
    rw [Bool.and_eq_true] at hx
    rw [ownT_of_entryKeyEq emp x e2 hx.2]
    exact he2
  have hcc : s.db.any (fun x => decide (x.id ≠ e2.id) && entryKeyEq x e2)
      = t.db.any (fun x => decide (x.id ≠ e2.id) && entryKeyEq x e2) := by
    rw [any_restrict _ (ownT emp) hscope s.db, any_restrict _ (ownT emp) hscope t.db]
    show (tslice emp s.db).any _ = (tslice emp t.db).any _
    rw [he.own]
  have hf1s : ∀ x ∈ s.db, ownT emp x = false →
      (if x.id = e2.id then e2 else x) = x := by
    intro x hx hox
    by_cases hxe : x.id = e2.id
    · exfalso
      have : x0 = x := hs.1 x0 hx0m x hx (by rw [hx0id, hxe])
      rw [this] at hx0o
      rw [hx0o] at hox
      exact absurd hox (by simp)
    · rw [if_neg hxe]
  have hf1t : ∀ x ∈ t.db, ownT emp x = false →
      (if x.id = e2.id then e2 else x) = x := by
    intro x hx hox
    by_cases hxe : x.id = e2.id
    · exfalso
      have : x0 = x := ht.1 x0 hx0t x hx (by rw [hx0id, hxe])
      rw [this] at hx0o
      rw [hx0o] at hox
      exact absurd hox (by simp)
    · rw [if_neg hxe]
  have hf2 : ∀ x : Entry, ownT emp x = true →
      ownT emp (if x.id = e2.id then e2 else x) = true := by
    intro x hx
    by_cases hxe : x.id = e2.id
    · rw [if_pos hxe]
      exact he2
    · rw [if_neg hxe]
      exact hx
  simp only [saveUpdateDb]
  by_cases hc : s.db.any (fun x => decide (x.id ≠ e2.id) && entryKeyEq x e2) = true
  · rw [if_pos hc, if_pos (hcc ▸ hc)]
    exact ⟨rfl, he, rfl, rfl⟩
  · rw [if_neg hc, if_neg (fun hh => hc (hcc ▸ hh))]
    refine ⟨rfl, ⟨?_, he.s3eq, he.nid⟩, ?_, ?_⟩
    · show tslice emp (s.db.map _) = tslice emp (t.db.map _)
      rw [tslice_map_own_mem emp _ s.db hf1s (fun x _ => hf2 x),
        tslice_map_own_mem emp _ t.db hf1t (fun x _ => hf2 x), he.own]
    · exact oslice_map_own_mem emp _ s.db hf1s (fun x _ => hf2 x)
    · exact oslice_map_own_mem emp _ t.db hf1t (fun x _ => hf2 x)

theorem keyPred_scoped (root : Str) (emp : Option Str) (path : Str) :
    ∀ e : Entry, keyPred root emp path e = true → ownT emp e = true := by
  intro e hee
  unfold keyPred at hee
  rw [Bool.and_eq_true, Bool.and_eq_true] at hee
  exact hee.1.2

theorem TIso.updateOnePathI {emp : Option Str} (root oldPath newPath : Str) :
    TIso emp (updateOnePath root emp oldPath newPath) := by
  have hb : ∀ s : Sys, updateOnePath root emp oldPath newPath s
      = ((match s.db.find? (keyPred root emp oldPath) with
          | none => pure none
          | some it => (saveUpdateDb (upd1 root emp newPath it) >>=
              fun _ => pure (some (upd1 root emp newPath it)))) : StM Sys (Option Entry)) s :=
    fun _ => rfl
  constructor
  · intro s hs
    rw [hb s]
    rcases hfind : s.db.find? (keyPred root emp oldPath) with _ | it
    · exact hs
    · show DbInv ((saveUpdateDb (upd1 root emp newPath it) >>=
          fun _ => pure (some (upd1 root emp newPath it))) s).2
      rw [StM.run_bind_pure]
      exact saveUpdateDb_pres _ s hs
  · intro s hs
    rw [hb s]
    rcases hfind : s.db.find? (keyPred root emp oldPath) with _ | it
    · rfl
    · show oslice emp ((saveUpdateDb (upd1 root emp newPath it) >>=
          fun _ => pure (some (upd1 root emp newPath it))) s).2.db = oslice emp s.db
      rw [StM.run_bind_pure]
      have hmem : it ∈ s.db := List.mem_of_find?_eq_some hfind
      have hown : ownT emp it = true :=
        keyPred_scoped root emp oldPath it (List.find?_some hfind)
      have h4 := saveUpdateDb_anchored emp (upd1 root emp newPath it)
        hown s s hs hs ⟨rfl, rfl, rfl⟩ ⟨it, hmem, hown, rfl⟩
      exact h4.2.2.1
  · intro s t hs ht he
    rw [hb s, hb t]
    have hff : s.db.find? (keyPred root emp oldPath)
        = t.db.find? (keyPred root emp oldPath) := by
      rw [find?_restrict _ (ownT emp) (keyPred_scoped root emp oldPath) s.db,
        find?_restrict _ (ownT emp) (keyPred_scoped root emp oldPath) t.db]
      show (tslice emp s.db).find? _ = (tslice emp t.db).find? _
      rw [he.own]
    rcases hfind : s.db.find? (keyPred root emp oldPath) with _ | it
    · rw [hfind] at hff
      rw [← hff]
      exact ⟨rfl, he⟩
    · rw [hfind] at hff
      rw [← hff]
      have hmem : it ∈ s.db := List.mem_of_find?_eq_some hfind
      have hown : ownT emp it = true :=
        keyPred_scoped root emp oldPath it (List.find?_some hfind)
      have h4 := saveUpdateDb_anchored emp (upd1 root emp newPath it)
        hown s t hs ht he ⟨it, hmem, hown, rfl⟩
      show ((saveUpdateDb (upd1 root emp newPath it) >>=
            fun _ => pure (some (upd1 root emp newPath it))) s).1
          = ((saveUpdateDb (upd1 root emp newPath it) >>=
            fun _ => pure (some (upd1 root emp newPath it))) t).1 ∧
          TEqv emp ((saveUpdateDb (upd1 root emp newPath it) >>=
            fun _ => pure (some (upd1 root emp newPath it))) s).2
            ((saveUpdateDb (upd1 root emp newPath it) >>=
            fun _ => pure (some (upd1 root emp newPath it))) t).2
      rw [StM.run_bind_pure, StM.run_bind_pure]
      refine ⟨?_, h4.2.1⟩
      show (saveUpdateDb (upd1 root emp newPath it) s).1.map
          (fun _ => some (upd1 root emp newPath it))
        = (saveUpdateDb (upd1 root emp newPath it) t).1.map
          (fun _ => some (upd1 root emp newPath it))
      rw [h4.1]

theorem cascadeAff_scoped (root : Str) (emp : Option Str) (oldP : Str) :
    ∀ e : Entry, cascadeAff root emp oldP e = true → ownT emp e = true := by
  intro e hee
  unfold cascadeAff at hee
  rw [Bool.and_eq_true, Bool.and_eq_true] at hee
  exact hee.1.2

theorem cascadeRewrite_emp (root : Str) (emp : Option Str) (oldP newP : Str)
    (row : Entry) :
    (cascadeRewrite root emp oldP newP row).employeeNumber = row.employeeNumber := rfl

theorem cascadeRewrite_id (root : Str) (emp : Option Str) (oldP newP : Str)
    (row : Entry) : (cascadeRewrite root emp oldP newP row).id = row.id := rfl

/-- The per-row replacement of `repo.save(array)`: the saved row with the
matching primary key, if any. -/
def repBy (rows : List Entry) (x : Entry) : Entry :=
  match rows.find? (fun r => r.id == x.id) with
  | some r => r
  | none => x

theorem repBy_none (rows : List Entry) (x : Entry)
    (h : rows.find? (fun r => r.id == x.id) = none) : repBy rows x = x := by
  unfold repBy
  rw [h]

theorem repBy_some (rows : List Entry) (x r : Entry)
    (h : rows.find? (fun r => r.id == x.id) = some r) : repBy rows x = r := by
  unfold repBy
  rw [h]

theorem repBy_id (rows : List Entry) (x : Entry) : (repBy rows x).id = x.id := by
  rcases h : rows.find? (fun r => r.id == x.id) with _ | r
  · rw [repBy_none rows x h]
  · rw [repBy_some rows x r h]
    have hpr := List.find?_some h
    exact beq_iff_eq.mp hpr

theorem repBy_own (emp : Option Str) (rows : List Entry)
    (hrows : ∀ r ∈ rows, ownT emp r = true) (x : Entry)
    (hx : ownT emp x = true) : ownT emp (repBy rows x) = true := by
  rcases h : rows.find? (fun r => r.id == x.id) with _ | r
  · rw [repBy_none rows x h]
    exact hx
  · rw [repBy_some rows x r h]
    exact hrows r (List.mem_of_find?_eq_some h)

theorem repBy_skip (emp : Option Str) (rows : List Entry) (db : Store)
    (hinj : ∀ a ∈ db, ∀ b ∈ db, a.id = b.id → a = b)
    (hanchor : ∀ r ∈ rows, ∃ y, y ∈ db ∧ ownT emp y = true ∧ y.id = r.id)
    (x : Entry) (hx : x ∈ db) (hox : ownT emp x = false) : repBy rows x = x := by
  rcases h : rows.find? (fun r => r.id == x.id) with _ | r
  · exact repBy_none rows x h
  · exfalso
    obtain ⟨y, hym, hyo, hyid⟩ := hanchor r (List.mem_of_find?_eq_some h)
    have hrid : r.id = x.id := by
      have hpr := List.find?_some h
      exact beq_iff_eq.mp hpr
    have : y = x := hinj y hym x hx (by rw [hyid, hrid])
    rw [this] at hyo
    rw [hyo] at hox
    exact absurd hox (by simp)

theorem saveManyDb_run (rows : List Entry) (s : Sys) :
    saveManyDb rows s
      = (if uniqueKeysOk (s.db.map (repBy rows)) = true then
          (Except.ok (), { s with db := s.db.map (repBy rows) })
        else (Except.error Err.uniqueViolation, s)) := rfl

theorem DbInv_map_ids (s : Sys) (f : Entry → Entry)
    (hf : ∀ x, (f x).id = x.id) (hs : DbInv s)
    (huko2 : uniqueKeysOk (s.db.map f) = true) :
    DbInv { s with db := s.db.map f } := by
  obtain ⟨hinj, hbnd, _⟩ := hs
  refine ⟨?_, ?_, huko2⟩
  · intro a ha b hb hab
    obtain ⟨a0, ha0, ha0e⟩ := List.mem_map.mp ha
    obtain ⟨b0, hb0, hb0e⟩ := List.mem_map.mp hb
    have : a0 = b0 := hinj a0 ha0 b0 hb0 (by
      have h1 : a.id = a0.id := by rw [← ha0e]; exact hf a0
      have h2 : b.id = b0.id := by rw [← hb0e]; exact hf b0
      rw [← h1, ← h2, hab])
    rw [← ha0e, ← hb0e, this]
  · intro e hee
    obtain ⟨a0, ha0, ha0e⟩ := List.mem_map.mp hee
    have h1 : e.id = a0.id := by rw [← ha0e]; exact hf a0
    show e.id < s.nextId
    rw [h1]
    exact hbnd a0 ha0

theorem TIso.cascadeUpdatePrefixI {emp : Option Str} (root oldPrefix newPrefix : Str) :
    TIso emp (cascadeUpdatePrefix root emp oldPrefix newPrefix) := by
  have hb : ∀ s : Sys, cascadeUpdatePrefix root emp oldPrefix newPrefix s
      = ((if (((s.db.filter (cascadeAff root emp (normPath oldPrefix))).map
            (cascadeRewrite root emp (normPath oldPrefix) (normPath newPrefix))).length
            ≠ 0) then
           (saveManyDb ((s.db.filter (cascadeAff root emp (normPath oldPrefix))).map
              (cascadeRewrite root emp (normPath oldPrefix) (normPath newPrefix))) >>=
            fun _ => pure (s.db.filter (cascadeAff root emp (normPath oldPrefix))).length)
         else (pure PUnit.unit >>=
            fun _ => pure (s.db.filter (cascadeAff root emp (normPath oldPrefix))).length))
          : StM Sys Nat) s :=
    fun _ => rfl
  have hrowsOwn : ∀ s : Sys,
      ∀ r ∈ (s.db.filter (cascadeAff root emp (normPath oldPrefix))).map
        (cascadeRewrite root emp (normPath oldPrefix) (normPath newPrefix)),
      ownT emp r = true := by
    intro s r hr
    obtain ⟨y, hy, hye⟩ := List.mem_map.mp hr
    have hown : ownT emp y = true :=
      cascadeAff_scoped root emp _ y (List.of_mem_filter hy)
    rw [← hye]
    show ((cascadeRewrite root emp (normPath oldPrefix) (normPath newPrefix)
      y).employeeNumber == emp) = true
    rw [cascadeRewrite_emp]
    exact hown
  have hanchor : ∀ u s : Sys,
      ∀ r ∈ (u.db.filter (cascadeAff root emp (normPath oldPrefix))).map
        (cascadeRewrite root emp (normPath oldPrefix) (normPath newPrefix)),
      TEqv emp u s →
      ∃ y, y ∈ s.db ∧ ownT emp y = true ∧ y.id = r.id := by
    intro u s r hr heq
    obtain ⟨y, hy, hye⟩ := List.mem_map.mp hr
    have hym : y ∈ u.db := (List.filter_sublist _).subset hy
    have hyo : ownT emp y = true :=
      cascadeAff_scoped root emp _ y (List.of_mem_filter hy)
    have hys : y ∈ s.db := by
      have h1 : y ∈ tslice emp u.db := List.mem_filter.mpr ⟨hym, hyo⟩
      rw [heq.own] at h1
      exact (List.mem_filter.mp h1).1
    refine ⟨y, hys, hyo, ?_⟩
    rw [← hye, cascadeRewrite_id]
  constructor
  · intro s hs
    rw [hb s]
    by_cases hlen : (((s.db.filter (cascadeAff root emp (normPath oldPrefix))).map
        (cascadeRewrite root emp (normPath oldPrefix) (normPath newPrefix))).length
        ≠ 0)
    · rw [if_pos hlen, StM.run_bind_pure, saveManyDb_run]
      by_cases huko : uniqueKeysOk (s.db.map (repBy
          ((s.db.filter (cascadeAff root emp (normPath oldPrefix))).map
            (cascadeRewrite root emp (normPath oldPrefix) (normPath newPrefix))))) = true
      · rw [if_pos huko]
        exact DbInv_map_ids s _ (fun x => repBy_id _ x) hs huko
      · rw [if_neg huko]
        exact hs
    · rw [if_neg hlen]
      exact hs
  · intro s hs
    rw [hb s]
    by_cases hlen : (((s.db.filter (cascadeAff root emp (normPath oldPrefix))).map
        (cascadeRewrite root emp (normPath oldPrefix) (normPath newPrefix))).length
        ≠ 0)
    · rw [if_pos hlen, StM.run_bind_pure, saveManyDb_run]
      by_cases huko : uniqueKeysOk (s.db.map (repBy
          ((s.db.filter (cascadeAff root emp (normPath oldPrefix))).map
            (cascadeRewrite root emp (normPath oldPrefix) (normPath newPrefix))))) = true
      · rw [if_pos huko]
        exact oslice_map_own_mem emp _ s.db
          (fun x hx hox => repBy_skip emp _ s.db hs.1
            (fun r hr => hanchor s s r hr ⟨rfl, rfl, rfl⟩) x hx hox)
          (fun x _ hx => repBy_own emp _ (hrowsOwn s) x hx)
      · rw [if_neg huko]
    · rw [if_neg hlen]
      rfl
  · intro s t hs ht he
    have haff : s.db.filter (cascadeAff root emp (normPath oldPrefix))
        = t.db.filter (cascadeAff root emp (normPath oldPrefix)) := by
      rw [filter_restrict _ (ownT emp) (cascadeAff_scoped root emp _) s.db,
        filter_restrict _ (ownT emp) (cascadeAff_scoped root emp _) t.db]
      show (tslice emp s.db).filter _ = (tslice emp t.db).filter _
      rw [he.own]
    rw [hb s, hb t, ← haff]
    have hskt : ∀ x ∈ t.db, ownT emp x = false →
        repBy ((s.db.filter (cascadeAff root emp (normPath oldPrefix))).map
          (cascadeRewrite root emp (normPath oldPrefix) (normPath newPrefix))) x = x :=
      fun x hx hox => repBy_skip emp _ t.db ht.1
        (fun r hr => hanchor s t r hr he) x hx hox
    have hsks : ∀ x ∈ s.db, ownT emp x = false →
        repBy ((s.db.filter (cascadeAff root emp (normPath oldPrefix))).map
          (cascadeRewrite root emp (normPath oldPrefix) (normPath newPrefix))) x = x :=
      fun x hx hox => repBy_skip emp _ s.db hs.1
        (fun r hr => hanchor s s r hr ⟨rfl, rfl, rfl⟩) x hx hox
    have hownf : ∀ x : Entry, ownT emp x = true →
        ownT emp (repBy ((s.db.filter (cascadeAff root emp (normPath oldPrefix))).map
          (cascadeRewrite root emp (normPath oldPrefix) (normPath newPrefix))) x) = true :=
      fun x hx => repBy_own emp _ (hrowsOwn s) x hx
    by_cases hlen : (((s.db.filter (cascadeAff root emp (normPath oldPrefix))).map
        (cascadeRewrite root emp (normPath oldPrefix) (normPath newPrefix))).length
        ≠ 0)
    · rw [if_pos hlen, StM.run_bind_pure, StM.run_bind_pure,
        saveManyDb_run, saveManyDb_run]
      have htsl : tslice emp (s.db.map (repBy
            ((s.db.filter (cascadeAff root emp (normPath oldPrefix))).map
              (cascadeRewrite root emp (normPath oldPrefix) (normPath newPrefix)))))
          = tslice emp (t.db.map (repBy
            ((s.db.filter (cascadeAff root emp (normPath oldPrefix))).map
              (cascadeRewrite root emp (normPath oldPrefix) (normPath newPrefix))))) := by
        rw [tslice_map_own_mem emp _ s.db hsks (fun x _ hx => hownf x hx),
          tslice_map_own_mem emp _ t.db hskt (fun x _ hx => hownf x hx), he.own]
      have hukoeq : uniqueKeysOk (s.db.map (repBy
            ((s.db.filter (cascadeAff root emp (normPath oldPrefix))).map
              (cascadeRewrite root emp (normPath oldPrefix) (normPath newPrefix)))))
          = uniqueKeysOk (t.db.map (repBy
            ((s.db.filter (cascadeAff root emp (normPath oldPrefix))).map
              (cascadeRewrite root emp (normPath oldPrefix) (normPath newPrefix))))) := by
        have hos2 : uniqueKeysOk (oslice emp s.db) = true :=
          uKO_sublist (List.filter_sublist s.db) hs.2.2
        have hot2 : uniqueKeysOk (oslice emp t.db) = true :=
          uKO_sublist (List.filter_sublist t.db) ht.2.2
        rw [uKO_split emp (s.db.map _), uKO_split emp (t.db.map _),
          oslice_map_own_mem emp _ s.db hsks (fun x _ hx => hownf x hx),
          oslice_map_own_mem emp _ t.db hskt (fun x _ hx => hownf x hx), htsl,
          hos2, hot2]
      by_cases huko : uniqueKeysOk (s.db.map (repBy
          ((s.db.filter (cascadeAff root emp (normPath oldPrefix))).map
            (cascadeRewrite root emp (normPath oldPrefix) (normPath newPrefix))))) = true
      · rw [if_pos huko, if_pos (hukoeq ▸ huko)]
        exact ⟨rfl, ⟨htsl, he.s3eq, he.nid⟩⟩
      · rw [if_neg huko, if_neg (fun hh => huko (hukoeq ▸ hh))]
        exact ⟨rfl, he⟩
    · rw [if_neg hlen]
      exact ⟨rfl, he⟩

theorem TIso.bindQ {emp : Option Str} {α β : Type} {x : StM Sys α}
    {f : α → StM Sys β} (hx : TIso emp x) (Q : α → Prop)
    (hq : ∀ (s : Sys) (a : α) (s2 : Sys), x s = (Except.ok a, s2) → Q a)
    (hf : ∀ a, Q a → TIso emp (f a)) : TIso emp (x >>= f) := by
  constructor
  · intro s hs
    rw [StM.run_bind]
    rcases hxs : x s with ⟨r, s'⟩
    have hs' : DbInv s' := by
      have := hx.pres s hs
      rw [hxs] at this
      exact this
    cases r with
    | ok a => exact (hf a (hq s a s' hxs)).pres s' hs'
    | error e => exact hs'
  · intro s hs
    rw [StM.run_bind]
    rcases hxs : x s with ⟨r, s'⟩
    have hfr : oslice emp s'.db = oslice emp s.db := by
      have := hx.frame s hs
      rw [hxs] at this
      exact this
    have hs' : DbInv s' := by
      have := hx.pres s hs
      rw [hxs] at this
      exact this
    cases r with
    | ok a => exact ((hf a (hq s a s' hxs)).frame s' hs').trans hfr
    | error e => exact hfr
  · intro s t hs ht he
    rw [StM.run_bind, StM.run_bind]
    obtain ⟨h1, h2⟩ := hx.ni s t hs ht he
    rcases hxs : x s with ⟨rs, s'⟩
    rcases hxt : x t with ⟨rt, t'⟩
    rw [hxs, hxt] at h1 h2
    simp only at h1 h2
    subst h1
    have hs' : DbInv s' := by
      have := hx.pres s hs
      rw [hxs] at this
      exact this
    have ht' : DbInv t' := by
      have := hx.pres t ht
      rw [hxt] at this
      exact this
    cases rs with
    | ok a => exact (hf a (hq s a s' hxs)).ni s' t' hs' ht' h2
    | error e => exact ⟨rfl, h2⟩

set_option maxHeartbeats 1200000 in
theorem umLoop_rows_own (root : Str) (emp : Option Str) (okSet : List Str) :
    ∀ (batch : List (MFile × Str)) (cache : List CacheKey) (s : Sys)
      (rows : List Entry) (s2 : Sys),
      umLoop root emp okSet batch cache s = (Except.ok rows, s2) →
      ∀ r ∈ rows, ownT emp r = true := by
  intro batch
  induction batch with
  | nil =>
      intro cache s rows s2 h r hr
      replace h : ((Except.ok [], s) : Except Err (List Entry) × Sys)
          = (Except.ok rows, s2) := h
      have h1 := congrArg Prod.fst h
      simp only at h1
      injection h1 with h1
      rw [← h1] at hr
      exact absurd hr (List.not_mem_nil r)
  | cons fr t ih =>
      intro cache s rows s2 h r hr
      obtain ⟨f, rel⟩ := fr
      have heq : umLoop root emp okSet ((f, rel) :: t) cache
          = (if umSkip okSet rel = true then umLoop root emp okSet t cache
             else (ensureFolderChainCached root (parentOf rel) emp cache >>=
               fun cache2 => umLoop root emp okSet t cache2 >>=
                 fun rows2 => pure (fileRow root emp rel f :: rows2))) := rfl
      rw [heq] at h
      by_cases hsk : umSkip okSet rel = true
      · rw [if_pos hsk] at h
        exact ih cache s rows s2 h r hr
      · rw [if_neg hsk] at h
        obtain ⟨c2, s1, h1, h⟩ := StM.bind_ok (h := h)
        obtain ⟨rows2, s3, h2, h⟩ := StM.bind_ok (h := h)
        rw [StM.run_pure] at h
        have h3 := congrArg Prod.fst h
        simp only at h3
        injection h3 with h3
        rw [← h3] at hr
        rcases List.mem_cons.mp hr with hr1 | hr2
        · rw [hr1]
          show ((fileRow root emp rel f).employeeNumber == emp) = true
          simp [fileRow]
        · exact ih c2 s1 rows2 s3 h2 r hr2

theorem filterMap_fileRow_own (emp : Option Str) (root : Str) (okSet : List Str)
    (l : List (MFile × Str)) :
    ∀ r ∈ l.filterMap (fun fr => if umSkip okSet fr.2 then none
        else some (fileRow root emp fr.2 fr.1)), ownT emp r = true := by
  intro r hr
  obtain ⟨fr, hmem, hfr⟩ := List.mem_filterMap.mp hr
  by_cases hsk : umSkip okSet fr.2 = true
  · rw [if_pos hsk] at hfr
    exact absurd hfr (by simp)
  · rw [if_neg hsk] at hfr
    injection hfr with hfr
    rw [← hfr]
    show ((fileRow root emp fr.2 fr.1).employeeNumber == emp) = true
    simp [fileRow]

theorem TIso.listOpI {emp : Option Str} (root path : Str) :
    TIso emp (listOp root path emp) :=
  TIso.bindI (TIso.findAllI _ (fun e hee => by
      rw [Bool.and_eq_true] at hee
      exact hee.2))
    (fun items => TIso.pureI _)

theorem TIso.treeOpI {emp : Option Str} (root : Str) :
    TIso emp (treeOp root emp) :=
  TIso.bindI (TIso.findAllI _ (fun e hee => by
      rw [Bool.and_eq_true] at hee
      exact hee.2))
    (fun all => TIso.pureI _)

theorem TIso.createFolderOpI {emp : Option Str} (markerFail : Bool)
    (root path name : Str) :
    TIso emp (createFolderOp markerFail root path name emp) :=
  TIso.iteI _ (TIso.failI _)
    (TIso.bindI (TIso.ensureFolderChainI _ _) (fun _ =>
      TIso.bindI (TIso.ensureFolderChainI _ _) (fun _ =>
        TIso.iteI _ (TIso.failI _)
          (TIso.bindI (TIso.stCreateFolderMarkerI _ _) (fun _ => TIso.pureI _)))))

theorem TIso.uploadOneOpI {emp : Option Str} (stFail : Bool) (root path : Str)
    (file : MFile) :
    TIso emp (uploadOneOp stFail root path emp file) :=
  TIso.bindI (TIso.ensureFolderChainI _ _) (fun _ =>
    TIso.bindI (TIso.ensureFolderChainI _ _) (fun _ =>
      TIso.iteI _ (TIso.failI _)
        (TIso.bindI (TIso.s3PutI _) (fun _ =>
          TIso.bindI (TIso.upsertRowI _ (beq_self_eq_true emp)) (fun _ =>
            TIso.pureI _)))))

theorem TIso.uploadMultipleOpI {emp : Option Str} (fails : List Bool)
    (root path : Str) (files : List MFile) :
    TIso emp (uploadMultipleOp fails root path emp files) :=
  TIso.bindI (TIso.ensureFolderChainI _ _) (fun _ =>
    TIso.bindI (TIso.ensureFolderChainCachedI _ _ _) (fun cache1 =>
      TIso.bindI (TIso.stUploadMultipleFilesI _ _ _ _) (fun raw =>
        TIso.bindQ (TIso.umLoopI _ _ _ cache1)
          (fun rows => ∀ r ∈ rows, ownT emp r = true)
          (fun s a s2 h => umLoop_rows_own _ emp _ _ cache1 s a s2 h)
          (fun rows hrows =>
            TIso.bindI (TIso.upsertManyI rows hrows) (fun _ => TIso.pureI _)))))

theorem TIso.uploadFolderOpI {emp : Option Str} (fails : List Bool)
    (root basePath : Str) (paths : Option (List Str)) (files : List MFile) :
    TIso emp (uploadFolderOp fails root basePath emp paths files) :=
  TIso.iteI _ (TIso.failI _)
    (TIso.iteI _ (TIso.failI _)
      (TIso.bindI (TIso.ufEnsureAllI _ _ []) (fun _ =>
        TIso.bindI (TIso.stUploadMultipleFilesI _ _ _ _) (fun raw =>
          TIso.bindI
            (TIso.upsertManyI _ (filterMap_fileRow_own emp (normRoot root) _ _))
            (fun _ => TIso.pureI _)))))

theorem TIso.renameOpI {emp : Option Str} (stFail : Bool) (cut : Nat)
    (root oldPathArg newNameArg : Str) :
    TIso emp (renameOp stFail cut root oldPathArg newNameArg emp) := by
  refine TIso.iteI _ (TIso.failI _) (TIso.iteI _ (TIso.failI _)
    (TIso.bindI (TIso.findOneI _ (keyPred_scoped _ _ _)) ?_))
  intro existing
  cases existing with
  | none => exact TIso.failI _
  | some ex =>
      refine TIso.iteI _ ?_ ?_
      · exact TIso.bindI (TIso.stMovePrefixI _ _ _ _ _) (fun _ =>
          TIso.bindI (TIso.cascadeUpdatePrefixI _ _ _) (fun changed => TIso.pureI _))
      · exact TIso.bindI (TIso.stRenameFileI _ _ _ _ _) (fun _ =>
          TIso.bindI (TIso.updateOnePathI _ _ _) (fun _ => TIso.pureI _))

theorem TIso.moveFileOpI {emp : Option Str} (stFail : Bool)
    (root sourceArg targetArg : Str) :
    TIso emp (moveFileOp stFail root sourceArg targetArg emp) := by
  refine TIso.iteI _ (TIso.failI _)
    (TIso.bindI (TIso.findOneI _ (keyPred_scoped _ _ _)) ?_)
  intro existing
  cases existing with
  | none => exact TIso.failI _
  | some ex =>
      refine TIso.iteI _ (TIso.failI _) ?_
      exact TIso.bindI (TIso.ensureFolderChainI _ _) (fun _ =>
        TIso.bindI (TIso.stMoveFileI _ _ _ _) (fun _ =>
          TIso.bindI (TIso.updateOnePathI _ _ _) (fun _ => TIso.pureI _)))

theorem TIso.moveFolderOpI {emp : Option Str} (stFail : Bool) (cut : Nat)
    (root sourceArg targetArg : Str) :
    TIso emp (moveFolderOp stFail cut root sourceArg targetArg emp) := by
  refine TIso.iteI _ (TIso.failI _)
    (TIso.bindI (TIso.findOneI _ (keyPred_scoped _ _ _)) ?_)
  intro existing
  cases existing with
  | none => exact TIso.failI _
  | some ex =>
      refine TIso.iteI _ (TIso.failI _) ?_
      exact TIso.bindI (TIso.ensureFolderChainI _ _) (fun _ =>
        TIso.bindI (TIso.stMovePrefixI _ _ _ _ _) (fun _ =>
          TIso.bindI (TIso.cascadeUpdatePrefixI _ _ _) (fun changed => TIso.pureI _)))

theorem TIso.removeOpI {emp : Option Str} (stFail : Bool) (cut : Nat)
    (root pathArg : Str) (kind : DelKind) :
    TIso emp (removeOp stFail cut root pathArg kind emp) := by
  refine TIso.iteI _ (TIso.failI _)
    (TIso.bindI (TIso.findOneI _ (keyPred_scoped _ _ _)) ?_)
  intro existing
  cases existing with
  | none => exact TIso.failI _
  | some ex =>
      cases kind with
      | folder =>
          exact TIso.bindI (TIso.stDeletePrefixI _ _ _ _) (fun _ =>
            TIso.bindI (TIso.deleteI _ (fun e hee => by
                rw [Bool.and_eq_true, Bool.and_eq_true] at hee
                exact hee.1.2))
              (fun n => TIso.pureI _))
      | file =>
          exact TIso.bindI (TIso.stDeleteObjectI _ _ _) (fun _ =>
            TIso.bindI (TIso.deleteI _ (keyPred_scoped _ _ _)) (fun n => TIso.pureI _))

theorem TIso.getFileUrlOpI (urlFail : Bool) (root pathArg empArg : Str)
    (expires : Option Nat) :
    TIso (some (jsTrim empArg)) (getFileUrlOp urlFail root pathArg empArg expires) := by
  refine TIso.iteI _ (TIso.failI _) (TIso.iteI _ (TIso.failI _)
    (TIso.bindI (TIso.findOneI _ (fun e hee => by
        rw [Bool.and_eq_true, Bool.and_eq_true, Bool.and_eq_true] at hee
        exact hee.1.1.2)) ?_))
  intro row
  cases row with
  | none => exact TIso.failI _
  | some x =>
      exact TIso.bindI (TIso.stPresignedGetUrlI _ _ _) (fun pres =>
        TIso.iteI _ (TIso.pureI _) (TIso.failI _))

/-- C7: tenant isolation.  Every endpoint scoped to a tenant key
`employeeNumber` is tenant-isolated (`TIso`): it preserves the database
invariants guaranteed by the store (distinct primary keys below the id
counter, unique `(root, employeeNumber, path)` index), it never creates,
modifies or deletes a row of any other tenant (frame: the other-tenant
slice of the table is unchanged), and its response and resulting
own-tenant state are identical on any two stores that agree on the
tenant's own rows, the blob store and the id counter — so no entry of a
different tenant with the same root and path is ever read, changed or
returned.  This covers list, tree, createFolder, uploadOne,
uploadMultiple, uploadFolder, rename, moveFile, moveFolder, remove and
getFileUrl (whose tenant is the trimmed `employeeNumber` argument). -/
theorem C7_tenant_isolation :
    (∀ (root path : Str) (emp : Option Str), TIso emp (listOp root path emp)) ∧
    (∀ (root : Str) (emp : Option Str), TIso emp (treeOp root emp)) ∧
    (∀ (markerFail : Bool) (root path name : Str) (emp : Option Str),
      TIso emp (createFolderOp markerFail root path name emp)) ∧
    (∀ (stFail : Bool) (root path : Str) (emp : Option Str) (file : MFile),
      TIso emp (uploadOneOp stFail root path emp file)) ∧
    (∀ (fails : List Bool) (root path : Str) (emp : Option Str) (files : List MFile),
      TIso emp (uploadMultipleOp fails root path emp files)) ∧
    (∀ (fails : List Bool) (root basePath : Str) (emp : Option Str)
      (paths : Option (List Str)) (files : List MFile),
      TIso emp (uploadFolderOp fails root basePath emp paths files)) ∧
    (∀ (stFail : Bool) (cut : Nat) (root oldPathArg newNameArg : Str) (emp : Option Str),
      TIso emp (renameOp stFail cut root oldPathArg newNameArg emp)) ∧
    (∀ (stFail : Bool) (root sourceArg targetArg : Str) (emp : Option Str),
      TIso emp (moveFileOp stFail root sourceArg targetArg emp)) ∧
    (∀ (stFail : Bool) (cut : Nat) (root sourceArg targetArg : Str) (emp : Option Str),
      TIso emp (moveFolderOp stFail cut root sourceArg targetArg emp)) ∧
    (∀ (stFail : Bool) (cut : Nat) (root pathArg : Str) (kind : DelKind)
      (emp : Option Str),
      TIso emp (removeOp stFail cut root pathArg kind emp)) ∧
    (∀ (urlFail : Bool) (root pathArg empArg : Str) (expires : Option Nat),
      TIso (some (jsTrim empArg)) (getFileUrlOp urlFail root pathArg empArg expires)) :=
  ⟨fun root path _ => TIso.listOpI root path,
   fun root _ => TIso.treeOpI root,
   fun markerFail root path name _ => TIso.createFolderOpI markerFail root path name,
   fun stFail root path _ file => TIso.uploadOneOpI stFail root path file,
   fun fails root path _ files => TIso.uploadMultipleOpI fails root path files,
   fun fails root basePath _ paths files =>
     TIso.uploadFolderOpI fails root basePath paths files,
   fun stFail cut root oldPathArg newNameArg _ =>
     TIso.renameOpI stFail cut root oldPathArg newNameArg,
   fun stFail root sourceArg targetArg _ =>
     TIso.moveFileOpI stFail root sourceArg targetArg,
   fun stFail cut root sourceArg targetArg _ =>
     TIso.moveFolderOpI stFail cut root sourceArg targetArg,
   fun stFail cut root pathArg kind _ => TIso.removeOpI stFail cut root pathArg kind,
   fun urlFail root pathArg empArg expires =>
     TIso.getFileUrlOpI urlFail root pathArg empArg expires⟩

/-- A row of a second tenant `E2` occupying the SAME root and path as
tenant `E1`'s row. -/
def c7wOther : Entry :=
  { id := 2, root := str "drive", path := str "a.txt", name := str "a.txt",
    type := EType.file, parentPath := [],
    s3Key := str "drive/E2/a.txt", size := none, mimeType := none,
    employeeNumber := some (str "E2") }

def c7wS : Sys :=
  { db := [mkEnt 1 "a.txt" EType.file, c7wOther],
    s3 := [str "drive/E1/a.txt", str "drive/E2/a.txt"], nextId := 3 }

def c7wT : Sys :=
  { db := [mkEnt 1 "a.txt" EType.file],
    s3 := [str "drive/E1/a.txt", str "drive/E2/a.txt"], nextId := 3 }

theorem C7_tenant_isolation_witness :
    (listOp (str "drive") (str "") tE1 c7wS).1
      = (listOp (str "drive") (str "") tE1 c7wT).1 ∧
    oslice tE1 ((removeOp false 0 (str "drive") (str "a.txt")
      DelKind.file tE1 c7wS).2.db) = oslice tE1 c7wS.db :=
  ⟨((C7_tenant_isolation.1 (str "drive") (str "") tE1).ni c7wS c7wT
      ⟨by decide, by decide, by decide⟩ ⟨by decide, by decide, by decide⟩
      ⟨by decide, rfl, rfl⟩).1,
   (C7_tenant_isolation.2.2.2.2.2.2.2.2.2.1 false 0 (str "drive") (str "a.txt")
      DelKind.file tE1).frame c7wS
      ⟨by decide, by decide, by decide⟩⟩
